import Mathlib

/-!
A shallow embedding of the split cache table from
`quickwit-storage/src/split_cache/split_table.rs`, together with proofs of the
invariants and contracts the table is specified to satisfy.

Modelling conventions:
* `Nat` is a natural number (the source uses 128-bit time-ordered ids; only
  their linear order and equality matter to the table).
* `Instant`s and `Nat`s are natural numbers counting microseconds
  since the table's `origin_time` (which is 10 minutes before construction),
  exactly the timebase of `compute_timestamp`.  Each public operation that
  reads the clock takes the current timestamp `now` as an explicit argument.
* `Arc<()>` liveness tokens are modelled by allocation ids (`next_token`
  counter in the state); a token whose strong count has dropped to zero is a
  member of `dead_tokens`.  Dropping the token handed out by `start_download`
  is an explicit event of the transition system.
* `BTreeSet<SplitKey>` is a strictly sorted list; `HashMap` and the `lru`
  cache are association lists (the LRU list is kept most-recent-first).
* The `u64` byte counter wraps modulo `2 ^ 64` as Rust release arithmetic does.
* The source's `while` loops (`truncate_candidate_list`, the eviction loop of
  `make_room_for_split_if_necessary`) are written with explicit fuel; an
  iteration that makes no progress loops forever in Rust, which the model
  signals by returning `none`.  Operations therefore return `Option`,
  `none` meaning the call never completes.
-/

namespace SplitCache

/-- `2 ^ 64`, the modulus of Rust `u64` arithmetic. -/
def W : Nat := 18446744073709551616

/-- Maximum number of splits to track (split_table.rs line 37). -/
def MAX_NUM_CANDIDATES : Nat := 1000

/-- Ten minutes in microseconds (split_table.rs line 40). -/
def NEWLY_REPORTED_SPLIT_LAST_TIME : Nat := 600000000

/-- split_table.rs lines 42-66: ordered lexicographically by
`(last_accessed, split_ulid)`. -/
structure SplitKey where
  last_accessed : Nat
  split_ulid : Nat
deriving DecidableEq, Repr

/-- Boolean lexicographic strict order on split keys. -/
def keyLtb (a b : SplitKey) : Bool :=
  decide (a.last_accessed < b.last_accessed) ||
    (decide (a.last_accessed = b.last_accessed) && decide (a.split_ulid < b.split_ulid))

/-- The strict order on split keys as a proposition. -/
def keyLt (a b : SplitKey) : Prop := keyLtb a b = true

instance (a b : SplitKey) : Decidable (keyLt a b) := by
  unfold keyLt; infer_instance

instance : IsTrans SplitKey keyLt := by
  constructor
  intro a b c hab hbc
  simp only [keyLt, keyLtb, Bool.or_eq_true, Bool.and_eq_true, decide_eq_true_eq] at hab hbc ⊢
  omega

instance : IsIrrefl SplitKey keyLt := by
  constructor
  intro a h
  simp only [keyLt, keyLtb, Bool.or_eq_true, Bool.and_eq_true, decide_eq_true_eq] at h
  omega

/-- split_table.rs lines 485-490; `living_token` is the allocation id of the
`Arc<()>`. -/
structure CandidateSplit where
  storage_uri : String
  split_ulid : Nat
  living_token : Nat
deriving DecidableEq, Repr

/-- split_table.rs lines 68-73. -/
inductive Status where
  | candidate (c : CandidateSplit)
  | downloading (alive_token : Nat)
  | onDisk (num_bytes : Nat)
deriving DecidableEq, Repr

/-- split_table.rs lines 93-96. -/
structure SplitInfo where
  split_key : SplitKey
  status : Status
deriving DecidableEq, Repr

/-- The configuration from quickwit-config (`SplitCacheLimits`): byte bound,
split-count bound and download concurrency.  The two count fields are
`NonZeroU32` in the source. -/
structure SplitCacheLimits where
  max_num_bytes : Nat
  max_num_splits : Nat
  num_concurrent_downloads : Nat
deriving DecidableEq, Repr

/-- split_table.rs lines 109-124; the fd semaphore and the root path take no
part in the table's bookkeeping and are omitted, file handles are modelled by
their byte size. -/
structure SplitTable where
  on_disk_splits : List SplitKey
  downloading_splits : List SplitKey
  candidate_splits : List SplitKey
  split_to_status : List (Nat × SplitInfo)
  limits : SplitCacheLimits
  on_disk_bytes : Nat
  fd_cache : List (Nat × Nat)
  dead_tokens : List Nat
  next_token : Nat
deriving DecidableEq, Repr

/-- Key lookup in an association list (`HashMap` lookup, plain `lru` lookup). -/
def lookupId {α : Type} (id : Nat) : List (Nat × α) → Option α
  | [] => none
  | p :: rest => if p.1 = id then some p.2 else lookupId id rest

/-- Key removal from an association list (`HashMap::remove`, `lru` pop). -/
def eraseId {α : Type} (id : Nat) (m : List (Nat × α)) : List (Nat × α) :=
  m.filter (fun p => p.1 != id)

/-- `lru` cache entry removal (`pop`). -/
def fdErase (id : Nat) (l : List (Nat × Nat)) : List (Nat × Nat) :=
  eraseId id l

/-- Plain lookup in the fd cache. -/
def fdLookup (id : Nat) (l : List (Nat × Nat)) : Option Nat :=
  lookupId id l

/-- `lru::LruCache::get`: on a hit the entry moves to the most-recent slot. -/
def fdGet (id : Nat) (l : List (Nat × Nat)) : Option Nat × List (Nat × Nat) :=
  match fdLookup id l with
  | none => (none, l)
  | some v => (some v, (id, v) :: fdErase id l)

/-- `lru::LruCache::put` with capacity 100 (split_table.rs line 143): inserts
at the most-recent slot, evicting the least recent on overflow. -/
def fdPut (id : Nat) (v : Nat) (l : List (Nat × Nat)) : List (Nat × Nat) :=
  ((id, v) :: fdErase id l).take 100

/-- `BTreeSet<SplitKey>` insertion on the sorted-list representation; a key
already present is left alone. -/
def btreeInsert (k : SplitKey) : List SplitKey → List SplitKey
  | [] => [k]
  | x :: xs =>
    if keyLtb k x then k :: x :: xs
    else if k = x then x :: xs
    else x :: btreeInsert k xs

/-- `BTreeSet<SplitKey>` removal. -/
def eraseKey (k : SplitKey) (l : List SplitKey) : List SplitKey :=
  l.filter (fun x => x != k)

/-- Wrapping `u64` addition. -/
def u64add (a b : Nat) : Nat := (a + b) % W

/-- Wrapping `u64` subtraction (for `a b < W`). -/
def u64sub (a b : Nat) : Nat := (a + (W - b)) % W

/-- Bytes contributed by one status record to `on_disk_bytes`. -/
def bytesOf : Status → Nat
  | .onDisk n => n
  | _ => 0

/-- Sum of `num_bytes` over the `OnDisk` entries of the status index. -/
def sumOnDisk : List (Nat × SplitInfo) → Nat
  | [] => 0
  | p :: rest => bytesOf p.2.status + sumOnDisk rest

/-- split_table.rs lines 211-238.  The fd-cache entry is popped first; the
entry is then removed from the index and from the queue named by its status;
a `Downloading` entry whose alive token has strong count zero is removed but
not handed back (`None`). -/
def SplitTable.remove (t : SplitTable) (split_ulid : Nat) : Option SplitInfo × SplitTable :=
  let t0 : SplitTable := { t with fd_cache := fdErase split_ulid t.fd_cache }
  match lookupId split_ulid t0.split_to_status with
  | none => (none, t0)
  | some split_info =>
    let t1 : SplitTable := { t0 with split_to_status := eraseId split_ulid t0.split_to_status }
    let t2 : SplitTable :=
      match split_info.status with
      | .candidate _ =>
        { t1 with candidate_splits := eraseKey split_info.split_key t1.candidate_splits }
      | .downloading _ =>
        { t1 with downloading_splits := eraseKey split_info.split_key t1.downloading_splits }
      | .onDisk num_bytes =>
        { t1 with
          on_disk_bytes := u64sub t1.on_disk_bytes num_bytes,
          on_disk_splits := eraseKey split_info.split_key t1.on_disk_splits }
    match split_info.status with
    | .downloading alive_token =>
      if alive_token ∈ t2.dead_tokens then (none, t2) else (some split_info, t2)
    | _ => (some split_info, t2)

/-- split_table.rs lines 240-259: when the downloading queue reaches
`num_concurrent_downloads + 10`, collect the abandoned downloads (strong
count zero) and remove them. -/
def SplitTable.gc_downloading_splits_if_necessary (t : SplitTable) : SplitTable :=
  if t.downloading_splits.length < t.limits.num_concurrent_downloads + 10 then t
  else
    let splits_to_remove : List Nat := t.downloading_splits.filterMap (fun k =>
      match lookupId k.split_ulid t.split_to_status with
      | some split_info =>
        match split_info.status with
        | .downloading alive_token =>
          if alive_token ∈ t.dead_tokens then some k.split_ulid else none
        | _ => none
      | none => none)
    splits_to_remove.foldl (fun s u => (s.remove u).2) t

/-- The body of `truncate_candidate_list`, with explicit fuel.  An iteration
in which `remove` fails to shrink the candidate queue repeats identically in
the source and therefore loops forever; the model returns `none`. -/
def truncateFuel : Nat → SplitTable → Option SplitTable
  | 0, t => if MAX_NUM_CANDIDATES < t.candidate_splits.length then none else some t
  | fuel + 1, t =>
    if MAX_NUM_CANDIDATES < t.candidate_splits.length then
      match t.candidate_splits.head? with
      | none => some t
      | some worst_candidate =>
        let t1 := (t.remove worst_candidate.split_ulid).2
        if t1.candidate_splits.length < t.candidate_splits.length then truncateFuel fuel t1
        else none
    else some t

/-- split_table.rs lines 376-381. -/
def SplitTable.truncate_candidate_list (t : SplitTable) : Option SplitTable :=
  truncateFuel t.candidate_splits.length t

/-- split_table.rs lines 265-293.  The key goes into the queue named by the
status (truncating the candidate list when it overflows), then the abandoned
-download GC runs, and only then is the status index updated. -/
def SplitTable.insert (t : SplitTable) (split_info : SplitInfo) : Option SplitTable :=
  let tq? : Option SplitTable :=
    match split_info.status with
    | .candidate _ =>
      SplitTable.truncate_candidate_list
        { t with candidate_splits := btreeInsert split_info.split_key t.candidate_splits }
    | .downloading _ =>
      some { t with downloading_splits := btreeInsert split_info.split_key t.downloading_splits }
    | .onDisk num_bytes =>
      some { t with
        on_disk_bytes := u64add t.on_disk_bytes num_bytes,
        on_disk_splits := btreeInsert split_info.split_key t.on_disk_splits }
  match tq? with
  | none => none
  | some tq =>
    let tg := tq.gc_downloading_splits_if_necessary
    some { tg with split_to_status :=
      ((split_info.split_key.split_ulid, split_info) ::
        eraseId split_info.split_key.split_ulid tg.split_to_status) }

/-- split_table.rs lines 323-333: remove, apply the mutation, reinsert. -/
def SplitTable.mutate_split (t : SplitTable) (split_ulid : Nat)
    (mutate_fn : Option SplitInfo → SplitInfo) : Option (Status × SplitTable) :=
  match t.remove split_ulid with
  | (split_info_opt, t1) =>
    let new_split := mutate_fn split_info_opt
    match t1.insert new_split with
    | none => none
    | some t2 => some (new_split.status, t2)

/-- The `new_split` binding of the known-split branch of `touch` (line 309):
the record with its `last_accessed` refreshed to `now`. -/
def touchedInfo (split_info : SplitInfo) (now : Nat) : SplitInfo :=
  { split_info with split_key := { split_info.split_key with last_accessed := now } }

/-- The `new_split` record that the unknown-split branches of `touch`
(lines 306-312) and `report` (lines 363-369) build: a fresh `Candidate`
allocated with living token `tok`, dated `la`. -/
def freshCandidate (storage_uri : String) (split_ulid tok la : Nat) : SplitInfo :=
  { split_key := { last_accessed := la, split_ulid := split_ulid },
    status := .candidate
      { storage_uri := storage_uri, split_ulid := split_ulid, living_token := tok } }

/-- split_table.rs lines 295-317.  A known split has its `last_accessed`
refreshed to `now`; an unknown one becomes a fresh `Candidate` dated `now`
with a newly allocated living token (the closure's `Arc::new`, modelled by
bumping `next_token`). -/
def SplitTable.touch (t : SplitTable) (split_ulid : Nat) (storage_uri : String)
    (now : Nat) : Option (Status × SplitTable) :=
  match t.remove split_ulid with
  | (some split_info, t1) =>
    let new_split : SplitInfo := touchedInfo split_info now
    match t1.insert new_split with
    | none => none
    | some t2 => some (new_split.status, t2)
  | (none, t1) =>
    let tok := t1.next_token
    let t1b := { t1 with next_token := tok + 1 }
    let new_split : SplitInfo := freshCandidate storage_uri split_ulid tok now
    match t1b.insert new_split with
    | none => none
    | some t2 => some (new_split.status, t2)

/-- split_table.rs lines 353-373.  A known split is reinserted untouched; an
unknown one becomes a `Candidate` whose `last_accessed` is
`Instant::now() - NEWLY_REPORTED_SPLIT_LAST_TIME`, i.e. `now - 600000000` in
the table's microsecond timebase (nat subtraction also captures
`checked_sub(..).unwrap_or(origin_time)`, the origin being timestamp 0). -/
def SplitTable.report (t : SplitTable) (split_ulid : Nat) (storage_uri : String)
    (now : Nat) : Option SplitTable :=
  match t.remove split_ulid with
  | (some split_info, t1) =>
    match t1.insert split_info with
    | none => none
    | some t2 => some t2
  | (none, t1) =>
    let tok := t1.next_token
    let t1b := { t1 with next_token := tok + 1 }
    let new_split : SplitInfo :=
      freshCandidate storage_uri split_ulid tok (now - NEWLY_REPORTED_SPLIT_LAST_TIME)
    match t1b.insert new_split with
    | none => none
    | some t2 => some t2

/-- split_table.rs lines 335-351.  The unknown-split fallback stamps the
current instant, timestamp `now` in the table's timebase. -/
def SplitTable.change_split_status (t : SplitTable) (split_ulid : Nat) (status : Status)
    (now : Nat) : Option SplitTable :=
  (t.mutate_split split_ulid (fun split_info_opt =>
    match split_info_opt with
    | some split_info => { split_info with status := status }
    | none => { split_key := { last_accessed := now, split_ulid := split_ulid },
                status := status })).map (fun r => r.2)

/-- split_table.rs lines 383-385. -/
def SplitTable.register_as_downloaded (t : SplitTable) (split_ulid : Nat) (num_bytes : Nat)
    (now : Nat) : Option SplitTable :=
  t.change_split_status split_ulid (.onDisk num_bytes) now

/-- split_table.rs lines 392-404: promote a `Candidate` to `Downloading`,
keeping a weak reference to its living token; any other status is reinserted
and `None` returned. -/
def SplitTable.start_download (t : SplitTable) (split_ulid : Nat) :
    Option (Option CandidateSplit × SplitTable) :=
  match t.remove split_ulid with
  | (none, t1) => some (none, t1)
  | (some split_info, t1) =>
    match split_info.status with
    | .candidate candidate_split =>
      match t1.insert { split_key := split_info.split_key,
                        status := .downloading candidate_split.living_token } with
      | none => none
      | some t2 => some (some candidate_split, t2)
    | _ =>
      match t1.insert split_info with
      | none => none
      | some t2 => some (none, t2)

/-- split_table.rs lines 406-408 (`BTreeSet::last`). -/
def SplitTable.best_candidate (t : SplitTable) : Option SplitKey :=
  t.candidate_splits.getLast?

/-- split_table.rs lines 410-423. -/
def SplitTable.is_out_of_limits (t : SplitTable) : Bool :=
  if t.on_disk_splits.isEmpty then false
  else if t.limits.max_num_splits < t.on_disk_splits.length + t.downloading_splits.length then
    true
  else if t.limits.max_num_bytes < t.on_disk_bytes then true
  else false

/-- The guard of the eviction loop: the coldest on-disk split is strictly
warmer than the bound (`first_split.last_accessed > last_access_date`),
in which case the eviction is not worth doing. -/
def makeRoomStop (bound_opt : Option Nat) (first_split : SplitKey) : Bool :=
  match bound_opt with
  | some last_access_date => decide (last_access_date < first_split.last_accessed)
  | none => false

/-- The eviction loop of `make_room_for_split_if_necessary` (lines 436-449),
with fuel: while out of limits, evict the coldest on-disk split unless it is
warmer than the bound.  An iteration that fails to shrink the on-disk queue
repeats identically forever in the source (`none`). -/
def makeRoomFuel : Nat → SplitTable → Option Nat → List SplitInfo →
    Option (List SplitInfo × SplitTable)
  | 0, t, _, acc => if t.is_out_of_limits then none else some (acc, t)
  | fuel + 1, t, bound_opt, acc =>
    if t.is_out_of_limits then
      match t.on_disk_splits.head? with
      | none => some (acc, t)
      | some first_split =>
        if makeRoomStop bound_opt first_split then some (acc, t)
        else
          let r := t.remove first_split.split_ulid
          if r.2.on_disk_splits.length < t.on_disk_splits.length then
            makeRoomFuel fuel r.2 bound_opt (acc ++ r.1.toList)
          else none
    else some (acc, t)

/-- Folding `insert` over a batch of records (the rollback loop of lines
455-459 and the construction loop of lines 138-141), threading the
divergence of `insert`. -/
def insertFold (acc : Option SplitTable) (si : SplitInfo) : Option SplitTable :=
  match acc with
  | none => none
  | some s => s.insert si

/-- split_table.rs lines 432-465: run the eviction loop; if the table is
still out of limits afterwards, reinsert the collected evictions and answer
`None`, otherwise answer the evicted ulids. -/
def SplitTable.make_room_for_split_if_necessary (t : SplitTable)
    (last_access_date_bound_opt : Option Nat) :
    Option (Option (List Nat) × SplitTable) :=
  match makeRoomFuel t.on_disk_splits.length t last_access_date_bound_opt [] with
  | none => none
  | some (split_infos, t1) =>
    if t1.is_out_of_limits then
      match split_infos.foldl insertFold (some t1) with
      | none => none
      | some t2 => some (none, t2)
    else
      some (some (split_infos.map (fun si => si.split_key.split_ulid)), t1)

/-- split_table.rs lines 492-497. -/
structure DownloadOpportunity where
  splits_to_delete : List Nat
  split_to_download : CandidateSplit
deriving DecidableEq, Repr

/-- split_table.rs lines 467-477. -/
def SplitTable.find_download_opportunity (t : SplitTable) :
    Option (Option DownloadOpportunity × SplitTable) :=
  match t.best_candidate with
  | none => some (none, t)
  | some best_candidate_split_key =>
    match t.make_room_for_split_if_necessary (some best_candidate_split_key.last_accessed) with
    | none => none
    | some (none, t1) => some (none, t1)
    | some (some splits_to_delete, t1) =>
      match t1.start_download best_candidate_split_key.split_ulid with
      | none => none
      | some (none, t2) => some (none, t2)
      | some (some split_to_download, t2) =>
        some (some { splits_to_delete := splits_to_delete,
                     split_to_download := split_to_download }, t2)

/-- split_table.rs lines 158-182 together with `is_on_disk` (lines 203-209).
A hit in the FD LRU returns at once (only refreshing the LRU order); on a
miss the split is touched and, when it is on disk, a handle (modelled by its
byte size) is opened and cached. -/
def SplitTable.try_get_or_open_fd (t : SplitTable) (split_id : Nat) (storage_uri : String)
    (now : Nat) : Option (Option Nat × SplitTable) :=
  match fdGet split_id t.fd_cache with
  | (some split_filepath, new_cache) =>
    some (some split_filepath, { t with fd_cache := new_cache })
  | (none, _) =>
    match t.touch split_id storage_uri now with
    | none => none
    | some (status, t1) =>
      match status with
      | .onDisk num_bytes =>
        some (some num_bytes, { t1 with fd_cache := fdPut split_id num_bytes t1.fd_cache })
      | _ => some (none, t1)

/-- split_table.rs lines 127-148 and 184-195: construction inserts every
pre-existing file as `OnDisk` with `last_accessed = 0`.  The `BTreeMap`
argument is a list sorted by ulid. -/
def with_limits_and_existing_splits (limits : SplitCacheLimits)
    (existing_filepaths : List (Nat × Nat)) : Option SplitTable :=
  let empty : SplitTable :=
    { on_disk_splits := [], downloading_splits := [], candidate_splits := [],
      split_to_status := [], limits := limits, on_disk_bytes := 0,
      fd_cache := [], dead_tokens := [], next_token := 0 }
  (existing_filepaths.map (fun p =>
    ({ split_key := { last_accessed := 0, split_ulid := p.1 },
       status := .onDisk p.2 } : SplitInfo))).foldl insertFold (some empty)

/-- The public operations of the table, plus the external event of the
downloader dropping the living token it was handed. -/
inductive Event where
  | report (id : Nat) (uri : String)
  | touch (id : Nat) (uri : String)
  | start_download (id : Nat)
  | register_as_downloaded (id : Nat) (num_bytes : Nat)
  | find_download_opportunity
  | try_get_or_open_fd (id : Nat) (uri : String)
  | drop_token (tok : Nat)
deriving DecidableEq, Repr

/-- One public operation performed at timestamp `now`. -/
def step (s : SplitTable) (e : Event) (now : Nat) : Option SplitTable :=
  match e with
  | .report id uri => s.report id uri now
  | .touch id uri => (s.touch id uri now).map (fun r => r.2)
  | .start_download id => (s.start_download id).map (fun r => r.2)
  | .register_as_downloaded id n => s.register_as_downloaded id n now
  | .find_download_opportunity => (s.find_download_opportunity).map (fun r => r.2)
  | .try_get_or_open_fd id uri => (s.try_get_or_open_fd id uri now).map (fun r => r.2)
  | .drop_token tok => some { s with dead_tokens := tok :: s.dead_tokens }

/-- Environment constraints on an event: `num_bytes` fits in a `u64`, and only
the living token of a download currently tracked by the table can newly die. -/
def eventOk (s : SplitTable) (e : Event) : Prop :=
  match e with
  | .register_as_downloaded _ n => n < W
  | .drop_token tok =>
    tok ∉ s.dead_tokens ∧ ∃ p ∈ s.split_to_status, p.2.status = Status.downloading tok
  | _ => True

instance (s : SplitTable) (e : Event) : Decidable (eventOk s e) := by
  unfold eventOk; cases e <;> exact inferInstance

/-- Constraints on the construction argument: a `BTreeMap` iterates its keys
in strictly increasing order, and its `u64` values fit in a `u64`. -/
def initOk (existing : List (Nat × Nat)) : Prop :=
  List.Chain' (fun p q => p.1 < q.1) existing ∧ ∀ p ∈ existing, p.2 < W

/-- Reachable table states, indexed by the current clock (microseconds in the
table's timebase; construction happens at `NEWLY_REPORTED_SPLIT_LAST_TIME`
because `origin_time` is ten minutes before it, and the monotonic clock never
goes backwards). -/
inductive Reachable (limits : SplitCacheLimits) : SplitTable → Nat → Prop where
  | init (existing : List (Nat × Nat)) (t0 : SplitTable) :
      initOk existing → with_limits_and_existing_splits limits existing = some t0 →
      Reachable limits t0 NEWLY_REPORTED_SPLIT_LAST_TIME
  | next (s : SplitTable) (now : Nat) (e : Event) (now2 : Nat)
      (s2 : SplitTable) : Reachable limits s now → now ≤ now2 → eventOk s e →
      step s e now2 = some s2 → Reachable limits s2 now2

/-- The queue that a record with the given status lives in. -/
def queueOf (t : SplitTable) : Status → List SplitKey
  | .candidate _ => t.candidate_splits
  | .downloading _ => t.downloading_splits
  | .onDisk _ => t.on_disk_splits

/-- All liveness tokens held in a status record are below the allocation
counter. -/
def statusTokenBound : Status → Nat → Prop
  | .candidate c, n => c.living_token < n
  | .downloading tok, n => tok < n
  | .onDisk _, _ => True

/-- The split is currently tracked as a download whose living token has been
dropped (strong count zero): the entries the abandoned-download GC reclaims. -/
def deadDL (t : SplitTable) (j : Nat) : Prop :=
  ∃ info tok, lookupId j t.split_to_status = some info ∧
    info.status = Status.downloading tok ∧ tok ∈ t.dead_tokens

/-- Concatenation of the three queues. -/
def allQueues (t : SplitTable) : List SplitKey :=
  t.on_disk_splits ++ t.downloading_splits ++ t.candidate_splits

/-- The exactly-one-queue property of the specification: every indexed split
id occurs exactly once across the three queues, and every queued key belongs
to an indexed split. -/
def ExactlyOneQueue (t : SplitTable) : Prop :=
  (∀ id info, lookupId id t.split_to_status = some info →
    ((allQueues t).filter (fun k => k.split_ulid == id)).length = 1) ∧
  (∀ k ∈ allQueues t, (lookupId k.split_ulid t.split_to_status).isSome = true)

/-- The internal well-formedness invariant of the split table (without the
candidate cap): queues are strictly sorted; the index has no duplicate ids;
every indexed record\'s key sits in the queue named by its status; every
queued key is the key of an indexed record of the matching status; the byte
counter tracks the `u64` sum of the on-disk sizes; fd-cache keys are on-disk
splits; and all tokens are below the allocation counter. -/
structure InvNC (t : SplitTable) : Prop where
  sorted_od : List.Chain' keyLt t.on_disk_splits
  sorted_dl : List.Chain' keyLt t.downloading_splits
  sorted_cd : List.Chain' keyLt t.candidate_splits
  nodup_index : (t.split_to_status.map Prod.fst).Nodup
  consistent : ∀ id info, lookupId id t.split_to_status = some info →
    info.split_key.split_ulid = id ∧ info.split_key ∈ queueOf t info.status
  complete_od : ∀ k ∈ t.on_disk_splits,
    ∃ n, lookupId k.split_ulid t.split_to_status = some ⟨k, Status.onDisk n⟩
  complete_dl : ∀ k ∈ t.downloading_splits,
    ∃ tok, lookupId k.split_ulid t.split_to_status = some ⟨k, Status.downloading tok⟩
  complete_cd : ∀ k ∈ t.candidate_splits,
    ∃ c, lookupId k.split_ulid t.split_to_status = some ⟨k, Status.candidate c⟩
  bytes_eq : t.on_disk_bytes = sumOnDisk t.split_to_status % W
  bytes_lt : ∀ id info n, lookupId id t.split_to_status = some info →
    info.status = Status.onDisk n → n < W
  fd_ok : ∀ p ∈ t.fd_cache, ∃ info, lookupId p.1 t.split_to_status = some info ∧
    ∃ n, info.status = Status.onDisk n
  tok_lt : ∀ id info, lookupId id t.split_to_status = some info →
    statusTokenBound info.status t.next_token
  dead_lt : ∀ tok ∈ t.dead_tokens, tok < t.next_token

/-- The full invariant: well-formedness plus the candidate cap. -/
def Inv (t : SplitTable) : Prop :=
  InvNC t ∧ t.candidate_splits.length ≤ MAX_NUM_CANDIDATES

/-- The table with the given record prepended to the status index.  The
intermediate states inside `SplitTable.insert` (after the queue update,
before the index update) are exactly the states `t` with `InvNC
(addPending t pending)`. -/
def addPending (t : SplitTable) (pending : SplitInfo) : SplitTable :=
  { t with split_to_status := (pending.split_key.split_ulid, pending) :: t.split_to_status }

/-- Invariant of the intermediate states inside `SplitTable.insert`: the
pending record\'s key is already in its queue, the index does not hold the
record yet. -/
def MidInv (t : SplitTable) (pending : SplitInfo) : Prop :=
  InvNC (addPending t pending)

/-- How a state `c` may differ from `t` after abandoned-download collection:
lookups are preserved except that splits that were abandoned downloads in `t`
may be gone; the candidate and on-disk queues, the byte counter and the fd
cache are untouched; the downloading queue only loses keys. -/
def GcRel (t c : SplitTable) : Prop :=
  (∀ j, lookupId j c.split_to_status = lookupId j t.split_to_status ∨
    (lookupId j c.split_to_status = none ∧ deadDL t j)) ∧
  c.candidate_splits = t.candidate_splits ∧
  c.on_disk_splits = t.on_disk_splits ∧
  c.on_disk_bytes = t.on_disk_bytes ∧
  List.Sublist c.downloading_splits t.downloading_splits ∧
  c.fd_cache = t.fd_cache ∧
  c.limits = t.limits ∧ c.dead_tokens = t.dead_tokens ∧ c.next_token = t.next_token

/-- Run a list of timestamped events from a state, checking clock
monotonicity and the environment constraints (`eventOk`) along the way. -/
def stepsOk (s : SplitTable) (now : Nat) : List (Event × Nat) → Option (SplitTable × Nat)
  | [] => some (s, now)
  | (e, n) :: rest =>
    if now ≤ n ∧ eventOk s e then
      match step s e n with
      | none => none
      | some s2 => stepsOk s2 n rest
    else none

/- ### Concrete limits, traces and states used by witnesses and counterexamples -/

/-- A configuration whose limits are never hit by the small scenarios. -/
def limitsRoomy : SplitCacheLimits :=
  { max_num_bytes := 1000000000, max_num_splits := 100, num_concurrent_downloads := 2 }

/-- A 7-byte cache, used to force an eviction. -/
def limitsBytes7 : SplitCacheLimits :=
  { max_num_bytes := 7, max_num_splits := 100, num_concurrent_downloads := 2 }

/-- A 15-byte cache, used to force a refused (rolled-back) eviction. -/
def limitsBytes15 : SplitCacheLimits :=
  { max_num_bytes := 15, max_num_splits := 100, num_concurrent_downloads := 2 }

/-- The freshly constructed table (`with_limits_and_existing_splits` with no
pre-existing files). -/
def table0 (limits : SplitCacheLimits) : SplitTable :=
  { on_disk_splits := [], downloading_splits := [], candidate_splits := [],
    split_to_status := [], limits := limits, on_disk_bytes := 0,
    fd_cache := [], dead_tokens := [], next_token := 0 }

/-- The clock at construction time. -/
def T0 : Nat := NEWLY_REPORTED_SPLIT_LAST_TIME

/-- The state after running a trace from the fresh table (undefined traces
fall back to the fresh table; every trace used below completes). -/
def runT (limits : SplitCacheLimits) (evs : List (Event × Nat)) : SplitTable :=
  ((stepsOk (table0 limits) T0 evs).getD (table0 limits, 0)).1

/-- Report split 1, start its download, then the downloader drops the living
token: split 1 is left `Downloading` with a dead token. -/
def trDead : List (Event × Nat) :=
  [(Event.report 1 "s3://u", T0), (Event.start_download 1, T0), (Event.drop_token 0, T0)]

def sDead : SplitTable := runT limitsRoomy trDead

/-- An 8-byte split on disk (cold) and a reported candidate (warm), in a
7-byte cache: admitting the candidate requires evicting the split. -/
def trEvict : List (Event × Nat) :=
  [(Event.register_as_downloaded 1 8, T0), (Event.report 2 "s3://u", 1300000000)]

def sEvict : SplitTable := runT limitsBytes7 trEvict

/-- A 10-byte split with a cached fd and a 20-byte split, in a 15-byte cache:
making room below a bound of `T0` evicts split 1, is still out of limits,
and rolls back. -/
def trRollback : List (Event × Nat) :=
  [(Event.register_as_downloaded 1 10, T0), (Event.try_get_or_open_fd 1 "s3://u", T0),
   (Event.register_as_downloaded 2 20, 700000000)]

def sRollback : SplitTable := runT limitsBytes15 trRollback

/-- A 10-byte split on disk. -/
def trOnDisk : List (Event × Nat) := [(Event.register_as_downloaded 1 10, T0)]

def sOnDisk : SplitTable := runT limitsRoomy trOnDisk

/-- A 10-byte split on disk whose fd is cached (a reader has opened it). -/
def trFd : List (Event × Nat) :=
  [(Event.register_as_downloaded 1 10, T0), (Event.try_get_or_open_fd 1 "s3://u", T0)]

def sFd : SplitTable := runT limitsRoomy trFd

/-- Two registered splits of 2^63 bytes each: their `u64` sizes sum to 2^64. -/
def trOverflow : List (Event × Nat) :=
  [(Event.register_as_downloaded 1 9223372036854775808, T0),
   (Event.register_as_downloaded 2 9223372036854775808, T0)]

def sOverflow : SplitTable := runT limitsRoomy trOverflow

/-- One reported candidate. -/
def trOneCand : List (Event × Nat) := [(Event.report 1 "s3://u", T0)]

def sOneCand : SplitTable := runT limitsRoomy trOneCand

/-- Split 1 is an abandoned download (dead token), and 1000 candidates all
touched at the current instant fill the candidate queue to its cap; the key
a `touch` of split 1 would insert is smaller than all of them. -/
def trCapDead : List (Event × Nat) :=
  [(Event.touch 1 "s3://u", T0), (Event.start_download 1, T0), (Event.drop_token 0, T0)] ++
  (List.range 1000).map (fun i => (Event.touch (i + 2) "s3://u", T0))

/-- The state after the first event of `trCapDead` (split 1 touched). -/
def capA : SplitTable :=
  { on_disk_splits := [], downloading_splits := [],
    candidate_splits := [{ last_accessed := T0, split_ulid := 1 }],
    split_to_status := [(1, freshCandidate "s3://u" 1 0 T0)],
    limits := limitsRoomy, on_disk_bytes := 0, fd_cache := [],
    dead_tokens := [], next_token := 1 }

/-- The state after the second event of `trCapDead` (download started). -/
def capB : SplitTable :=
  { on_disk_splits := [],
    downloading_splits := [{ last_accessed := T0, split_ulid := 1 }],
    candidate_splits := [],
    split_to_status := [(1, { split_key := { last_accessed := T0, split_ulid := 1 },
                              status := Status.downloading 0 })],
    limits := limitsRoomy, on_disk_bytes := 0, fd_cache := [],
    dead_tokens := [], next_token := 1 }

/-- The status index after the dead download of split 1 and `k` touches of
the fresh splits `2 .. k+1` (most recent first). -/
def capIdx : Nat → List (Nat × SplitInfo)
  | 0 => [(1, { split_key := { last_accessed := T0, split_ulid := 1 },
                status := Status.downloading 0 })]
  | k + 1 => (k + 2, freshCandidate "s3://u" (k + 2) (k + 1) T0) :: capIdx k

/-- The candidate queue after those `k` touches (ascending ulids `2..k+1`,
all dated `T0`). -/
def capCd : Nat → List SplitKey
  | 0 => []
  | k + 1 => capCd k ++ [{ last_accessed := T0, split_ulid := k + 2 }]

/-- The state after the three opening events of `trCapDead` and then `k`
touches of the fresh splits `2 .. k+1`. -/
def capState (k : Nat) : SplitTable :=
  { on_disk_splits := [],
    downloading_splits := [{ last_accessed := T0, split_ulid := 1 }],
    candidate_splits := capCd k,
    split_to_status := capIdx k,
    limits := limitsRoomy, on_disk_bytes := 0, fd_cache := [],
    dead_tokens := [0], next_token := k + 1 }

/-- The state `trCapDead` ends in. -/
def sCapDead : SplitTable := capState 1000

/-- The status record of split 1 while its download is abandoned. -/
def capDl : SplitInfo :=
  { split_key := { last_accessed := T0, split_ulid := 1 },
    status := Status.downloading 0 }

/-- The result of the download-opportunity query on `sEvict`. -/
def fdoEvict : Option DownloadOpportunity × SplitTable :=
  (sEvict.find_download_opportunity).getD (none, sEvict)

/-- `start_download 1` on the abandoned-download state. -/
def sdDead : Option CandidateSplit × SplitTable :=
  (sDead.start_download 1).getD (none, sDead)

/-- `report 1` on the abandoned-download state. -/
def sDeadReported : SplitTable :=
  (sDead.report 1 "s3://u" 800000000).getD sDead

/-- `touch 1` on the abandoned-download state. -/
def tchDead : Status × SplitTable :=
  (sDead.touch 1 "s3://u" 800000000).getD (Status.onDisk 0, sDead)

/-- `start_download 1` on the single-candidate state. -/
def sdOneCand : Option CandidateSplit × SplitTable :=
  (sOneCand.start_download 1).getD (none, sOneCand)

/-- Refusing eviction below bound `T0` on the rollback state. -/
def mrRollback : Option (List Nat) × SplitTable :=
  (sRollback.make_room_for_split_if_necessary (some T0)).getD (none, sRollback)

/-- A second lookup of the cached fd, ten minutes later. -/
def tgFd : Option Nat × SplitTable :=
  (sFd.try_get_or_open_fd 1 "s3://u" 900000000).getD (none, sFd)

/-- Opening the fd of the on-disk split (a cache miss). -/
def tgOnDisk : Option Nat × SplitTable :=
  (sOnDisk.try_get_or_open_fd 1 "s3://u" 700000000).getD (none, sOnDisk)

/-- `report 1` on the cached-fd state (split 1 is known and on disk). -/
def sFdReported : SplitTable :=
  (sFd.report 1 "s3://u" 800000000).getD sFd

/-- Reporting a fresh split 5 on the just-constructed table. -/
def sReported : SplitTable :=
  ((table0 limitsRoomy).report 5 "s3://u" 1300000000).getD (table0 limitsRoomy)

/-- Reporting a second candidate on the single-candidate state. -/
def sTwoCand : SplitTable :=
  (sOneCand.report 2 "s3://u" T0).getD sOneCand

/-- The download opportunity returned on `sEvict`. -/
def dopEvict : DownloadOpportunity :=
  { splits_to_delete := [1],
    split_to_download := { storage_uri := "s3://u", split_ulid := 2, living_token := 0 } }

/- MARKER_WITNESS_DEFS -/

end SplitCache


namespace SplitCache

/- ### Order lemmas for split keys -/

theorem keyLt_iff (a b : SplitKey) : keyLt a b ↔
    a.last_accessed < b.last_accessed ∨
      (a.last_accessed = b.last_accessed ∧ a.split_ulid < b.split_ulid) := by
  simp [keyLt, keyLtb, Bool.or_eq_true, Bool.and_eq_true, decide_eq_true_eq]

theorem keyLt_irrefl (a : SplitKey) : ¬ keyLt a a := by
  simp [keyLt_iff]

theorem keyLt_trans {a b c : SplitKey} (h1 : keyLt a b) (h2 : keyLt b c) : keyLt a c :=
  IsTrans.trans a b c h1 h2

theorem keyLt_ne {a b : SplitKey} (h : keyLt a b) : a ≠ b := by
  rintro rfl
  exact keyLt_irrefl a h

theorem keyLt_asymm {a b : SplitKey} (h : keyLt a b) : ¬ keyLt b a := by
  intro h2
  exact keyLt_irrefl a (keyLt_trans h h2)

theorem keyLt_total {a b : SplitKey} (h : a ≠ b) : keyLt a b ∨ keyLt b a := by
  rw [keyLt_iff, keyLt_iff]
  have hne : ¬ (a.last_accessed = b.last_accessed ∧ a.split_ulid = b.split_ulid) := by
    rintro ⟨e1, e2⟩
    apply h
    cases a
    cases b
    simp_all
  omega

/- ### Sorted-queue lemmas -/

theorem chain'_nodup {l : List SplitKey} (h : List.Chain' keyLt l) : l.Nodup := by
  have hp := List.chain'_iff_pairwise.mp h
  exact hp.imp keyLt_ne

theorem mem_eraseKey {k x : SplitKey} {l : List SplitKey} :
    x ∈ eraseKey k l ↔ x ∈ l ∧ x ≠ k := by
  simp [eraseKey, List.mem_filter, bne_iff_ne]

theorem eraseKey_sublist (k : SplitKey) (l : List SplitKey) :
    List.Sublist (eraseKey k l) l :=
  List.filter_sublist l

theorem sorted_eraseKey {k : SplitKey} {l : List SplitKey} (h : List.Chain' keyLt l) :
    List.Chain' keyLt (eraseKey k l) :=
  h.sublist (eraseKey_sublist k l)

theorem eraseKey_eq_of_not_mem {k : SplitKey} {l : List SplitKey} (h : k ∉ l) :
    eraseKey k l = l := by
  apply List.filter_eq_self.mpr
  intro a ha
  simp only [bne_iff_ne, ne_eq, decide_eq_true_eq]
  rintro rfl
  exact h ha

theorem eraseKey_cons_self {k : SplitKey} {l : List SplitKey} (h : k ∉ l) :
    eraseKey k (k :: l) = l := by
  show List.filter _ (k :: l) = l
  rw [List.filter_cons]
  simp only [bne_self_eq_false, Bool.false_eq_true, if_false]
  exact eraseKey_eq_of_not_mem h

theorem eraseKey_cons_of_ne {k y : SplitKey} {l : List SplitKey} (h : y ≠ k) :
    eraseKey k (y :: l) = y :: eraseKey k l := by
  show List.filter _ (y :: l) = _
  rw [List.filter_cons]
  simp [h]
  rfl

theorem mem_btreeInsert {k x : SplitKey} {l : List SplitKey} :
    x ∈ btreeInsert k l ↔ x = k ∨ x ∈ l := by
  induction l with
  | nil => simp [btreeInsert]
  | cons y ys ih =>
    by_cases h1 : keyLtb k y = true
    · simp only [btreeInsert, h1, if_true]
      simp
    · rw [Bool.not_eq_true] at h1
      by_cases h2 : k = y
      · subst h2
        simp only [btreeInsert, h1, Bool.false_eq_true, if_false, if_pos rfl]
        simp
      · simp only [btreeInsert, h1, Bool.false_eq_true, if_false, h2, ite_false]
        simp only [List.mem_cons, ih]
        tauto

theorem length_btreeInsert_of_not_mem {k : SplitKey} {l : List SplitKey} (hk : k ∉ l) :
    (btreeInsert k l).length = l.length + 1 := by
  induction l with
  | nil => rfl
  | cons y ys ih =>
    simp only [List.mem_cons, not_or] at hk
    by_cases h1 : keyLtb k y = true
    · simp [btreeInsert, h1]
    · rw [Bool.not_eq_true] at h1
      simp only [btreeInsert, h1, Bool.false_eq_true, if_false, hk.1, ite_false,
        List.length_cons]
      rw [ih hk.2]

theorem btreeInsert_of_forall_lt {k : SplitKey} {l : List SplitKey}
    (h : ∀ x ∈ l, keyLt k x) : btreeInsert k l = k :: l := by
  cases l with
  | nil => rfl
  | cons y ys =>
    have hb : keyLtb k y = true := h y (List.mem_cons_self y ys)
    simp only [btreeInsert, hb, if_true]

theorem pairwise_btreeInsert {k : SplitKey} {l : List SplitKey}
    (h : l.Pairwise keyLt) (hk : k ∉ l) : (btreeInsert k l).Pairwise keyLt := by
  induction l with
  | nil => simp [btreeInsert]
  | cons y ys ih =>
    rcases List.pairwise_cons.mp h with ⟨hy, hys⟩
    simp only [List.mem_cons, not_or] at hk
    by_cases h1 : keyLtb k y = true
    · simp only [btreeInsert, h1, if_true]
      refine List.pairwise_cons.mpr ⟨?_, h⟩
      intro z hz
      rcases List.mem_cons.mp hz with rfl | hz2
      · exact h1
      · exact keyLt_trans h1 (hy z hz2)
    · rw [Bool.not_eq_true] at h1
      simp only [btreeInsert, h1, Bool.false_eq_true, if_false, hk.1, ite_false]
      refine List.pairwise_cons.mpr ⟨?_, ih hys hk.2⟩
      intro z hz
      rcases mem_btreeInsert.mp hz with rfl | hz2
      · rcases keyLt_total (Ne.symm hk.1) with hlt | hlt
        · exact hlt
        · simp only [keyLt, h1, Bool.false_eq_true] at hlt
      · exact hy z hz2

theorem sorted_btreeInsert {k : SplitKey} {l : List SplitKey}
    (h : List.Chain' keyLt l) (hk : k ∉ l) : List.Chain' keyLt (btreeInsert k l) :=
  List.chain'_iff_pairwise.mpr (pairwise_btreeInsert (List.chain'_iff_pairwise.mp h) hk)

theorem btreeInsert_eraseKey {k : SplitKey} {l : List SplitKey}
    (hs : List.Chain' keyLt l) (hm : k ∈ l) : btreeInsert k (eraseKey k l) = l := by
  induction l with
  | nil => cases hm
  | cons y ys ih =>
    have hp := List.chain'_iff_pairwise.mp hs
    rcases List.pairwise_cons.mp hp with ⟨hy, hys⟩
    by_cases h2 : k = y
    · subst h2
      have hnot : k ∉ ys := fun hmem => keyLt_irrefl k (hy k hmem)
      rw [eraseKey_cons_self hnot]
      exact btreeInsert_of_forall_lt hy
    · have hm2 : k ∈ ys := by
        rcases List.mem_cons.mp hm with rfl | hmm
        · exact absurd rfl h2
        · exact hmm
      rw [eraseKey_cons_of_ne (fun hyk => h2 hyk.symm)]
      have hyk : keyLt y k := hy k hm2
      have h1 : keyLtb k y = false := by
        rw [← Bool.not_eq_true]
        exact fun hkx => keyLt_irrefl k (keyLt_trans hkx hyk)
      rw [btreeInsert]
      simp only [h1, Bool.false_eq_true, if_false, h2, ite_false]
      rw [ih (List.chain'_iff_pairwise.mpr hys) hm2]

/- ### Association-list lemmas -/

theorem lookupId_eq_none {α : Type} {id : Nat} {m : List (Nat × α)} :
    lookupId id m = none ↔ ∀ p ∈ m, p.1 ≠ id := by
  induction m with
  | nil => simp [lookupId]
  | cons p rest ih =>
    by_cases h : p.1 = id
    · simp [lookupId, h]
    · simp [lookupId, h, ih]

theorem lookupId_mem {α : Type} {id : Nat} {m : List (Nat × α)} {v : α}
    (h : lookupId id m = some v) : (id, v) ∈ m := by
  induction m with
  | nil => simp [lookupId] at h
  | cons p rest ih =>
    by_cases hp : p.1 = id
    · rw [lookupId, if_pos hp] at h
      injection h with h2
      have hpv : p = (id, v) := by
        rcases p with ⟨a, b⟩
        simp only at hp h2
        simp [hp, h2]
      rw [List.mem_cons]
      left
      exact hpv.symm
    · rw [lookupId, if_neg hp] at h
      exact List.mem_cons_of_mem _ (ih h)

theorem lookupId_eraseId {α : Type} (id j : Nat) (m : List (Nat × α)) :
    lookupId j (eraseId id m) = if j = id then none else lookupId j m := by
  induction m with
  | nil => simp [lookupId, eraseId]
  | cons p rest ih =>
    show lookupId j (List.filter _ (p :: rest)) = _
    rw [List.filter_cons]
    by_cases hp : p.1 = id
    · have hb : (p.1 != id) = false := by simp [hp]
      rw [hb]
      simp only [Bool.false_eq_true, if_false]
      show lookupId j (eraseId id rest) = _
      rw [ih]
      by_cases hj : j = id
      · simp [hj]
      · have hpj : ¬ p.1 = j := fun he => hj (by rw [← he, hp])
        simp [hj, lookupId, hpj]
    · have hb : (p.1 != id) = true := by simp [hp]
      rw [hb]
      simp only [if_true]
      by_cases hpj : p.1 = j
      · have hj : ¬ j = id := by rw [← hpj]; exact hp
        simp [lookupId, hpj, hj]
      · rw [lookupId, if_neg hpj]
        show lookupId j (eraseId id rest) = _
        rw [ih, lookupId, if_neg hpj]

theorem eraseId_eq_of_none {α : Type} {id : Nat} {m : List (Nat × α)}
    (h : lookupId id m = none) : eraseId id m = m := by
  apply List.filter_eq_self.mpr
  intro p hp
  simp only [bne_iff_ne, ne_eq, decide_eq_true_eq]
  exact lookupId_eq_none.mp h p hp

theorem eraseId_sublist {α : Type} (id : Nat) (m : List (Nat × α)) :
    List.Sublist (eraseId id m) m :=
  List.filter_sublist m

theorem map_fst_eraseId_sublist {α : Type} (id : Nat) (m : List (Nat × α)) :
    List.Sublist ((eraseId id m).map Prod.fst) (m.map Prod.fst) :=
  List.Sublist.map Prod.fst (List.filter_sublist m)

theorem nodup_eraseId {α : Type} {id : Nat} {m : List (Nat × α)}
    (h : (m.map Prod.fst).Nodup) : ((eraseId id m).map Prod.fst).Nodup :=
  h.sublist (map_fst_eraseId_sublist id m)

theorem lookupId_isSome_of_mem {α : Type} {m : List (Nat × α)} {p : Nat × α}
    (h : p ∈ m) : (lookupId p.1 m).isSome = true := by
  induction m with
  | nil => cases h
  | cons q rest ih =>
    rcases List.mem_cons.mp h with rfl | h2
    · simp [lookupId]
    · by_cases hq : q.1 = p.1
      · simp [lookupId, hq]
      · rw [lookupId, if_neg hq]
        exact ih h2

theorem lookupId_of_nodup_mem {α : Type} {m : List (Nat × α)} {p : Nat × α}
    (hnd : (m.map Prod.fst).Nodup) (h : p ∈ m) : lookupId p.1 m = some p.2 := by
  induction m with
  | nil => cases h
  | cons q rest ih =>
    rw [List.map_cons] at hnd
    rcases List.nodup_cons.mp hnd with ⟨hq1, hq2⟩
    rcases List.mem_cons.mp h with rfl | h2
    · simp [lookupId]
    · have hq : q.1 ≠ p.1 := by
        intro he
        exact hq1 (he ▸ List.mem_map_of_mem Prod.fst h2)
      rw [lookupId, if_neg hq]
      exact ih hq2 h2

theorem sumOnDisk_eraseId {id : Nat} {m : List (Nat × SplitInfo)} {info : SplitInfo}
    (hn : (m.map Prod.fst).Nodup) (h : lookupId id m = some info) :
    sumOnDisk m = bytesOf info.status + sumOnDisk (eraseId id m) := by
  induction m with
  | nil => simp [lookupId] at h
  | cons p rest ih =>
    rw [List.map_cons] at hn
    rcases List.nodup_cons.mp hn with ⟨hp1, hp2⟩
    by_cases hp : p.1 = id
    · rw [lookupId, if_pos hp] at h
      injection h with h2
      have hrest : lookupId id rest = none := by
        rw [lookupId_eq_none]
        intro q hq he
        apply hp1
        rw [hp]
        rw [← he]
        exact List.mem_map_of_mem Prod.fst hq
      show sumOnDisk (p :: rest) = _ + sumOnDisk (List.filter _ (p :: rest))
      rw [List.filter_cons]
      have hb : (p.1 != id) = false := by simp [hp]
      rw [hb]
      simp only [Bool.false_eq_true, if_false]
      show _ = _ + sumOnDisk (eraseId id rest)
      rw [eraseId_eq_of_none hrest, sumOnDisk, h2]
    · rw [lookupId, if_neg hp] at h
      show sumOnDisk (p :: rest) = _ + sumOnDisk (List.filter _ (p :: rest))
      rw [List.filter_cons]
      have hb : (p.1 != id) = true := by simp [hp]
      rw [hb]
      simp only [if_true]
      rw [sumOnDisk]
      show _ = _ + sumOnDisk (p :: eraseId id rest)
      rw [sumOnDisk, ih hp2 h]
      ring

/- ### Characterization of `SplitTable.remove` -/

theorem remove_of_none {t : SplitTable} {id : Nat}
    (h : lookupId id t.split_to_status = none) :
    t.remove id = (none, { t with fd_cache := fdErase id t.fd_cache }) := by
  unfold SplitTable.remove
  simp [h]

theorem remove_of_candidate {t : SplitTable} {id : Nat} {info : SplitInfo} {c : CandidateSplit}
    (h : lookupId id t.split_to_status = some info) (hs : info.status = Status.candidate c) :
    t.remove id = (some info,
      { t with fd_cache := fdErase id t.fd_cache,
               split_to_status := eraseId id t.split_to_status,
               candidate_splits := eraseKey info.split_key t.candidate_splits }) := by
  unfold SplitTable.remove
  simp [h, hs]

theorem remove_of_onDisk {t : SplitTable} {id : Nat} {info : SplitInfo} {n : Nat}
    (h : lookupId id t.split_to_status = some info) (hs : info.status = Status.onDisk n) :
    t.remove id = (some info,
      { t with fd_cache := fdErase id t.fd_cache,
               split_to_status := eraseId id t.split_to_status,
               on_disk_bytes := u64sub t.on_disk_bytes n,
               on_disk_splits := eraseKey info.split_key t.on_disk_splits }) := by
  unfold SplitTable.remove
  simp [h, hs]

theorem remove_of_downloading {t : SplitTable} {id : Nat} {info : SplitInfo} {tok : Nat}
    (h : lookupId id t.split_to_status = some info) (hs : info.status = Status.downloading tok) :
    t.remove id = ((if tok ∈ t.dead_tokens then none else some info),
      { t with fd_cache := fdErase id t.fd_cache,
               split_to_status := eraseId id t.split_to_status,
               downloading_splits := eraseKey info.split_key t.downloading_splits }) := by
  unfold SplitTable.remove
  simp [h, hs]
  by_cases hd : tok ∈ t.dead_tokens <;> simp [hd]

/- ### u64 arithmetic bridges -/

theorem u64add_sum (S n : Nat) : u64add (S % W) n = (S + n) % W := by
  unfold u64add W
  omega

theorem u64sub_sum (S n : Nat) (h1 : n ≤ S) (h2 : n < W) :
    u64sub (S % W) n = (S - n) % W := by
  unfold W at h2
  unfold u64sub W
  omega

/- ### Invariant preservation by `remove` -/

theorem InvNC_remove {t : SplitTable} (hI : InvNC t) (id : Nat) : InvNC (t.remove id).2 := by
  cases h : lookupId id t.split_to_status with
  | none =>
    rw [remove_of_none h]
    refine { sorted_od := hI.sorted_od, sorted_dl := hI.sorted_dl, sorted_cd := hI.sorted_cd,
             nodup_index := hI.nodup_index, consistent := ?_, complete_od := ?_,
             complete_dl := ?_, complete_cd := ?_, bytes_eq := hI.bytes_eq,
             bytes_lt := hI.bytes_lt, fd_ok := ?_, tok_lt := hI.tok_lt,
             dead_lt := hI.dead_lt }
    · intro j info2 hj
      exact hI.consistent j info2 hj
    · exact hI.complete_od
    · exact hI.complete_dl
    · exact hI.complete_cd
    · intro p hp
      exact hI.fd_ok p (List.Sublist.mem hp (eraseId_sublist id t.fd_cache))
  | some info =>
    have hulid : info.split_key.split_ulid = id := (hI.consistent id info h).1
    have hmemq : info.split_key ∈ queueOf t info.status := (hI.consistent id info h).2
    cases hst : info.status with
    | candidate c =>
      rw [remove_of_candidate h hst]
      refine { sorted_od := hI.sorted_od, sorted_dl := hI.sorted_dl,
               sorted_cd := sorted_eraseKey hI.sorted_cd,
               nodup_index := nodup_eraseId hI.nodup_index,
               consistent := ?_, complete_od := ?_, complete_dl := ?_, complete_cd := ?_,
               bytes_eq := ?_, bytes_lt := ?_, fd_ok := ?_, tok_lt := ?_,
               dead_lt := hI.dead_lt }
      · intro j info2 hj
        rw [lookupId_eraseId] at hj
        by_cases hji : j = id
        · simp [hji] at hj
        · rw [if_neg hji] at hj
          refine ⟨(hI.consistent j info2 hj).1, ?_⟩
          have hq := (hI.consistent j info2 hj).2
          cases hst2 : info2.status with
          | candidate c2 =>
            rw [hst2] at hq
            show info2.split_key ∈ eraseKey info.split_key t.candidate_splits
            rw [mem_eraseKey]
            refine ⟨hq, ?_⟩
            intro hkk
            apply hji
            rw [← (hI.consistent j info2 hj).1, hkk, hulid]
          | downloading tk => rw [hst2] at hq; exact hq
          | onDisk n => rw [hst2] at hq; exact hq
      · intro k hk
        rcases hI.complete_od k hk with ⟨n, hn⟩
        refine ⟨n, ?_⟩
        rw [lookupId_eraseId, if_neg]
        · exact hn
        · intro hki
          rw [hki] at hn
          rw [h] at hn
          injection hn with hn2
          rw [hn2] at hst
          simp at hst
      · intro k hk
        rcases hI.complete_dl k hk with ⟨tk, hn⟩
        refine ⟨tk, ?_⟩
        rw [lookupId_eraseId, if_neg]
        · exact hn
        · intro hki
          rw [hki] at hn
          rw [h] at hn
          injection hn with hn2
          rw [hn2] at hst
          simp at hst
      · intro k hk
        rw [mem_eraseKey] at hk
        rcases hI.complete_cd k hk.1 with ⟨c2, hn⟩
        refine ⟨c2, ?_⟩
        rw [lookupId_eraseId, if_neg]
        · exact hn
        · intro hki
          rw [hki] at hn
          rw [h] at hn
          injection hn with hn2
          apply hk.2
          rw [hn2]
      · show t.on_disk_bytes = sumOnDisk (eraseId id t.split_to_status) % W
        have hsum := sumOnDisk_eraseId hI.nodup_index h
        rw [hst] at hsum
        simp only [bytesOf, Nat.zero_add] at hsum
        rw [hI.bytes_eq, ← hsum]
      · intro j info2 n hj hst2
        rw [lookupId_eraseId] at hj
        by_cases hji : j = id
        · simp [hji] at hj
        · rw [if_neg hji] at hj
          exact hI.bytes_lt j info2 n hj hst2
      · intro p hp
        have hp2 := List.Sublist.mem hp (eraseId_sublist id t.fd_cache)
        rcases hI.fd_ok p hp2 with ⟨info3, h3, n3, hn3⟩
        refine ⟨info3, ?_, n3, hn3⟩
        rw [lookupId_eraseId, if_neg]
        · exact h3
        · intro hpi
          rw [hpi] at h3
          rw [h] at h3
          injection h3 with h32
          rw [← h32, hst] at hn3
          simp at hn3
      · intro j info2 hj
        rw [lookupId_eraseId] at hj
        by_cases hji : j = id
        · simp [hji] at hj
        · rw [if_neg hji] at hj
          exact hI.tok_lt j info2 hj
    | downloading tk =>
      rw [remove_of_downloading h hst]
      refine { sorted_od := hI.sorted_od, sorted_cd := hI.sorted_cd,
               sorted_dl := sorted_eraseKey hI.sorted_dl,
               nodup_index := nodup_eraseId hI.nodup_index,
               consistent := ?_, complete_od := ?_, complete_dl := ?_, complete_cd := ?_,
               bytes_eq := ?_, bytes_lt := ?_, fd_ok := ?_, tok_lt := ?_,
               dead_lt := hI.dead_lt }
      · intro j info2 hj
        rw [lookupId_eraseId] at hj
        by_cases hji : j = id
        · simp [hji] at hj
        · rw [if_neg hji] at hj
          refine ⟨(hI.consistent j info2 hj).1, ?_⟩
          have hq := (hI.consistent j info2 hj).2
          cases hst2 : info2.status with
          | downloading tk2 =>
            rw [hst2] at hq
            show info2.split_key ∈ eraseKey info.split_key t.downloading_splits
            rw [mem_eraseKey]
            refine ⟨hq, ?_⟩
            intro hkk
            apply hji
            rw [← (hI.consistent j info2 hj).1, hkk, hulid]
          | candidate c2 => rw [hst2] at hq; exact hq
          | onDisk n2 => rw [hst2] at hq; exact hq
      · intro k hk
        rcases hI.complete_od k hk with ⟨n2, hn⟩
        refine ⟨n2, ?_⟩
        rw [lookupId_eraseId, if_neg]
        · exact hn
        · intro hki
          rw [hki] at hn
          rw [h] at hn
          injection hn with hn2
          rw [hn2] at hst
          simp at hst
      · intro k hk
        rw [mem_eraseKey] at hk
        rcases hI.complete_dl k hk.1 with ⟨tk2, hn⟩
        refine ⟨tk2, ?_⟩
        rw [lookupId_eraseId, if_neg]
        · exact hn
        · intro hki
          rw [hki] at hn
          rw [h] at hn
          injection hn with hn2
          apply hk.2
          rw [hn2]
      · intro k hk
        rcases hI.complete_cd k hk with ⟨c2, hn⟩
        refine ⟨c2, ?_⟩
        rw [lookupId_eraseId, if_neg]
        · exact hn
        · intro hki
          rw [hki] at hn
          rw [h] at hn
          injection hn with hn2
          rw [hn2] at hst
          simp at hst
      · show t.on_disk_bytes = sumOnDisk (eraseId id t.split_to_status) % W
        have hsum := sumOnDisk_eraseId hI.nodup_index h
        rw [hst] at hsum
        simp only [bytesOf, Nat.zero_add] at hsum
        rw [hI.bytes_eq, ← hsum]
      · intro j info2 n2 hj hst2
        rw [lookupId_eraseId] at hj
        by_cases hji : j = id
        · simp [hji] at hj
        · rw [if_neg hji] at hj
          exact hI.bytes_lt j info2 n2 hj hst2
      · intro p hp
        have hp2 := List.Sublist.mem hp (eraseId_sublist id t.fd_cache)
        rcases hI.fd_ok p hp2 with ⟨info3, h3, n3, hn3⟩
        refine ⟨info3, ?_, n3, hn3⟩
        rw [lookupId_eraseId, if_neg]
        · exact h3
        · intro hpi
          rw [hpi] at h3
          rw [h] at h3
          injection h3 with h32
          rw [← h32, hst] at hn3
          simp at hn3
      · intro j info2 hj
        rw [lookupId_eraseId] at hj
        by_cases hji : j = id
        · simp [hji] at hj
        · rw [if_neg hji] at hj
          exact hI.tok_lt j info2 hj
    | onDisk n =>
      rw [remove_of_onDisk h hst]
      have hnW : n < W := hI.bytes_lt id info n h hst
      have hsum := sumOnDisk_eraseId hI.nodup_index h
      rw [hst] at hsum
      simp only [bytesOf] at hsum
      refine { sorted_dl := hI.sorted_dl, sorted_cd := hI.sorted_cd,
               sorted_od := sorted_eraseKey hI.sorted_od,
               nodup_index := nodup_eraseId hI.nodup_index,
               consistent := ?_, complete_od := ?_, complete_dl := ?_, complete_cd := ?_,
               bytes_eq := ?_, bytes_lt := ?_, fd_ok := ?_, tok_lt := ?_,
               dead_lt := hI.dead_lt }
      · intro j info2 hj
        rw [lookupId_eraseId] at hj
        by_cases hji : j = id
        · simp [hji] at hj
        · rw [if_neg hji] at hj
          refine ⟨(hI.consistent j info2 hj).1, ?_⟩
          have hq := (hI.consistent j info2 hj).2
          cases hst2 : info2.status with
          | onDisk n2 =>
            rw [hst2] at hq
            show info2.split_key ∈ eraseKey info.split_key t.on_disk_splits
            rw [mem_eraseKey]
            refine ⟨hq, ?_⟩
            intro hkk
            apply hji
            rw [← (hI.consistent j info2 hj).1, hkk, hulid]
          | candidate c2 => rw [hst2] at hq; exact hq
          | downloading tk2 => rw [hst2] at hq; exact hq
      · intro k hk
        rw [mem_eraseKey] at hk
        rcases hI.complete_od k hk.1 with ⟨n2, hn⟩
        refine ⟨n2, ?_⟩
        rw [lookupId_eraseId, if_neg]
        · exact hn
        · intro hki
          rw [hki] at hn
          rw [h] at hn
          injection hn with hn2
          apply hk.2
          rw [hn2]
      · intro k hk
        rcases hI.complete_dl k hk with ⟨tk2, hn⟩
        refine ⟨tk2, ?_⟩
        rw [lookupId_eraseId, if_neg]
        · exact hn
        · intro hki
          rw [hki] at hn
          rw [h] at hn
          injection hn with hn2
          rw [hn2] at hst
          simp at hst
      · intro k hk
        rcases hI.complete_cd k hk with ⟨c2, hn⟩
        refine ⟨c2, ?_⟩
        rw [lookupId_eraseId, if_neg]
        · exact hn
        · intro hki
          rw [hki] at hn
          rw [h] at hn
          injection hn with hn2
          rw [hn2] at hst
          simp at hst
      · show u64sub t.on_disk_bytes n = sumOnDisk (eraseId id t.split_to_status) % W
        rw [hI.bytes_eq]
        rw [u64sub_sum _ _ (by omega) hnW]
        have : sumOnDisk t.split_to_status - n = sumOnDisk (eraseId id t.split_to_status) := by
          omega
        rw [this]
      · intro j info2 n2 hj hst2
        rw [lookupId_eraseId] at hj
        by_cases hji : j = id
        · simp [hji] at hj
        · rw [if_neg hji] at hj
          exact hI.bytes_lt j info2 n2 hj hst2
      · intro p hp
        have hp1 : p.1 ≠ id := by
          intro hpi
          have := List.mem_filter.mp hp
          rcases this with ⟨hmem, hcond⟩
          simp [hpi] at hcond
        have hp2 := List.Sublist.mem hp (eraseId_sublist id t.fd_cache)
        rcases hI.fd_ok p hp2 with ⟨info3, h3, n3, hn3⟩
        refine ⟨info3, ?_, n3, hn3⟩
        rw [lookupId_eraseId, if_neg hp1]
        exact h3
      · intro j info2 hj
        rw [lookupId_eraseId] at hj
        by_cases hji : j = id
        · simp [hji] at hj
        · rw [if_neg hji] at hj
          exact hI.tok_lt j info2 hj

/- ### Unconditional facts about `remove` -/

theorem remove_cd_sublist (t : SplitTable) (id : Nat) :
    List.Sublist ((t.remove id).2.candidate_splits) t.candidate_splits := by
  cases h : lookupId id t.split_to_status with
  | none => rw [remove_of_none h]
  | some info =>
    cases hst : info.status with
    | candidate c => rw [remove_of_candidate h hst]; exact eraseKey_sublist _ _
    | downloading tk => rw [remove_of_downloading h hst]
    | onDisk n => rw [remove_of_onDisk h hst]

theorem remove_misc (t : SplitTable) (id : Nat) :
    (t.remove id).2.limits = t.limits ∧ (t.remove id).2.dead_tokens = t.dead_tokens ∧
      (t.remove id).2.next_token = t.next_token := by
  cases h : lookupId id t.split_to_status with
  | none => rw [remove_of_none h]; exact ⟨rfl, rfl, rfl⟩
  | some info =>
    cases hst : info.status with
    | candidate c => rw [remove_of_candidate h hst]; exact ⟨rfl, rfl, rfl⟩
    | downloading tk => rw [remove_of_downloading h hst]; exact ⟨rfl, rfl, rfl⟩
    | onDisk n => rw [remove_of_onDisk h hst]; exact ⟨rfl, rfl, rfl⟩

theorem Inv_remove {t : SplitTable} (hI : Inv t) (id : Nat) : Inv (t.remove id).2 :=
  ⟨InvNC_remove hI.1 id,
    le_trans (remove_cd_sublist t id).length_le hI.2⟩

/- ### The `addPending` commutation -/

theorem lookupId_addPending {t : SplitTable} {p : SplitInfo} {j : Nat} :
    lookupId j (addPending t p).split_to_status =
      if p.split_key.split_ulid = j then some p else lookupId j t.split_to_status := rfl

theorem remove_addPending_comm {t : SplitTable} {p : SplitInfo} {u : Nat}
    (hu : p.split_key.split_ulid ≠ u) :
    (addPending t p).remove u = ((t.remove u).1, addPending (t.remove u).2 p) := by
  have he : eraseId u ((p.split_key.split_ulid, p) :: t.split_to_status) =
      (p.split_key.split_ulid, p) :: eraseId u t.split_to_status := by
    show List.filter _ (_ :: _) = _
    rw [List.filter_cons]
    have hb : ((p.split_key.split_ulid, p).1 != u) = true := by simp [hu]
    rw [hb]
    simp only [if_true]
    rfl
  have hl : ∀ r : Option SplitInfo, lookupId u t.split_to_status = r →
      lookupId u (addPending t p).split_to_status = r := by
    intro r hr
    show lookupId u ((p.split_key.split_ulid, p) :: t.split_to_status) = r
    rw [lookupId, if_neg hu]
    exact hr
  cases h : lookupId u t.split_to_status with
  | none =>
    rw [remove_of_none h, remove_of_none (hl none h)]
    rfl
  | some info =>
    cases hst : info.status with
    | candidate c =>
      rw [remove_of_candidate h hst, remove_of_candidate (hl (some info) h) hst]
      simp [addPending, he]
    | downloading tk =>
      rw [remove_of_downloading h hst, remove_of_downloading (hl (some info) h) hst]
      simp [addPending, he]
    | onDisk n =>
      rw [remove_of_onDisk h hst, remove_of_onDisk (hl (some info) h) hst]
      simp [addPending, he]

/- ### MidInv basics -/

theorem MidInv_remove {c : SplitTable} {p : SplitInfo} {u : Nat} (hM : MidInv c p)
    (hu : p.split_key.split_ulid ≠ u) : MidInv (c.remove u).2 p := by
  unfold MidInv
  have h2 := InvNC_remove hM u
  rw [remove_addPending_comm hu] at h2
  exact h2

theorem MidInv.absent {t : SplitTable} {p : SplitInfo} (hM : MidInv t p) :
    lookupId p.split_key.split_ulid t.split_to_status = none := by
  have hnd := hM.nodup_index
  simp only [addPending, List.map_cons] at hnd
  show lookupId _ _ = none
  rw [lookupId_eq_none]
  intro q hq he
  rcases List.nodup_cons.mp hnd with ⟨h1, _⟩
  exact h1 (he ▸ List.mem_map_of_mem Prod.fst hq)

theorem MidInv.lookup_eq {t : SplitTable} {p : SplitInfo} (hM : MidInv t p) {j : Nat}
    (hj : j ≠ p.split_key.split_ulid) :
    lookupId j (addPending t p).split_to_status = lookupId j t.split_to_status := by
  show lookupId j ((p.split_key.split_ulid, p) :: t.split_to_status) = _
  rw [lookupId, if_neg (fun he => hj he.symm)]

theorem GcRel.refl (t : SplitTable) : GcRel t t :=
  ⟨fun j => Or.inl rfl, rfl, rfl, rfl, List.Sublist.refl _, rfl, rfl, rfl, rfl⟩

theorem GcRel.trans {t c d : SplitTable} (h1 : GcRel t c) (h2 : GcRel c d) : GcRel t d := by
  rcases h1 with ⟨hp1, hcd1, hod1, hb1, hdl1, hfd1, hl1, hde1, hn1⟩
  rcases h2 with ⟨hp2, hcd2, hod2, hb2, hdl2, hfd2, hl2, hde2, hn2⟩
  refine ⟨?_, hcd2.trans hcd1, hod2.trans hod1, hb2.trans hb1, hdl2.trans hdl1,
    hfd2.trans hfd1, hl2.trans hl1, hde2.trans hde1, hn2.trans hn1⟩
  intro j
  rcases hp2 j with h | ⟨hnone, info, tok, hlk, hst, htok⟩
  · rw [h]
    exact hp1 j
  · rcases hp1 j with h1j | ⟨h1none, hdead1⟩
    · refine Or.inr ⟨hnone, info, tok, ?_, hst, ?_⟩
      · rw [← h1j]
        exact hlk
      · rw [← hde1]
        exact htok
    · rw [h1none] at hlk
      cases hlk

/-- No fd-cache entry can be keyed by a split that is absent or currently
downloading: fd keys are on-disk splits (modulo the pending record). -/
theorem MidInv.fd_not_key {c : SplitTable} {p : SplitInfo} (hM : MidInv c p) {u : Nat}
    (hu : p.split_key.split_ulid ≠ u)
    (hcase : lookupId u c.split_to_status = none ∨
      ∃ info, lookupId u c.split_to_status = some info ∧
        ∀ n, info.status ≠ Status.onDisk n) :
    ∀ q ∈ c.fd_cache, q.1 ≠ u := by
  intro q hq he
  have hfd := hM.fd_ok q (by exact hq)
  rcases hfd with ⟨info2, hlk2, n2, hst2⟩
  rw [he] at hlk2
  rw [hM.lookup_eq (fun hee => hu hee.symm)] at hlk2
  rcases hcase with hnone | ⟨info3, hlk3, hst3⟩
  · rw [hnone] at hlk2
    cases hlk2
  · rw [hlk3] at hlk2
    injection hlk2 with hi
    apply hst3 n2
    rw [hi, hst2]

theorem remove_noop_of_absent {c : SplitTable} {u : Nat}
    (h : lookupId u c.split_to_status = none)
    (hfd : ∀ q ∈ c.fd_cache, q.1 ≠ u) : (c.remove u).2 = c := by
  rw [remove_of_none h]
  have hkeep : fdErase u c.fd_cache = c.fd_cache := by
    apply List.filter_eq_self.mpr
    intro q hq
    simp only [bne_iff_ne, ne_eq, decide_eq_true_eq]
    exact hfd q hq
  rw [hkeep]

/- ### The abandoned-download GC -/

theorem gc_collect_dead {t : SplitTable} {u : Nat}
    (h : u ∈ t.downloading_splits.filterMap (fun k =>
      match lookupId k.split_ulid t.split_to_status with
      | some split_info =>
        match split_info.status with
        | Status.downloading alive_token =>
          if alive_token ∈ t.dead_tokens then some k.split_ulid else none
        | _ => none
      | none => none)) : deadDL t u := by
  rw [List.mem_filterMap] at h
  rcases h with ⟨k, hk, hmatch⟩
  cases hl : lookupId k.split_ulid t.split_to_status with
  | none => rw [hl] at hmatch; simp at hmatch
  | some info =>
    rw [hl] at hmatch
    dsimp only at hmatch
    cases hst : info.status with
    | candidate c => rw [hst] at hmatch; simp at hmatch
    | onDisk n => rw [hst] at hmatch; simp at hmatch
    | downloading tok =>
      rw [hst] at hmatch
      dsimp only at hmatch
      by_cases hd : tok ∈ t.dead_tokens
      · rw [if_pos hd] at hmatch
        injection hmatch with hm
        subst hm
        exact ⟨info, tok, hl, hst, hd⟩
      · rw [if_neg hd] at hmatch
        simp at hmatch

theorem gc_fold_spec {p : SplitInfo} {t : SplitTable}
    (ht : lookupId p.split_key.split_ulid t.split_to_status = none) :
    ∀ (L : List Nat) (c : SplitTable), MidInv c p → GcRel t c →
    (∀ u ∈ L, deadDL t u) →
    MidInv (L.foldl (fun s u => (s.remove u).2) c) p ∧
      GcRel t (L.foldl (fun s u => (s.remove u).2) c)
  | [], c, hM, hR, _ => ⟨hM, hR⟩
  | u :: L2, c, hM, hR, hL => by
    rcases hL u (List.mem_cons_self u L2) with ⟨info, tok, hlk, hst, htok⟩
    have huid : p.split_key.split_ulid ≠ u := by
      intro he
      rw [← he, ht] at hlk
      cases hlk
    have hstep : MidInv (c.remove u).2 p ∧ GcRel t (c.remove u).2 := by
      rcases hR with ⟨hp, hcd, hod, hb, hdl, hfd, hlim, hde, hnx⟩
      rcases hp u with hcu | ⟨hcu, _⟩
      · rw [hlk] at hcu
        have hfdn : ∀ q ∈ c.fd_cache, q.1 ≠ u :=
          hM.fd_not_key huid (Or.inr ⟨info, hcu, fun n hn => by rw [hst] at hn; cases hn⟩)
        have hchar := remove_of_downloading hcu hst
        refine ⟨MidInv_remove hM huid, ?_⟩
        rw [hchar]
        refine ⟨?_, hcd, hod, hb, ?_, ?_, hlim, hde, hnx⟩
        · intro j
          show lookupId j (eraseId u c.split_to_status) = _ ∨
            lookupId j (eraseId u c.split_to_status) = none ∧ _
          rw [lookupId_eraseId]
          by_cases hj : j = u
          · right
            rw [if_pos hj]
            exact ⟨rfl, hj ▸ ⟨info, tok, hlk, hst, htok⟩⟩
          · rw [if_neg hj]
            exact hp j
        · exact (eraseKey_sublist _ _).trans hdl
        · show fdErase u c.fd_cache = t.fd_cache
          have : fdErase u c.fd_cache = c.fd_cache := by
            apply List.filter_eq_self.mpr
            intro q hq
            simp only [bne_iff_ne, ne_eq, decide_eq_true_eq]
            exact hfdn q hq
          rw [this, hfd]
      · have hfdn : ∀ q ∈ c.fd_cache, q.1 ≠ u := hM.fd_not_key huid (Or.inl hcu)
        rw [remove_noop_of_absent hcu hfdn]
        exact ⟨hM, ⟨hp, hcd, hod, hb, hdl, hfd, hlim, hde, hnx⟩⟩
    exact gc_fold_spec ht L2 _ hstep.1 hstep.2 (fun v hv => hL v (List.mem_cons_of_mem _ hv))

theorem gc_spec {t : SplitTable} {p : SplitInfo} (hM : MidInv t p) :
    MidInv t.gc_downloading_splits_if_necessary p ∧
      GcRel t t.gc_downloading_splits_if_necessary := by
  unfold SplitTable.gc_downloading_splits_if_necessary
  by_cases hlen : t.downloading_splits.length < t.limits.num_concurrent_downloads + 10
  · rw [if_pos hlen]
    exact ⟨hM, GcRel.refl t⟩
  · rw [if_neg hlen]
    exact gc_fold_spec hM.absent _ t hM (GcRel.refl t) (fun u hu => gc_collect_dead hu)

/- ### The candidate truncation loop -/

theorem addPending_cd (t : SplitTable) (p : SplitInfo) :
    (addPending t p).candidate_splits = t.candidate_splits := rfl

theorem truncateFuel_spec {p : SplitInfo} :
    ∀ (fuel : Nat) (t t2 : SplitTable), MidInv t p → truncateFuel fuel t = some t2 →
    MidInv t2 p ∧
      t2.candidate_splits =
        t.candidate_splits.drop (t.candidate_splits.length - MAX_NUM_CANDIDATES) ∧
      t2.candidate_splits.length ≤ MAX_NUM_CANDIDATES ∧
      t2.on_disk_splits = t.on_disk_splits ∧
      t2.downloading_splits = t.downloading_splits ∧
      t2.on_disk_bytes = t.on_disk_bytes ∧
      t2.fd_cache = t.fd_cache ∧
      t2.limits = t.limits ∧ t2.dead_tokens = t.dead_tokens ∧ t2.next_token = t.next_token
  | 0, t, t2, hM, heq => by
    rw [truncateFuel] at heq
    by_cases hlen : MAX_NUM_CANDIDATES < t.candidate_splits.length
    · rw [if_pos hlen] at heq
      cases heq
    · rw [if_neg hlen] at heq
      injection heq with heq
      subst heq
      have hz : t.candidate_splits.length - MAX_NUM_CANDIDATES = 0 := by omega
      rw [hz, List.drop_zero]
      exact ⟨hM, rfl, by omega, rfl, rfl, rfl, rfl, rfl, rfl, rfl⟩
  | fuel + 1, t, t2, hM, heq => by
    rw [truncateFuel] at heq
    by_cases hlen : MAX_NUM_CANDIDATES < t.candidate_splits.length
    · rw [if_pos hlen] at heq
      cases hcd : t.candidate_splits with
      | nil =>
        rw [hcd] at hlen
        simp [MAX_NUM_CANDIDATES] at hlen
      | cons w tail =>
        rw [hcd] at heq
        rw [show (w :: tail).head? = some w from rfl] at heq
        dsimp only at heq
        have hwmem : w ∈ t.candidate_splits := by
          rw [hcd]
          exact List.mem_cons_self w tail
        have hwcd := hM.complete_cd w (by rw [addPending_cd]; exact hwmem)
        rcases hwcd with ⟨c2, hwlk⟩
        by_cases huid : p.split_key.split_ulid = w.split_ulid
        · have hplk : lookupId w.split_ulid (addPending t p).split_to_status = some p := by
            show lookupId _ ((p.split_key.split_ulid, p) :: t.split_to_status) = some p
            rw [lookupId, if_pos huid]
          rw [hplk] at hwlk
          injection hwlk with hweq
          have hrem := remove_of_none (huid ▸ hM.absent)
          rw [hrem] at heq
          have hsame : ({ t with fd_cache := fdErase w.split_ulid t.fd_cache } :
              SplitTable).candidate_splits = t.candidate_splits := rfl
          rw [hsame, hcd] at heq
          simp at heq
        · have hwlk2 : lookupId w.split_ulid t.split_to_status = some ⟨w, Status.candidate c2⟩ := by
            rw [← hM.lookup_eq (fun hee => huid hee.symm)]
            exact hwlk
          have hchar := remove_of_candidate hwlk2 rfl
          rw [hchar] at heq
          dsimp only at heq
          have hsorted : List.Chain' keyLt t.candidate_splits := by
            have := hM.sorted_cd
            rw [addPending_cd] at this
            exact this
          have hwnot : w ∉ tail := by
            intro hmem
            have hnd := chain'_nodup hsorted
            rw [hcd] at hnd
            rcases List.nodup_cons.mp hnd with ⟨h1, _⟩
            exact h1 hmem
          have herase : eraseKey w t.candidate_splits = tail := by
            rw [hcd]
            exact eraseKey_cons_self hwnot
          rw [herase] at heq
          rw [if_pos (by simp)] at heq
          have hM2 : MidInv (t.remove w.split_ulid).2 p := MidInv_remove hM huid
          rw [hchar] at hM2
          dsimp only at hM2
          rw [herase] at hM2
          rcases truncateFuel_spec fuel _ t2 hM2 heq with
            ⟨hMf, hcdf, hlenf, hodf, hdlf, hbf, hfdf, hlimf, hdef, hnxf⟩
          dsimp only at hcdf hodf hdlf hbf hfdf hlimf hdef hnxf
          have hfdn : ∀ q ∈ t.fd_cache, q.1 ≠ w.split_ulid :=
            hM.fd_not_key huid
              (Or.inr ⟨⟨w, Status.candidate c2⟩, hwlk2, fun n hn => by cases hn⟩)
          have hfde : fdErase w.split_ulid t.fd_cache = t.fd_cache := by
            apply List.filter_eq_self.mpr
            intro q hq
            simp only [bne_iff_ne, ne_eq, decide_eq_true_eq]
            exact hfdn q hq
          refine ⟨hMf, ?_, hlenf, hodf, hdlf, hbf, ?_, hlimf, hdef, hnxf⟩
          · rw [hcd] at hlen
            rw [hcdf]
            simp only [List.length_cons] at hlen ⊢
            have hlen2 : tail.length + 1 - MAX_NUM_CANDIDATES =
                (tail.length - MAX_NUM_CANDIDATES) + 1 := by omega
            rw [hlen2, List.drop_succ_cons]
          · rw [hfdf, hfde]
    · rw [if_neg hlen] at heq
      injection heq with heq
      subst heq
      have hz : t.candidate_splits.length - MAX_NUM_CANDIDATES = 0 := by omega
      rw [hz, List.drop_zero]
      exact ⟨hM, rfl, by omega, rfl, rfl, rfl, rfl, rfl, rfl, rfl⟩

theorem truncate_spec {p : SplitInfo} {t t2 : SplitTable} (hM : MidInv t p)
    (heq : t.truncate_candidate_list = some t2) :
    MidInv t2 p ∧
      t2.candidate_splits =
        t.candidate_splits.drop (t.candidate_splits.length - MAX_NUM_CANDIDATES) ∧
      t2.candidate_splits.length ≤ MAX_NUM_CANDIDATES ∧
      t2.on_disk_splits = t.on_disk_splits ∧
      t2.downloading_splits = t.downloading_splits ∧
      t2.on_disk_bytes = t.on_disk_bytes ∧
      t2.fd_cache = t.fd_cache ∧
      t2.limits = t.limits ∧ t2.dead_tokens = t.dead_tokens ∧ t2.next_token = t.next_token :=
  truncateFuel_spec _ t t2 hM heq

/- ### Entering `SplitTable.insert` -/

theorem lookupId_cons2 {α : Type} (q : Nat) (v : α) (m : List (Nat × α)) (j : Nat) :
    lookupId j ((q, v) :: m) = if q = j then some v else lookupId j m := rfl

theorem key_not_mem_of_absent {t : SplitTable} (hI : InvNC t) {k : SplitKey}
    (habs : lookupId k.split_ulid t.split_to_status = none) :
    k ∉ t.on_disk_splits ∧ k ∉ t.downloading_splits ∧ k ∉ t.candidate_splits := by
  refine ⟨?_, ?_, ?_⟩
  · intro hmem
    rcases hI.complete_od k hmem with ⟨n, hn⟩
    rw [habs] at hn
    cases hn
  · intro hmem
    rcases hI.complete_dl k hmem with ⟨tk, hn⟩
    rw [habs] at hn
    cases hn
  · intro hmem
    rcases hI.complete_cd k hmem with ⟨c2, hn⟩
    rw [habs] at hn
    cases hn

theorem uid_not_mem_fst {t : SplitTable} {u : Nat}
    (habs : lookupId u t.split_to_status = none) :
    u ∉ t.split_to_status.map Prod.fst := by
  intro hmem
  rcases List.mem_map.mp hmem with ⟨q, hq, he⟩
  exact lookupId_eq_none.mp habs q hq he

theorem MidInv_entry_candidate {t : SplitTable} {si : SplitInfo} {c2 : CandidateSplit}
    (hI : InvNC t)
    (habs : lookupId si.split_key.split_ulid t.split_to_status = none)
    (htok : statusTokenBound si.status t.next_token)
    (hst : si.status = Status.candidate c2) :
    MidInv { t with candidate_splits := btreeInsert si.split_key t.candidate_splits } si := by
  rcases key_not_mem_of_absent hI habs with ⟨hnod, hndl, hncd⟩
  have hlkc : ∀ j, lookupId j (addPending
      { t with candidate_splits := btreeInsert si.split_key t.candidate_splits }
      si).split_to_status =
      if si.split_key.split_ulid = j then some si else lookupId j t.split_to_status :=
    fun j => rfl
  refine { sorted_od := hI.sorted_od, sorted_dl := hI.sorted_dl,
           sorted_cd := sorted_btreeInsert hI.sorted_cd hncd,
           nodup_index := ?_, consistent := ?_, complete_od := ?_, complete_dl := ?_,
           complete_cd := ?_, bytes_eq := ?_, bytes_lt := ?_, fd_ok := ?_,
           tok_lt := ?_, dead_lt := hI.dead_lt }
  · show (List.map Prod.fst ((si.split_key.split_ulid, si) :: t.split_to_status)).Nodup
    rw [List.map_cons]
    exact List.nodup_cons.mpr ⟨uid_not_mem_fst habs, hI.nodup_index⟩
  · intro j info hj
    rw [hlkc] at hj
    by_cases hji : si.split_key.split_ulid = j
    · rw [if_pos hji] at hj
      injection hj with hj
      refine ⟨?_, ?_⟩
      · rw [← hj]
        exact hji
      · rw [← hj, hst]
        show si.split_key ∈ btreeInsert si.split_key t.candidate_splits
        rw [mem_btreeInsert]
        exact Or.inl rfl
    · rw [if_neg hji] at hj
      refine ⟨(hI.consistent j info hj).1, ?_⟩
      have hq := (hI.consistent j info hj).2
      cases hst2 : info.status with
      | candidate c3 =>
        rw [hst2] at hq
        show info.split_key ∈ btreeInsert si.split_key t.candidate_splits
        rw [mem_btreeInsert]
        exact Or.inr hq
      | downloading tk => rw [hst2] at hq; exact hq
      | onDisk n => rw [hst2] at hq; exact hq
  · intro k hk
    rcases hI.complete_od k hk with ⟨n, hn⟩
    refine ⟨n, ?_⟩
    rw [hlkc, if_neg]
    · exact hn
    · intro he
      rw [← he, habs] at hn
      cases hn
  · intro k hk
    rcases hI.complete_dl k hk with ⟨tk, hn⟩
    refine ⟨tk, ?_⟩
    rw [hlkc, if_neg]
    · exact hn
    · intro he
      rw [← he, habs] at hn
      cases hn
  · intro k hk
    have hk2 : k ∈ btreeInsert si.split_key t.candidate_splits := hk
    rw [mem_btreeInsert] at hk2
    rcases hk2 with rfl | hk3
    · refine ⟨c2, ?_⟩
      rw [hlkc, if_pos rfl]
      cases si with
      | mk key st =>
        simp only at hst ⊢
        rw [hst]
    · rcases hI.complete_cd k hk3 with ⟨c3, hn⟩
      refine ⟨c3, ?_⟩
      rw [hlkc, if_neg]
      · exact hn
      · intro he
        rw [← he, habs] at hn
        cases hn
  · show t.on_disk_bytes = sumOnDisk ((si.split_key.split_ulid, si) :: t.split_to_status) % W
    rw [sumOnDisk]
    have hb0 : bytesOf si.status = 0 := by rw [hst]; rfl
    show t.on_disk_bytes = (bytesOf si.status + sumOnDisk t.split_to_status) % W
    rw [hb0, Nat.zero_add, ← hI.bytes_eq]
  · intro j info n hj hst2
    rw [hlkc] at hj
    by_cases hji : si.split_key.split_ulid = j
    · rw [if_pos hji] at hj
      injection hj with hj
      subst hj
      rw [hst] at hst2
      cases hst2
    · rw [if_neg hji] at hj
      exact hI.bytes_lt j info n hj hst2
  · intro q hq
    rcases hI.fd_ok q hq with ⟨info, hlk, n, hsn⟩
    refine ⟨info, ?_, n, hsn⟩
    rw [hlkc, if_neg]
    · exact hlk
    · intro he
      rw [← he, habs] at hlk
      cases hlk
  · intro j info hj
    rw [hlkc] at hj
    by_cases hji : si.split_key.split_ulid = j
    · rw [if_pos hji] at hj
      injection hj with hj
      subst hj
      exact htok
    · rw [if_neg hji] at hj
      exact hI.tok_lt j info hj

theorem MidInv_entry_downloading {t : SplitTable} {si : SplitInfo} {tk0 : Nat}
    (hI : InvNC t)
    (habs : lookupId si.split_key.split_ulid t.split_to_status = none)
    (htok : statusTokenBound si.status t.next_token)
    (hst : si.status = Status.downloading tk0) :
    MidInv { t with downloading_splits := btreeInsert si.split_key t.downloading_splits } si := by
  rcases key_not_mem_of_absent hI habs with ⟨hnod, hndl, hncd⟩
  have hlkc : ∀ j, lookupId j (addPending
      { t with downloading_splits := btreeInsert si.split_key t.downloading_splits }
      si).split_to_status =
      if si.split_key.split_ulid = j then some si else lookupId j t.split_to_status :=
    fun j => rfl
  refine { sorted_od := hI.sorted_od, sorted_cd := hI.sorted_cd,
           sorted_dl := sorted_btreeInsert hI.sorted_dl hndl,
           nodup_index := ?_, consistent := ?_, complete_od := ?_, complete_dl := ?_,
           complete_cd := ?_, bytes_eq := ?_, bytes_lt := ?_, fd_ok := ?_,
           tok_lt := ?_, dead_lt := hI.dead_lt }
  · show (List.map Prod.fst ((si.split_key.split_ulid, si) :: t.split_to_status)).Nodup
    rw [List.map_cons]
    exact List.nodup_cons.mpr ⟨uid_not_mem_fst habs, hI.nodup_index⟩
  · intro j info hj
    rw [hlkc] at hj
    by_cases hji : si.split_key.split_ulid = j
    · rw [if_pos hji] at hj
      injection hj with hj
      refine ⟨?_, ?_⟩
      · rw [← hj]
        exact hji
      · rw [← hj, hst]
        show si.split_key ∈ btreeInsert si.split_key t.downloading_splits
        rw [mem_btreeInsert]
        exact Or.inl rfl
    · rw [if_neg hji] at hj
      refine ⟨(hI.consistent j info hj).1, ?_⟩
      have hq := (hI.consistent j info hj).2
      cases hst2 : info.status with
      | downloading tk2 =>
        rw [hst2] at hq
        show info.split_key ∈ btreeInsert si.split_key t.downloading_splits
        rw [mem_btreeInsert]
        exact Or.inr hq
      | candidate c3 => rw [hst2] at hq; exact hq
      | onDisk n => rw [hst2] at hq; exact hq
  · intro k hk
    rcases hI.complete_od k hk with ⟨n, hn⟩
    refine ⟨n, ?_⟩
    rw [hlkc, if_neg]
    · exact hn
    · intro he
      rw [← he, habs] at hn
      cases hn
  · intro k hk
    have hk2 : k ∈ btreeInsert si.split_key t.downloading_splits := hk
    rw [mem_btreeInsert] at hk2
    rcases hk2 with rfl | hk3
    · refine ⟨tk0, ?_⟩
      rw [hlkc, if_pos rfl]
      cases si with
      | mk key st =>
        simp only at hst ⊢
        rw [hst]
    · rcases hI.complete_dl k hk3 with ⟨tk2, hn⟩
      refine ⟨tk2, ?_⟩
      rw [hlkc, if_neg]
      · exact hn
      · intro he
        rw [← he, habs] at hn
        cases hn
  · intro k hk
    rcases hI.complete_cd k hk with ⟨c3, hn⟩
    refine ⟨c3, ?_⟩
    rw [hlkc, if_neg]
    · exact hn
    · intro he
      rw [← he, habs] at hn
      cases hn
  · show t.on_disk_bytes = sumOnDisk ((si.split_key.split_ulid, si) :: t.split_to_status) % W
    rw [sumOnDisk]
    have hb0 : bytesOf si.status = 0 := by rw [hst]; rfl
    show t.on_disk_bytes = (bytesOf si.status + sumOnDisk t.split_to_status) % W
    rw [hb0, Nat.zero_add, ← hI.bytes_eq]
  · intro j info n hj hst2
    rw [hlkc] at hj
    by_cases hji : si.split_key.split_ulid = j
    · rw [if_pos hji] at hj
      injection hj with hj
      subst hj
      rw [hst] at hst2
      cases hst2
    · rw [if_neg hji] at hj
      exact hI.bytes_lt j info n hj hst2
  · intro q hq
    rcases hI.fd_ok q hq with ⟨info, hlk, n, hsn⟩
    refine ⟨info, ?_, n, hsn⟩
    rw [hlkc, if_neg]
    · exact hlk
    · intro he
      rw [← he, habs] at hlk
      cases hlk
  · intro j info hj
    rw [hlkc] at hj
    by_cases hji : si.split_key.split_ulid = j
    · rw [if_pos hji] at hj
      injection hj with hj
      subst hj
      exact htok
    · rw [if_neg hji] at hj
      exact hI.tok_lt j info hj

theorem MidInv_entry_onDisk {t : SplitTable} {si : SplitInfo} {n0 : Nat}
    (hI : InvNC t)
    (habs : lookupId si.split_key.split_ulid t.split_to_status = none)
    (hbw : bytesOf si.status < W)
    (hst : si.status = Status.onDisk n0) :
    MidInv { t with on_disk_bytes := u64add t.on_disk_bytes n0,
                    on_disk_splits := btreeInsert si.split_key t.on_disk_splits } si := by
  rcases key_not_mem_of_absent hI habs with ⟨hnod, hndl, hncd⟩
  have hlkc : ∀ j, lookupId j (addPending
      { t with on_disk_bytes := u64add t.on_disk_bytes n0,
               on_disk_splits := btreeInsert si.split_key t.on_disk_splits }
      si).split_to_status =
      if si.split_key.split_ulid = j then some si else lookupId j t.split_to_status :=
    fun j => rfl
  refine { sorted_dl := hI.sorted_dl, sorted_cd := hI.sorted_cd,
           sorted_od := sorted_btreeInsert hI.sorted_od hnod,
           nodup_index := ?_, consistent := ?_, complete_od := ?_, complete_dl := ?_,
           complete_cd := ?_, bytes_eq := ?_, bytes_lt := ?_, fd_ok := ?_,
           tok_lt := ?_, dead_lt := hI.dead_lt }
  · show (List.map Prod.fst ((si.split_key.split_ulid, si) :: t.split_to_status)).Nodup
    rw [List.map_cons]
    exact List.nodup_cons.mpr ⟨uid_not_mem_fst habs, hI.nodup_index⟩
  · intro j info hj
    rw [hlkc] at hj
    by_cases hji : si.split_key.split_ulid = j
    · rw [if_pos hji] at hj
      injection hj with hj
      refine ⟨?_, ?_⟩
      · rw [← hj]
        exact hji
      · rw [← hj, hst]
        show si.split_key ∈ btreeInsert si.split_key t.on_disk_splits
        rw [mem_btreeInsert]
        exact Or.inl rfl
    · rw [if_neg hji] at hj
      refine ⟨(hI.consistent j info hj).1, ?_⟩
      have hq := (hI.consistent j info hj).2
      cases hst2 : info.status with
      | onDisk n2 =>
        rw [hst2] at hq
        show info.split_key ∈ btreeInsert si.split_key t.on_disk_splits
        rw [mem_btreeInsert]
        exact Or.inr hq
      | candidate c3 => rw [hst2] at hq; exact hq
      | downloading tk2 => rw [hst2] at hq; exact hq
  · intro k hk
    have hk2 : k ∈ btreeInsert si.split_key t.on_disk_splits := hk
    rw [mem_btreeInsert] at hk2
    rcases hk2 with rfl | hk3
    · refine ⟨n0, ?_⟩
      rw [hlkc, if_pos rfl]
      cases si with
      | mk key st =>
        simp only at hst ⊢
        rw [hst]
    · rcases hI.complete_od k hk3 with ⟨n2, hn⟩
      refine ⟨n2, ?_⟩
      rw [hlkc, if_neg]
      · exact hn
      · intro he
        rw [← he, habs] at hn
        cases hn
  · intro k hk
    rcases hI.complete_dl k hk with ⟨tk2, hn⟩
    refine ⟨tk2, ?_⟩
    rw [hlkc, if_neg]
    · exact hn
    · intro he
      rw [← he, habs] at hn
      cases hn
  · intro k hk
    rcases hI.complete_cd k hk with ⟨c3, hn⟩
    refine ⟨c3, ?_⟩
    rw [hlkc, if_neg]
    · exact hn
    · intro he
      rw [← he, habs] at hn
      cases hn
  · show u64add t.on_disk_bytes n0 =
      sumOnDisk ((si.split_key.split_ulid, si) :: t.split_to_status) % W
    rw [sumOnDisk]
    show _ = (bytesOf si.status + sumOnDisk t.split_to_status) % W
    rw [hst]
    show _ = (n0 + sumOnDisk t.split_to_status) % W
    rw [hI.bytes_eq, u64add_sum]
    rw [Nat.add_comm]
  · intro j info n hj hst2
    rw [hlkc] at hj
    by_cases hji : si.split_key.split_ulid = j
    · rw [if_pos hji] at hj
      injection hj with hj
      subst hj
      rw [hst] at hst2
      injection hst2 with he
      rw [← he]
      rw [hst] at hbw
      exact hbw
    · rw [if_neg hji] at hj
      exact hI.bytes_lt j info n hj hst2
  · intro q hq
    rcases hI.fd_ok q hq with ⟨info, hlk, n, hsn⟩
    refine ⟨info, ?_, n, hsn⟩
    rw [hlkc, if_neg]
    · exact hlk
    · intro he
      rw [← he, habs] at hlk
      cases hlk
  · intro j info hj
    rw [hlkc] at hj
    by_cases hji : si.split_key.split_ulid = j
    · rw [if_pos hji] at hj
      injection hj with hj
      subst hj
      rw [hst]
      trivial
    · rw [if_neg hji] at hj
      exact hI.tok_lt j info hj

/- ### Characterization of `SplitTable.insert` -/

theorem sublist_btreeInsert (k : SplitKey) (l : List SplitKey) :
    List.Sublist l (btreeInsert k l) := by
  induction l with
  | nil => simp [btreeInsert]
  | cons y ys ih =>
    by_cases h1 : keyLtb k y = true
    · simp only [btreeInsert, h1, if_true]
      exact List.Sublist.cons k (List.Sublist.refl (y :: ys))
    · rw [Bool.not_eq_true] at h1
      by_cases h2 : k = y
      · subst h2
        rw [btreeInsert, if_neg (by rw [h1]; simp), if_pos rfl]
      · simp only [btreeInsert, h1, Bool.false_eq_true, if_false, h2, ite_false]
        exact List.Sublist.cons₂ y ih

theorem truncate_of_le {t : SplitTable}
    (h : t.candidate_splits.length ≤ MAX_NUM_CANDIDATES) :
    t.truncate_candidate_list = some t := by
  unfold SplitTable.truncate_candidate_list
  cases hf : t.candidate_splits.length with
  | zero => rw [truncateFuel, if_neg (Nat.not_lt.mpr h)]
  | succ m => rw [truncateFuel, if_neg (Nat.not_lt.mpr h)]

theorem insert_candidate_none {t : SplitTable} {si : SplitInfo} {c2 : CandidateSplit}
    (hst : si.status = Status.candidate c2)
    (htr : SplitTable.truncate_candidate_list
      { t with candidate_splits := btreeInsert si.split_key t.candidate_splits } = none) :
    t.insert si = none := by
  unfold SplitTable.insert
  rw [hst]
  dsimp only
  rw [htr]

theorem insert_candidate_some {t : SplitTable} {si : SplitInfo} {c2 : CandidateSplit}
    {tq : SplitTable} (hst : si.status = Status.candidate c2)
    (htr : SplitTable.truncate_candidate_list
      { t with candidate_splits := btreeInsert si.split_key t.candidate_splits } = some tq) :
    t.insert si = some { tq.gc_downloading_splits_if_necessary with
      split_to_status := ((si.split_key.split_ulid, si) :: eraseId si.split_key.split_ulid
        tq.gc_downloading_splits_if_necessary.split_to_status) } := by
  unfold SplitTable.insert
  rw [hst]
  dsimp only
  rw [htr]

theorem deadDL_congr {a b : SplitTable} (hidx : a.split_to_status = b.split_to_status)
    (hdead : a.dead_tokens = b.dead_tokens) (j : Nat) : deadDL a j ↔ deadDL b j := by
  unfold deadDL
  rw [hidx, hdead]

theorem lookup_addPending_self (tg : SplitTable) (si : SplitInfo) :
    lookupId si.split_key.split_ulid (addPending tg si).split_to_status = some si := by
  show lookupId _ ((si.split_key.split_ulid, si) :: tg.split_to_status) = some si
  rw [lookupId_cons2, if_pos rfl]

theorem lookup_addPending_ne (tg : SplitTable) (si : SplitInfo) {j : Nat}
    (hj : j ≠ si.split_key.split_ulid) :
    lookupId j (addPending tg si).split_to_status = lookupId j tg.split_to_status := by
  show lookupId j ((si.split_key.split_ulid, si) :: tg.split_to_status) = _
  rw [lookupId_cons2, if_neg (fun he => hj he.symm)]

theorem insert_spec {t : SplitTable} {si : SplitInfo} {t2 : SplitTable}
    (hI : InvNC t)
    (habs : lookupId si.split_key.split_ulid t.split_to_status = none)
    (htok : statusTokenBound si.status t.next_token)
    (hbw : bytesOf si.status < W)
    (heq : t.insert si = some t2) :
    InvNC t2 ∧
    lookupId si.split_key.split_ulid t2.split_to_status = some si ∧
    (t2.candidate_splits.length ≤ MAX_NUM_CANDIDATES ∨
      t2.candidate_splits = t.candidate_splits) ∧
    t2.limits = t.limits ∧ t2.dead_tokens = t.dead_tokens ∧
    t2.next_token = t.next_token ∧ t2.fd_cache = t.fd_cache ∧
    t2.on_disk_bytes = u64add t.on_disk_bytes (bytesOf si.status) ∧
    List.Sublist t2.downloading_splits (btreeInsert si.split_key t.downloading_splits) ∧
    (∀ n0, si.status = Status.onDisk n0 →
      t2.on_disk_splits = btreeInsert si.split_key t.on_disk_splits ∧
      t2.candidate_splits = t.candidate_splits ∧
      List.Sublist t2.downloading_splits t.downloading_splits) ∧
    (∀ tk, si.status = Status.downloading tk →
      t2.on_disk_splits = t.on_disk_splits ∧ t2.candidate_splits = t.candidate_splits) ∧
    (∀ c2, si.status = Status.candidate c2 →
      t2.on_disk_splits = t.on_disk_splits ∧
      t2.candidate_splits = (btreeInsert si.split_key t.candidate_splits).drop
        ((btreeInsert si.split_key t.candidate_splits).length - MAX_NUM_CANDIDATES) ∧
      List.Sublist t2.downloading_splits t.downloading_splits ∧
      (t.candidate_splits.length < MAX_NUM_CANDIDATES →
        t2.candidate_splits = btreeInsert si.split_key t.candidate_splits)) ∧
    ((∀ c2, si.status = Status.candidate c2 →
        t.candidate_splits.length < MAX_NUM_CANDIDATES) →
      ∀ j, j ≠ si.split_key.split_ulid →
        lookupId j t2.split_to_status = lookupId j t.split_to_status ∨
        (lookupId j t2.split_to_status = none ∧ deadDL t j)) := by
  have hbmod : t.on_disk_bytes % W = t.on_disk_bytes := by
    rw [hI.bytes_eq]
    unfold W
    omega
  cases hst : si.status with
  | downloading tk =>
    unfold SplitTable.insert at heq
    rw [hst] at heq
    dsimp only at heq
    injection heq with heq
    have hM := MidInv_entry_downloading hI habs htok hst
    rcases gc_spec hM with ⟨hMg, hRg⟩
    rcases hRg with ⟨hp, hcd, hod, hb, hdl, hfd, hlim, hde, hnx⟩
    have herase := eraseId_eq_of_none hMg.absent
    set tq := ({ t with downloading_splits := btreeInsert si.split_key t.downloading_splits } :
      SplitTable) with htqdef
    set tg := tq.gc_downloading_splits_if_necessary with htgdef
    have hfinal : t2 = addPending tg si := by
      rw [← heq]
      unfold addPending
      rw [herase]
    refine ⟨?_, ?_, ?_, ?_, ?_, ?_, ?_, ?_, ?_, ?_, ?_, ?_, ?_⟩
    · rw [hfinal]
      exact hMg
    · rw [hfinal]
      exact lookup_addPending_self tg si
    · right
      rw [hfinal]
      show tg.candidate_splits = t.candidate_splits
      rw [hcd]
    · rw [hfinal]
      exact hlim
    · rw [hfinal]
      exact hde
    · rw [hfinal]
      exact hnx
    · rw [hfinal]
      exact hfd
    · rw [hfinal]
      show tg.on_disk_bytes = _
      rw [hb]
      show t.on_disk_bytes = (t.on_disk_bytes + 0) % W
      rw [Nat.add_zero, hbmod]
    · rw [hfinal]
      exact hdl
    · intro n0 hn0
      cases hn0
    · intro tk2 _
      rw [hfinal]
      exact ⟨hod, hcd⟩
    · intro c2 hc2
      cases hc2
    · intro _ j hj
      rw [hfinal, lookup_addPending_ne tg si hj]
      rcases hp j with h1 | ⟨h1, h2⟩
      · left
        exact h1
      · right
        refine ⟨h1, ?_⟩
        rw [← deadDL_congr (show tq.split_to_status = t.split_to_status from rfl)
          (show tq.dead_tokens = t.dead_tokens from rfl) j]
        exact h2
  | onDisk n0 =>
    unfold SplitTable.insert at heq
    rw [hst] at heq
    dsimp only at heq
    injection heq with heq
    have hM := MidInv_entry_onDisk hI habs hbw hst
    rcases gc_spec hM with ⟨hMg, hRg⟩
    rcases hRg with ⟨hp, hcd, hod, hb, hdl, hfd, hlim, hde, hnx⟩
    have herase := eraseId_eq_of_none hMg.absent
    set tq := ({ t with on_disk_bytes := u64add t.on_disk_bytes n0,
                        on_disk_splits := btreeInsert si.split_key t.on_disk_splits } :
      SplitTable) with htqdef
    set tg := tq.gc_downloading_splits_if_necessary with htgdef
    have hfinal : t2 = addPending tg si := by
      rw [← heq]
      unfold addPending
      rw [herase]
    refine ⟨?_, ?_, ?_, ?_, ?_, ?_, ?_, ?_, ?_, ?_, ?_, ?_, ?_⟩
    · rw [hfinal]
      exact hMg
    · rw [hfinal]
      exact lookup_addPending_self tg si
    · right
      rw [hfinal]
      show tg.candidate_splits = t.candidate_splits
      rw [hcd]
    · rw [hfinal]
      exact hlim
    · rw [hfinal]
      exact hde
    · rw [hfinal]
      exact hnx
    · rw [hfinal]
      exact hfd
    · rw [hfinal]
      show tg.on_disk_bytes = _
      rw [hb]
      rfl
    · rw [hfinal]
      refine List.Sublist.trans hdl ?_
      exact sublist_btreeInsert _ _
    · intro n2 hn2
      injection hn2 with hn2
      subst hn2
      rw [hfinal]
      exact ⟨hod, hcd, hdl⟩
    · intro tk2 htk2
      cases htk2
    · intro c2 hc2
      cases hc2
    · intro _ j hj
      rw [hfinal, lookup_addPending_ne tg si hj]
      rcases hp j with h1 | ⟨h1, h2⟩
      · left
        exact h1
      · right
        refine ⟨h1, ?_⟩
        rw [← deadDL_congr (show tq.split_to_status = t.split_to_status from rfl)
          (show tq.dead_tokens = t.dead_tokens from rfl) j]
        exact h2
  | candidate c0 =>
    have hM := MidInv_entry_candidate hI habs htok hst
    cases htr : SplitTable.truncate_candidate_list
        { t with candidate_splits := btreeInsert si.split_key t.candidate_splits } with
    | none =>
      rw [insert_candidate_none hst htr] at heq
      cases heq
    | some tq =>
      rw [insert_candidate_some hst htr] at heq
      injection heq with heq
      rcases truncate_spec hM htr with
        ⟨hMq, hcdq, hlenq, hodq, hdlq, hbq, hfdq, hlimq, hdeq, hnxq⟩
      rcases gc_spec hMq with ⟨hMg, hRg⟩
      rcases hRg with ⟨hp, hcd, hod, hb, hdl, hfd, hlim, hde, hnx⟩
      have herase := eraseId_eq_of_none hMg.absent
      set tg := tq.gc_downloading_splits_if_necessary with htgdef
      have hfinal : t2 = addPending tg si := by
        rw [← heq]
        unfold addPending
        rw [herase]
      have hkeynot : si.split_key ∉ t.candidate_splits :=
        (key_not_mem_of_absent hI habs).2.2
      refine ⟨?_, ?_, ?_, ?_, ?_, ?_, ?_, ?_, ?_, ?_, ?_, ?_, ?_⟩
      · rw [hfinal]
        exact hMg
      · rw [hfinal]
        exact lookup_addPending_self tg si
      · left
        rw [hfinal]
        show tg.candidate_splits.length ≤ _
        rw [hcd]
        exact hlenq
      · rw [hfinal]
        show tg.limits = _
        rw [hlim, hlimq]
      · rw [hfinal]
        show tg.dead_tokens = _
        rw [hde, hdeq]
      · rw [hfinal]
        show tg.next_token = _
        rw [hnx, hnxq]
      · rw [hfinal]
        show tg.fd_cache = _
        rw [hfd, hfdq]
      · rw [hfinal]
        show tg.on_disk_bytes = _
        rw [hb, hbq]
        show t.on_disk_bytes = (t.on_disk_bytes + 0) % W
        rw [Nat.add_zero, hbmod]
      · rw [hfinal]
        show List.Sublist tg.downloading_splits _
        rw [hdlq] at hdl
        refine List.Sublist.trans hdl ?_
        exact sublist_btreeInsert _ _
      · intro n2 hn2
        cases hn2
      · intro tk2 htk2
        cases htk2
      · intro c2 _
        refine ⟨?_, ?_, ?_, ?_⟩
        · rw [hfinal]
          show tg.on_disk_splits = _
          rw [hod, hodq]
        · rw [hfinal]
          show tg.candidate_splits = _
          rw [hcd, hcdq]
        · rw [hfinal]
          show List.Sublist tg.downloading_splits _
          rw [hdlq] at hdl
          exact hdl
        · intro hlt
          rw [hfinal]
          show tg.candidate_splits = _
          rw [hcd, hcdq]
          have hlen2 : (btreeInsert si.split_key t.candidate_splits).length =
              t.candidate_splits.length + 1 := length_btreeInsert_of_not_mem hkeynot
          have hz : ({ t with candidate_splits := btreeInsert si.split_key t.candidate_splits } : SplitTable).candidate_splits.length - MAX_NUM_CANDIDATES = 0 := by
            show (btreeInsert si.split_key t.candidate_splits).length - MAX_NUM_CANDIDATES = 0
            rw [hlen2]
            omega
          rw [hz, List.drop_zero]
      · intro hcap j hj
        have hlt := hcap c0 rfl
        have htr2 : SplitTable.truncate_candidate_list
            { t with candidate_splits := btreeInsert si.split_key t.candidate_splits } =
            some { t with candidate_splits := btreeInsert si.split_key t.candidate_splits } := by
          apply truncate_of_le
          show (btreeInsert si.split_key t.candidate_splits).length ≤ _
          rw [length_btreeInsert_of_not_mem hkeynot]
          omega
        rw [htr] at htr2
        injection htr2 with htr2
        rw [hfinal, lookup_addPending_ne tg si hj]
        rcases hp j with h1 | ⟨h1, h2⟩
        · left
          rw [h1, htr2]
        · right
          refine ⟨h1, ?_⟩
          rw [← deadDL_congr (show tq.split_to_status = t.split_to_status by rw [htr2])
            (show tq.dead_tokens = t.dead_tokens by rw [htr2]) j]
          exact h2

end SplitCache

namespace SplitCache

/- ### Small glue lemmas -/

theorem remove_lookup_self (t : SplitTable) (id : Nat) :
    lookupId id ((t.remove id).2).split_to_status = none := by
  cases h : lookupId id t.split_to_status with
  | none => rw [remove_of_none h]; exact h
  | some info =>
    cases hst : info.status with
    | candidate c =>
      rw [remove_of_candidate h hst]
      show lookupId id (eraseId id t.split_to_status) = none
      rw [lookupId_eraseId, if_pos rfl]
    | downloading tk =>
      rw [remove_of_downloading h hst]
      show lookupId id (eraseId id t.split_to_status) = none
      rw [lookupId_eraseId, if_pos rfl]
    | onDisk n =>
      rw [remove_of_onDisk h hst]
      show lookupId id (eraseId id t.split_to_status) = none
      rw [lookupId_eraseId, if_pos rfl]

theorem remove_lookup_ne (t : SplitTable) (id : Nat) {j : Nat} (hj : j ≠ id) :
    lookupId j ((t.remove id).2).split_to_status = lookupId j t.split_to_status := by
  cases h : lookupId id t.split_to_status with
  | none => rw [remove_of_none h]
  | some info =>
    cases hst : info.status with
    | candidate c =>
      rw [remove_of_candidate h hst]
      show lookupId j (eraseId id t.split_to_status) = _
      rw [lookupId_eraseId, if_neg hj]
    | downloading tk =>
      rw [remove_of_downloading h hst]
      show lookupId j (eraseId id t.split_to_status) = _
      rw [lookupId_eraseId, if_neg hj]
    | onDisk n =>
      rw [remove_of_onDisk h hst]
      show lookupId j (eraseId id t.split_to_status) = _
      rw [lookupId_eraseId, if_neg hj]

theorem InvNC_bump {t : SplitTable} (hI : InvNC t) :
    InvNC { t with next_token := t.next_token + 1 } := by
  refine { sorted_od := hI.sorted_od, sorted_dl := hI.sorted_dl, sorted_cd := hI.sorted_cd,
           nodup_index := hI.nodup_index, consistent := hI.consistent,
           complete_od := hI.complete_od, complete_dl := hI.complete_dl,
           complete_cd := hI.complete_cd, bytes_eq := hI.bytes_eq, bytes_lt := hI.bytes_lt,
           fd_ok := hI.fd_ok, tok_lt := ?_, dead_lt := ?_ }
  · intro j info hj
    have := hI.tok_lt j info hj
    cases hs : info.status with
    | candidate c =>
      rw [hs] at this
      show c.living_token < t.next_token + 1
      exact Nat.lt_succ_of_lt this
    | downloading tk =>
      rw [hs] at this
      show tk < t.next_token + 1
      exact Nat.lt_succ_of_lt this
    | onDisk n => trivial
  · intro tok htok
    have := hI.dead_lt tok htok
    show tok < t.next_token + 1
    omega

/- ### Reinserting an ascending prefix into a sorted queue -/

theorem foldl_btreeInsert_cons (P : List SplitKey) :
    ∀ (X : List SplitKey) (k : SplitKey), (∀ x ∈ P, keyLt k x) →
    P.foldl (fun acc x => btreeInsert x acc) (k :: X) =
      k :: P.foldl (fun acc x => btreeInsert x acc) X := by
  induction P with
  | nil => intro X k _; rfl
  | cons y P2 ih =>
    intro X k hk
    have hky : keyLt k y := hk y (List.mem_cons_self y P2)
    have h1 : keyLtb y k = false := by
      rw [← Bool.not_eq_true]
      exact fun hyk => keyLt_irrefl k (keyLt_trans hky hyk)
    have h2 : ¬ y = k := fun he => keyLt_irrefl k (he ▸ hky)
    show List.foldl _ (btreeInsert y (k :: X)) P2 = _
    rw [show btreeInsert y (k :: X) = k :: btreeInsert y X by
      rw [btreeInsert]
      simp only [h1, Bool.false_eq_true, if_false, h2, ite_false]]
    rw [ih (btreeInsert y X) k (fun x hx => hk x (List.mem_cons_of_mem y hx))]
    rw [List.foldl_cons]

theorem foldl_btreeInsert_ascending :
    ∀ (P rest : List SplitKey), List.Chain' keyLt (P ++ rest) →
    P.foldl (fun acc x => btreeInsert x acc) rest = P ++ rest := by
  intro P
  induction P with
  | nil => intro rest _; rfl
  | cons k P2 ih =>
    intro rest hchain
    have hpw := List.chain'_iff_pairwise.mp hchain
    rcases List.pairwise_cons.mp hpw with ⟨hk, hpw2⟩
    show List.foldl _ (btreeInsert k rest) P2 = _
    have hins : btreeInsert k rest = k :: rest :=
      btreeInsert_of_forall_lt (fun x hx => hk x (List.mem_append.mpr (Or.inr hx)))
    rw [hins]
    rw [foldl_btreeInsert_cons P2 rest k (fun x hx => hk x (List.mem_append.mpr (Or.inl hx)))]
    rw [ih rest (List.chain'_iff_pairwise.mpr hpw2)]
    rfl

/- ### u64 fold arithmetic -/

theorem Wpos : 0 < W := by
  unfold W
  omega

theorem foldl_u64sub_char : ∀ (L : List Nat) (b : Nat), b < W →
    L.foldl u64sub b = (b + (L.map (fun n => W - n)).sum) % W := by
  intro L
  induction L with
  | nil =>
    intro b hb
    show b = (b + 0) % W
    unfold W at hb ⊢
    omega
  | cons n L2 ih =>
    intro b hb
    show List.foldl u64sub (u64sub b n) L2 = _
    rw [ih (u64sub b n) (Nat.mod_lt _ Wpos)]
    unfold u64sub W
    simp only [List.map_cons, List.sum_cons]
    omega

theorem foldl_u64add_char : ∀ (L : List Nat) (b : Nat), b < W →
    L.foldl u64add b = (b + L.sum) % W := by
  intro L
  induction L with
  | nil =>
    intro b hb
    show b = (b + 0) % W
    unfold W at hb ⊢
    omega
  | cons n L2 ih =>
    intro b hb
    show List.foldl u64add (u64add b n) L2 = _
    rw [ih (u64add b n) (Nat.mod_lt _ Wpos)]
    unfold u64add W
    simp only [List.sum_cons]
    omega

theorem map_sub_sum_add (L : List Nat) (hL : ∀ n ∈ L, n < W) :
    (L.map (fun n => W - n)).sum + L.sum = L.length * W := by
  induction L with
  | nil => rfl
  | cons n L2 ih =>
    simp only [List.map_cons, List.sum_cons, List.length_cons]
    have hn : n < W := hL n (List.mem_cons_self n L2)
    have ih2 := ih (fun m hm => hL m (List.mem_cons_of_mem n hm))
    have hW := Wpos
    calc W - n + (L2.map (fun m => W - m)).sum + (n + L2.sum)
        = ((L2.map (fun m => W - m)).sum + L2.sum) + (W - n + n) := by ring
      _ = L2.length * W + W := by rw [ih2]; omega
      _ = (L2.length + 1) * W := by ring

theorem u64_roundtrip (L : List Nat) (b : Nat) (hb : b < W)
    (hL : ∀ n ∈ L, n < W) : L.foldl u64add (L.foldl u64sub b) = b := by
  rw [foldl_u64sub_char L b hb, foldl_u64add_char L _ (Nat.mod_lt _ Wpos)]
  rw [Nat.mod_add_mod]
  have := map_sub_sum_add L hL
  rw [Nat.add_assoc, this]
  rw [Nat.add_mul_mod_self_right]
  unfold W at hb ⊢
  omega

/- ### The eviction loop of `make_room_for_split_if_necessary` -/

theorem makeRoomFuel_spec :
    ∀ (fuel : Nat) (t : SplitTable) (bound : Option Nat) (acc : List SplitInfo)
      (res : List SplitInfo × SplitTable), Inv t →
      makeRoomFuel fuel t bound acc = some res →
      Inv res.2 ∧
      (∃ P : List SplitKey, ∃ L : List SplitInfo,
        t.on_disk_splits = P ++ res.2.on_disk_splits ∧
        res.1 = acc ++ L ∧
        L.map (fun si => si.split_key) = P ∧
        (∀ si ∈ L, lookupId si.split_key.split_ulid t.split_to_status = some si ∧
          (∃ n, si.status = Status.onDisk n ∧ n < W) ∧
          (∀ b, bound = some b → si.split_key.last_accessed ≤ b)) ∧
        res.2.on_disk_bytes =
          (L.map (fun si => bytesOf si.status)).foldl u64sub t.on_disk_bytes ∧
        (∀ j, lookupId j res.2.split_to_status = lookupId j t.split_to_status ∨
          (lookupId j res.2.split_to_status = none ∧
            ∃ si ∈ L, si.split_key.split_ulid = j)) ∧
        (∀ si ∈ L, lookupId si.split_key.split_ulid res.2.split_to_status = none) ∧
        (L.map (fun si => si.split_key.split_ulid)).Nodup) ∧
      res.2.candidate_splits = t.candidate_splits ∧
      res.2.downloading_splits = t.downloading_splits ∧
      List.Sublist res.2.fd_cache t.fd_cache ∧
      res.2.limits = t.limits ∧ res.2.dead_tokens = t.dead_tokens ∧
      res.2.next_token = t.next_token := by
  intro fuel
  induction fuel with
  | zero =>
    intro t bound acc res hI heq
    rw [makeRoomFuel] at heq
    by_cases ho : t.is_out_of_limits = true
    · rw [if_pos ho] at heq
      cases heq
    · rw [if_neg ho] at heq
      injection heq with heq
      subst heq
      refine ⟨hI, ⟨[], [], rfl, by simp, rfl, by simp, rfl, fun j => Or.inl rfl, by simp, by simp⟩,
        rfl, rfl, List.Sublist.refl _, rfl, rfl, rfl⟩
  | succ fuel ih =>
    intro t bound acc res hI heq
    rw [makeRoomFuel] at heq
    by_cases ho : t.is_out_of_limits = true
    · rw [if_pos ho] at heq
      cases hcd : t.on_disk_splits with
      | nil =>
        rw [hcd] at heq
        rw [show (List.nil (α := SplitKey)).head? = none from rfl] at heq
        dsimp only at heq
        injection heq with heq
        subst heq
        refine ⟨hI, ⟨[], [], hcd.symm ▸ rfl, by simp, rfl, by simp, rfl, fun j => Or.inl rfl, by simp, by simp⟩,
          rfl, rfl, List.Sublist.refl _, rfl, rfl, rfl⟩
      | cons first tail =>
        rw [hcd] at heq
        rw [show (first :: tail).head? = some first from rfl] at heq
        dsimp only at heq
        by_cases hstop : makeRoomStop bound first = true
        · rw [if_pos hstop] at heq
          injection heq with heq
          subst heq
          refine ⟨hI, ⟨[], [], hcd.symm, by simp, rfl, by simp, rfl, fun j => Or.inl rfl, by simp, by simp⟩,
            rfl, rfl, List.Sublist.refl _, rfl, rfl, rfl⟩
        · rw [if_neg hstop] at heq
          have hfmem : first ∈ t.on_disk_splits := by
            rw [hcd]
            exact List.mem_cons_self first tail
          rcases hI.1.complete_od first hfmem with ⟨n, hlk⟩
          have hnW : n < W := hI.1.bytes_lt first.split_ulid ⟨first, Status.onDisk n⟩ n hlk rfl
          have hchar := remove_of_onDisk hlk (rfl :
            (⟨first, Status.onDisk n⟩ : SplitInfo).status = Status.onDisk n)
          have hfnot : first ∉ tail := by
            intro hmem
            have hnd := chain'_nodup hI.1.sorted_od
            rw [hcd] at hnd
            exact (List.nodup_cons.mp hnd).1 hmem
          have herase : eraseKey first t.on_disk_splits = tail := by
            rw [hcd]
            exact eraseKey_cons_self hfnot
          rw [hchar] at heq
          dsimp only at heq
          rw [herase] at heq
          rw [if_pos (by simp)] at heq
          have hI2 : Inv (t.remove first.split_ulid).2 := Inv_remove hI first.split_ulid
          rw [hchar] at hI2
          dsimp only at hI2
          rw [herase] at hI2
          rcases ih _ bound _ res hI2 heq with
            ⟨hIf, ⟨P, L, hodf, haccf, hmapf, hmemf, hbf, hpf, habsf, hndf⟩,
              hcdf, hdlf, hfdf, hlimf, hdef, hnxf⟩
          dsimp only at hodf haccf hmapf hbf hpf hcdf hdlf hfdf hlimf hdef hnxf
          have hremove_self : ∀ si ∈ L, si.split_key.split_ulid ≠ first.split_ulid := by
            intro si hsi he
            have h1 := (hmemf si hsi).1
            rw [he] at h1
            rw [lookupId_eraseId, if_pos rfl] at h1
            cases h1
          refine ⟨hIf, ⟨first :: P, ⟨first, Status.onDisk n⟩ :: L, ?_, ?_, ?_, ?_, ?_, ?_, ?_, ?_⟩,
            hcdf, hdlf, ?_, hlimf, hdef, hnxf⟩
          · rw [hodf]
            rfl
          · rw [haccf]
            simp
          · rw [List.map_cons, hmapf]
          · intro si hsi
            rcases List.mem_cons.mp hsi with rfl | hsi2
            · refine ⟨hlk, ⟨n, rfl, hnW⟩, ?_⟩
              intro b hb
              rw [hb] at hstop
              simp only [makeRoomStop, decide_eq_true_eq] at hstop
              dsimp only
              omega
            · have h1 := (hmemf si hsi2).1
              rw [lookupId_eraseId, if_neg (hremove_self si hsi2)] at h1
              exact ⟨h1, (hmemf si hsi2).2.1, (hmemf si hsi2).2.2⟩
          · rw [hbf]
            simp only [List.map_cons, List.foldl_cons]
            rfl
          · intro j
            by_cases hj : j = first.split_ulid
            · right
              rcases hpf j with h1 | ⟨h1, _⟩
              · rw [h1, lookupId_eraseId, if_pos hj]
                exact ⟨rfl, ⟨first, Status.onDisk n⟩,
                  List.mem_cons_self _ _, hj.symm⟩
              · exact ⟨h1, ⟨first, Status.onDisk n⟩, List.mem_cons_self _ _, hj.symm⟩
            · rcases hpf j with h1 | ⟨h1, si, hsi, hsij⟩
              · left
                rw [h1, lookupId_eraseId, if_neg hj]
              · right
                exact ⟨h1, si, List.mem_cons_of_mem _ hsi, hsij⟩
          · intro si hsi
            rcases List.mem_cons.mp hsi with rfl | hsi2
            · dsimp only
              rcases hpf first.split_ulid with h1 | ⟨h1, _⟩
              · rw [h1, lookupId_eraseId, if_pos rfl]
              · exact h1
            · exact habsf si hsi2
          · rw [List.map_cons]
            refine List.nodup_cons.mpr ⟨?_, hndf⟩
            intro hmem
            rcases List.mem_map.mp hmem with ⟨si, hsi, hsieq⟩
            exact hremove_self si hsi hsieq
          · refine List.Sublist.trans hfdf ?_
            exact eraseId_sublist _ _
    · rw [if_neg ho] at heq
      injection heq with heq
      subst heq
      refine ⟨hI, ⟨[], [], rfl, by simp, rfl, by simp, rfl, fun j => Or.inl rfl, by simp, by simp⟩,
        rfl, rfl, List.Sublist.refl _, rfl, rfl, rfl⟩

/- ### Rolling collected evictions back: the reinsertion fold of make_room -/

theorem foldl_insert_none (L : List SplitInfo) :
    L.foldl insertFold none = none := by
  induction L with
  | nil => rfl
  | cons si L2 ih => exact ih

theorem rollback_fold_spec :
    ∀ (L : List SplitInfo) (t1 t2 : SplitTable), Inv t1 →
      (∀ si ∈ L, lookupId si.split_key.split_ulid t1.split_to_status = none ∧
        ∃ n, si.status = Status.onDisk n ∧ n < W) →
      (L.map (fun si => si.split_key.split_ulid)).Nodup →
      L.foldl insertFold (some t1) = some t2 →
      Inv t2 ∧
      t2.on_disk_splits =
        (L.map (fun si => si.split_key)).foldl (fun acc k => btreeInsert k acc)
          t1.on_disk_splits ∧
      t2.candidate_splits = t1.candidate_splits ∧
      List.Sublist t2.downloading_splits t1.downloading_splits ∧
      t2.on_disk_bytes =
        (L.map (fun si => bytesOf si.status)).foldl u64add t1.on_disk_bytes ∧
      (∀ si ∈ L, lookupId si.split_key.split_ulid t2.split_to_status = some si) ∧
      (∀ j, j ∉ L.map (fun si => si.split_key.split_ulid) →
        lookupId j t2.split_to_status = lookupId j t1.split_to_status ∨
        (lookupId j t2.split_to_status = none ∧ deadDL t1 j)) ∧
      t2.fd_cache = t1.fd_cache ∧ t2.limits = t1.limits ∧
      t2.dead_tokens = t1.dead_tokens ∧ t2.next_token = t1.next_token := by
  intro L
  induction L with
  | nil =>
    intro t1 t2 hI _ _ heq
    injection heq with heq
    subst heq
    exact ⟨hI, rfl, rfl, List.Sublist.refl _, rfl, by simp, fun j _ => Or.inl rfl,
      rfl, rfl, rfl, rfl⟩
  | cons si L2 ih =>
    intro t1 t2 hI hmem hnd heq
    rw [List.foldl_cons] at heq
    rcases hmem si (List.mem_cons_self si L2) with ⟨habs, n, hn, hnW⟩
    cases hins : SplitTable.insert t1 si with
    | none =>
      rw [show insertFold (some t1) si = SplitTable.insert t1 si from rfl,
        hins, foldl_insert_none] at heq
      cases heq
    | some tm =>
      rw [show insertFold (some t1) si = SplitTable.insert t1 si from rfl,
        hins] at heq
      have htok : statusTokenBound si.status t1.next_token := by
        rw [hn]; trivial
      have hbw : bytesOf si.status < W := by
        rw [hn]; exact hnW
      rcases insert_spec hI.1 habs htok hbw hins with
        ⟨hI2, hlk2, _, hlim2, hde2, hnx2, hfd2, hb2, _, hOD, _, _, hPW⟩
      rcases hOD n hn with ⟨hod2, hcd2, hdl2⟩
      have hcap2 : tm.candidate_splits.length ≤ MAX_NUM_CANDIDATES := by
        rw [hcd2]; exact hI.2
      have hvac : ∀ c2, si.status = Status.candidate c2 →
          t1.candidate_splits.length < MAX_NUM_CANDIDATES := by
        intro c2 hc2
        rw [hn] at hc2
        cases hc2
      have hndcons := List.nodup_cons.mp (by rw [List.map_cons] at hnd; exact hnd)
      have hmem2 : ∀ sj ∈ L2, lookupId sj.split_key.split_ulid tm.split_to_status = none ∧
          ∃ m, sj.status = Status.onDisk m ∧ m < W := by
        intro sj hsj
        have hne : sj.split_key.split_ulid ≠ si.split_key.split_ulid := by
          intro he
          exact hndcons.1 (he ▸ List.mem_map.mpr ⟨sj, hsj, rfl⟩)
        have habsj := (hmem sj (List.mem_cons_of_mem si hsj)).1
        refine ⟨?_, (hmem sj (List.mem_cons_of_mem si hsj)).2⟩
        rcases hPW hvac sj.split_key.split_ulid hne with h1 | ⟨h1, _⟩
        · rw [h1]; exact habsj
        · exact h1
      rcases ih tm t2 ⟨hI2, hcap2⟩ hmem2 hndcons.2 heq with
        ⟨hIf, hodf, hcdf, hdlf, hbf, hlkf, hpwf, hfdf, hlimf, hdef, hnxf⟩
      refine ⟨hIf, ?_, ?_, ?_, ?_, ?_, ?_, ?_, ?_, ?_, ?_⟩
      · rw [List.map_cons, List.foldl_cons, hodf, hod2]
      · rw [hcdf, hcd2]
      · exact List.Sublist.trans hdlf hdl2
      · rw [List.map_cons, List.foldl_cons, hbf, hb2]
      · intro sj hsj
        rcases List.mem_cons.mp hsj with rfl | hsj2
        · have hnotin : sj.split_key.split_ulid ∉
              L2.map (fun x => x.split_key.split_ulid) := hndcons.1
          rcases hpwf sj.split_key.split_ulid hnotin with h1 | ⟨h1, hdead⟩
          · rw [h1]; exact hlk2
          · exfalso
            rcases hdead with ⟨info, tok, hlkd, hstd, _⟩
            rw [hlk2] at hlkd
            injection hlkd with hlkd
            rw [← hlkd] at hstd
            rw [hn] at hstd
            cases hstd
        · exact hlkf sj hsj2
      · intro j hj
        rw [List.map_cons] at hj
        have hj1 : j ≠ si.split_key.split_ulid := fun he =>
          hj (he ▸ List.mem_cons_self _ _)
        have hj2 : j ∉ L2.map (fun x => x.split_key.split_ulid) := fun hm =>
          hj (List.mem_cons_of_mem _ hm)
        rcases hpwf j hj2 with h1 | ⟨h1, hdead⟩
        · rcases hPW hvac j hj1 with h2 | ⟨h2, hd2⟩
          · left; rw [h1, h2]
          · right; exact ⟨by rw [h1, h2], hd2⟩
        · right
          refine ⟨h1, ?_⟩
          rcases hdead with ⟨info, tok, hlkd, hstd, htokd⟩
          rcases hPW hvac j hj1 with h2 | ⟨h2, hd2⟩
          · refine ⟨info, tok, ?_, hstd, ?_⟩
            · rw [← h2]; exact hlkd
            · rw [← hde2]; exact htokd
          · rw [h2] at hlkd
            cases hlkd
      · rw [hfdf, hfd2]
      · rw [hlimf, hlim2]
      · rw [hdef, hde2]
      · rw [hnxf, hnx2]

/- ### Existence of `insert` results, and erase-length arithmetic -/

theorem length_eraseKey_of_mem {k : SplitKey} {l : List SplitKey} (hnd : l.Nodup)
    (hk : k ∈ l) : (eraseKey k l).length + 1 = l.length := by
  induction l with
  | nil => cases hk
  | cons x xs ih =>
    rcases List.nodup_cons.mp hnd with ⟨hx, hnd2⟩
    by_cases he : x = k
    · subst he
      have h1 : eraseKey x (x :: xs) = xs := by
        show List.filter _ (x :: xs) = xs
        rw [List.filter_cons, show ((x != x) = false) by simp]
        simp only [Bool.false_eq_true, if_false]
        exact eraseKey_eq_of_not_mem hx
      rw [h1, List.length_cons]
    · have hkxs : k ∈ xs := by
        rcases List.mem_cons.mp hk with h1 | h1
        · exact absurd h1.symm he
        · exact h1
      have h1 : eraseKey k (x :: xs) = x :: eraseKey k xs := by
        show List.filter _ (x :: xs) = _
        rw [List.filter_cons, show ((x != k) = true) by simp [he]]
        simp only [if_true]
        rfl
      rw [h1, List.length_cons, List.length_cons, ih hnd2 hkxs]

theorem insert_isSome {t : SplitTable} {si : SplitInfo}
    (hcap : ∀ c, si.status = Status.candidate c →
      (btreeInsert si.split_key t.candidate_splits).length ≤ MAX_NUM_CANDIDATES) :
    ∃ t2, t.insert si = some t2 := by
  cases hst : si.status with
  | candidate c =>
    have htr : SplitTable.truncate_candidate_list
        { t with candidate_splits := btreeInsert si.split_key t.candidate_splits } =
        some { t with candidate_splits := btreeInsert si.split_key t.candidate_splits } :=
      truncate_of_le (hcap c hst)
    exact ⟨_, insert_candidate_some hst htr⟩
  | downloading tk =>
    unfold SplitTable.insert
    rw [hst]
    exact ⟨_, rfl⟩
  | onDisk n =>
    unfold SplitTable.insert
    rw [hst]
    exact ⟨_, rfl⟩

/- ### The remove-then-insert pattern shared by touch, report and
start_download on a live entry -/

theorem reinsert_spec {t : SplitTable} {u : Nat} {info new : SplitInfo}
    (hI : Inv t) (hlk : lookupId u t.split_to_status = some info)
    (hlive : ∀ tk, info.status = Status.downloading tk → tk ∉ t.dead_tokens)
    (hukey : new.split_key.split_ulid = u)
    (htok : statusTokenBound new.status t.next_token)
    (hbw : bytesOf new.status < W)
    (hcd : ∀ c2, new.status = Status.candidate c2 → ∃ c, info.status = Status.candidate c) :
    (t.remove u).1 = some info ∧
    ∃ t2, (t.remove u).2.insert new = some t2 ∧
      Inv t2 ∧
      lookupId u t2.split_to_status = some new ∧
      (∀ j, j ≠ u →
        lookupId j t2.split_to_status = lookupId j t.split_to_status ∨
        (lookupId j t2.split_to_status = none ∧ deadDL t j)) ∧
      t2.fd_cache = fdErase u t.fd_cache ∧
      t2.limits = t.limits ∧ t2.dead_tokens = t.dead_tokens ∧
      t2.next_token = t.next_token ∧
      t2.on_disk_bytes =
        u64add (u64sub t.on_disk_bytes (bytesOf info.status)) (bytesOf new.status) ∧
      (∀ n n2, info.status = Status.onDisk n → new.status = Status.onDisk n2 →
        t2.on_disk_splits =
          btreeInsert new.split_key (eraseKey info.split_key t.on_disk_splits) ∧
        t2.candidate_splits = t.candidate_splits ∧
        List.Sublist t2.downloading_splits t.downloading_splits) ∧
      (∀ c c2, info.status = Status.candidate c → new.status = Status.candidate c2 →
        t2.on_disk_splits = t.on_disk_splits ∧
        t2.candidate_splits =
          btreeInsert new.split_key (eraseKey info.split_key t.candidate_splits) ∧
        List.Sublist t2.downloading_splits t.downloading_splits) ∧
      (∀ tk tk2, info.status = Status.downloading tk → new.status = Status.downloading tk2 →
        t2.on_disk_splits = t.on_disk_splits ∧
        t2.candidate_splits = t.candidate_splits ∧
        List.Sublist t2.downloading_splits
          (btreeInsert new.split_key (eraseKey info.split_key t.downloading_splits))) ∧
      (∀ c tk2, info.status = Status.candidate c → new.status = Status.downloading tk2 →
        t2.on_disk_splits = t.on_disk_splits ∧
        t2.candidate_splits = eraseKey info.split_key t.candidate_splits ∧
        List.Sublist t2.downloading_splits
          (btreeInsert new.split_key t.downloading_splits)) := by
  have hbW : t.on_disk_bytes < W := by
    rw [hI.1.bytes_eq]
    exact Nat.mod_lt _ Wpos
  have hsub0 : u64sub t.on_disk_bytes 0 = t.on_disk_bytes := by
    unfold u64sub
    unfold W at hbW ⊢
    omega
  have hI1 : Inv (t.remove u).2 := Inv_remove hI u
  have habs : lookupId u (t.remove u).2.split_to_status = none := remove_lookup_self t u
  have habsk : lookupId new.split_key.split_ulid (t.remove u).2.split_to_status = none := by
    rw [hukey]
    exact habs
  have hmisc := remove_misc t u
  have htok1 : statusTokenBound new.status (t.remove u).2.next_token := by
    rw [hmisc.2.2]
    exact htok
  cases hst : info.status with
  | candidate c =>
    have hrem := remove_of_candidate hlk hst
    have hkeymem : info.split_key ∈ t.candidate_splits := by
      have h2 := (hI.1.consistent u info hlk).2
      rw [hst] at h2
      exact h2
    have hlen1 : (eraseKey info.split_key t.candidate_splits).length + 1 =
        t.candidate_splits.length :=
      length_eraseKey_of_mem (chain'_nodup hI.1.sorted_cd) hkeymem
    have hcd1 : (t.remove u).2.candidate_splits = eraseKey info.split_key t.candidate_splits := by
      rw [hrem]
    have hcdlen : (t.remove u).2.candidate_splits.length < MAX_NUM_CANDIDATES := by
      rw [hcd1]
      have h2 := hI.2
      unfold MAX_NUM_CANDIDATES at h2 ⊢
      omega
    have hcap : ∀ c2, new.status = Status.candidate c2 →
        (btreeInsert new.split_key (t.remove u).2.candidate_splits).length ≤
          MAX_NUM_CANDIDATES := by
      intro c2 _
      have hnotmem := (key_not_mem_of_absent hI1.1 (by rw [hukey]; exact habs)).2.2
      rw [length_btreeInsert_of_not_mem hnotmem]
      unfold MAX_NUM_CANDIDATES at hcdlen ⊢
      omega
    rcases insert_isSome hcap with ⟨t2, hins⟩
    rcases insert_spec hI1.1 habsk htok1 hbw hins with
      ⟨hI2, hlk2, hcap2, hlim2, hde2, hnx2, hfd2, hb2, hdl2, hOD, hDL, hCD, hPW⟩
    rw [hrem] at hlim2 hde2 hnx2 hfd2 hb2 hdl2
    dsimp only at hlim2 hde2 hnx2 hfd2 hb2 hdl2
    refine ⟨by rw [hrem], t2, hins, ⟨hI2, ?_⟩, ?_, ?_, hfd2, hlim2, hde2, hnx2, ?_,
      ?_, ?_, ?_, ?_⟩
    · rcases hcap2 with h1 | h1
      · exact h1
      · rw [h1, hcd1]
        have h2 := hI.2
        unfold MAX_NUM_CANDIDATES at h2 ⊢
        omega
    · rw [hukey] at hlk2
      exact hlk2
    · intro j hj
      have hj2 : j ≠ new.split_key.split_ulid := by rw [hukey]; exact hj
      rcases hPW (fun c2 _ => hcdlen) j hj2 with h1 | ⟨h1, hdead⟩
      · left
        rw [h1]
        exact remove_lookup_ne t u hj
      · right
        refine ⟨h1, ?_⟩
        rcases hdead with ⟨info2, tok2, hl2, hs2, htk2⟩
        rw [remove_lookup_ne t u hj] at hl2
        rw [hmisc.2.1] at htk2
        exact ⟨info2, tok2, hl2, hs2, htk2⟩
    · show t2.on_disk_bytes = u64add (u64sub t.on_disk_bytes 0) (bytesOf new.status)
      rw [hsub0]
      exact hb2
    · intro n n2 h1 _
      cases h1
    · intro c3 c2 _ h2
      rcases hCD c2 h2 with ⟨hodx, _, hdlx, hcdx⟩
      rw [hrem] at hodx hdlx
      dsimp only at hodx hdlx
      have hcdx2 := hcdx hcdlen
      rw [hcd1] at hcdx2
      exact ⟨hodx, hcdx2, hdlx⟩
    · intro tk tk2 h1 _
      cases h1
    · intro c3 tk2 _ h2
      rcases hDL tk2 h2 with ⟨hodx, hcdx⟩
      rw [hrem] at hodx hcdx
      dsimp only at hodx hcdx
      exact ⟨hodx, hcdx, hdl2⟩
  | onDisk n0 =>
    have hrem := remove_of_onDisk hlk hst
    have hcdeq : (t.remove u).2.candidate_splits = t.candidate_splits := by
      rw [hrem]
    have hcap : ∀ c2, new.status = Status.candidate c2 →
        (btreeInsert new.split_key (t.remove u).2.candidate_splits).length ≤
          MAX_NUM_CANDIDATES := by
      intro c2 hc2
      rcases hcd c2 hc2 with ⟨c3, hc3⟩
      rw [hst] at hc3
      cases hc3
    have hvac : ∀ c2, new.status = Status.candidate c2 →
        (t.remove u).2.candidate_splits.length < MAX_NUM_CANDIDATES := by
      intro c2 hc2
      rcases hcd c2 hc2 with ⟨c3, hc3⟩
      rw [hst] at hc3
      cases hc3
    rcases insert_isSome hcap with ⟨t2, hins⟩
    rcases insert_spec hI1.1 habsk htok1 hbw hins with
      ⟨hI2, hlk2, hcap2, hlim2, hde2, hnx2, hfd2, hb2, hdl2, hOD, hDL, hCD, hPW⟩
    rw [hrem] at hlim2 hde2 hnx2 hfd2 hb2 hdl2
    dsimp only at hlim2 hde2 hnx2 hfd2 hb2 hdl2
    refine ⟨by rw [hrem], t2, hins, ⟨hI2, ?_⟩, ?_, ?_, hfd2, hlim2, hde2, hnx2, ?_,
      ?_, ?_, ?_, ?_⟩
    · rcases hcap2 with h1 | h1
      · exact h1
      · rw [h1, hcdeq]
        exact hI.2
    · rw [hukey] at hlk2
      exact hlk2
    · intro j hj
      have hj2 : j ≠ new.split_key.split_ulid := by rw [hukey]; exact hj
      rcases hPW hvac j hj2 with h1 | ⟨h1, hdead⟩
      · left
        rw [h1]
        exact remove_lookup_ne t u hj
      · right
        refine ⟨h1, ?_⟩
        rcases hdead with ⟨info2, tok2, hl2, hs2, htk2⟩
        rw [remove_lookup_ne t u hj] at hl2
        rw [hmisc.2.1] at htk2
        exact ⟨info2, tok2, hl2, hs2, htk2⟩
    · exact hb2
    · intro n n2 h1 h2
      injection h1 with h1
      subst h1
      rcases hOD n2 h2 with ⟨hodx, hcdx, hdlx⟩
      rw [hrem] at hodx hcdx hdlx
      dsimp only at hodx hcdx hdlx
      exact ⟨hodx, hcdx, hdlx⟩
    · intro c3 c2 h1 _
      cases h1
    · intro tk tk2 h1 _
      cases h1
    · intro c3 tk2 h1 _
      cases h1
  | downloading tk0 =>
    have hlive0 := hlive tk0 hst
    have hrem := remove_of_downloading hlk hst
    rw [if_neg hlive0] at hrem
    have hcdeq : (t.remove u).2.candidate_splits = t.candidate_splits := by
      rw [hrem]
    have hcap : ∀ c2, new.status = Status.candidate c2 →
        (btreeInsert new.split_key (t.remove u).2.candidate_splits).length ≤
          MAX_NUM_CANDIDATES := by
      intro c2 hc2
      rcases hcd c2 hc2 with ⟨c3, hc3⟩
      rw [hst] at hc3
      cases hc3
    have hvac : ∀ c2, new.status = Status.candidate c2 →
        (t.remove u).2.candidate_splits.length < MAX_NUM_CANDIDATES := by
      intro c2 hc2
      rcases hcd c2 hc2 with ⟨c3, hc3⟩
      rw [hst] at hc3
      cases hc3
    rcases insert_isSome hcap with ⟨t2, hins⟩
    rcases insert_spec hI1.1 habsk htok1 hbw hins with
      ⟨hI2, hlk2, hcap2, hlim2, hde2, hnx2, hfd2, hb2, hdl2, hOD, hDL, hCD, hPW⟩
    rw [hrem] at hlim2 hde2 hnx2 hfd2 hb2 hdl2
    dsimp only at hlim2 hde2 hnx2 hfd2 hb2 hdl2
    refine ⟨by rw [hrem], t2, hins, ⟨hI2, ?_⟩, ?_, ?_, hfd2, hlim2, hde2, hnx2, ?_,
      ?_, ?_, ?_, ?_⟩
    · rcases hcap2 with h1 | h1
      · exact h1
      · rw [h1, hcdeq]
        exact hI.2
    · rw [hukey] at hlk2
      exact hlk2
    · intro j hj
      have hj2 : j ≠ new.split_key.split_ulid := by rw [hukey]; exact hj
      rcases hPW hvac j hj2 with h1 | ⟨h1, hdead⟩
      · left
        rw [h1]
        exact remove_lookup_ne t u hj
      · right
        refine ⟨h1, ?_⟩
        rcases hdead with ⟨info2, tok2, hl2, hs2, htk2⟩
        rw [remove_lookup_ne t u hj] at hl2
        rw [hmisc.2.1] at htk2
        exact ⟨info2, tok2, hl2, hs2, htk2⟩
    · show t2.on_disk_bytes = u64add (u64sub t.on_disk_bytes 0) (bytesOf new.status)
      rw [hsub0]
      exact hb2
    · intro n n2 h1 _
      cases h1
    · intro c3 c2 h1 _
      cases h1
    · intro tk tk2 _ h2
      rcases hDL tk2 h2 with ⟨hodx, hcdx⟩
      rw [hrem] at hodx hcdx
      dsimp only at hodx hcdx
      exact ⟨hodx, hcdx, hdl2⟩
    · intro c3 tk2 h1 _
      cases h1

/- ### Helpers for the public operations -/

theorem u64add_zero {b : Nat} (hb : b < W) : u64add b 0 = b := by
  unfold u64add
  unfold W at hb ⊢
  omega

theorem bytesOf_lt {t : SplitTable} {u : Nat} {info : SplitInfo} (hI : InvNC t)
    (hlk : lookupId u t.split_to_status = some info) : bytesOf info.status < W := by
  cases hs : info.status with
  | candidate c => exact Wpos
  | downloading tk => exact Wpos
  | onDisk n =>
    show n < W
    exact hI.bytes_lt u info n hlk hs

theorem remove_eta {t : SplitTable} {u : Nat} {o : Option SplitInfo}
    (h : (t.remove u).1 = o) : t.remove u = (o, (t.remove u).2) := by
  have h2 : t.remove u = ((t.remove u).1, (t.remove u).2) := rfl
  rw [h] at h2
  exact h2

theorem remove_fst_some {t : SplitTable} {u : Nat} {info : SplitInfo}
    (h : (t.remove u).1 = some info) : lookupId u t.split_to_status = some info := by
  cases hlk : lookupId u t.split_to_status with
  | none =>
    rw [remove_of_none hlk] at h
    cases h
  | some info2 =>
    cases hst : info2.status with
    | candidate c =>
      rw [remove_of_candidate hlk hst] at h
      dsimp only at h
      injection h with h
      rw [← h]
    | onDisk n =>
      rw [remove_of_onDisk hlk hst] at h
      dsimp only at h
      injection h with h
      rw [← h]
    | downloading tk =>
      rw [remove_of_downloading hlk hst] at h
      dsimp only at h
      by_cases hd : tk ∈ t.dead_tokens
      · rw [if_pos hd] at h
        cases h
      · rw [if_neg hd] at h
        injection h with h
        rw [← h]

theorem Inv_fd_subset {t : SplitTable} {fd2 : List (Nat × Nat)} (hI : Inv t)
    (hsub : ∀ p ∈ fd2, p ∈ t.fd_cache) : Inv { t with fd_cache := fd2 } := by
  refine ⟨{ sorted_od := hI.1.sorted_od, sorted_dl := hI.1.sorted_dl,
            sorted_cd := hI.1.sorted_cd, nodup_index := hI.1.nodup_index,
            consistent := hI.1.consistent, complete_od := hI.1.complete_od,
            complete_dl := hI.1.complete_dl, complete_cd := hI.1.complete_cd,
            bytes_eq := hI.1.bytes_eq, bytes_lt := hI.1.bytes_lt,
            fd_ok := ?_, tok_lt := hI.1.tok_lt, dead_lt := hI.1.dead_lt }, hI.2⟩
  intro p hp
  exact hI.1.fd_ok p (hsub p hp)

/- ### Inserting a freshly allocated candidate (the unknown-split branch of
touch and report) -/

theorem fresh_insert_spec {t1 : SplitTable} {u la : Nat} {uri : String} {t2 : SplitTable}
    (hI : Inv t1) (habs : lookupId u t1.split_to_status = none)
    (hins : ({ t1 with next_token := t1.next_token + 1 } : SplitTable).insert
      (freshCandidate uri u t1.next_token la) = some t2) :
    Inv t2 ∧
    lookupId u t2.split_to_status = some (freshCandidate uri u t1.next_token la) ∧
    (t1.candidate_splits.length < MAX_NUM_CANDIDATES →
      ∀ j, j ≠ u →
        lookupId j t2.split_to_status = lookupId j t1.split_to_status ∨
        (lookupId j t2.split_to_status = none ∧ deadDL t1 j)) ∧
    t2.fd_cache = t1.fd_cache ∧ t2.limits = t1.limits ∧
    t2.dead_tokens = t1.dead_tokens ∧ t2.next_token = t1.next_token + 1 ∧
    t2.on_disk_bytes = t1.on_disk_bytes ∧
    t2.on_disk_splits = t1.on_disk_splits ∧
    t2.candidate_splits =
      (btreeInsert (freshCandidate uri u t1.next_token la).split_key
        t1.candidate_splits).drop
        ((btreeInsert (freshCandidate uri u t1.next_token la).split_key
          t1.candidate_splits).length - MAX_NUM_CANDIDATES) ∧
    (t1.candidate_splits.length < MAX_NUM_CANDIDATES →
      t2.candidate_splits =
        btreeInsert (freshCandidate uri u t1.next_token la).split_key
          t1.candidate_splits) ∧
    List.Sublist t2.downloading_splits t1.downloading_splits := by
  have hb1 : t1.on_disk_bytes < W := by
    rw [hI.1.bytes_eq]
    exact Nat.mod_lt _ Wpos
  have hIb : InvNC ({ t1 with next_token := t1.next_token + 1 } : SplitTable) :=
    InvNC_bump hI.1
  have habsb : lookupId u ({ t1 with next_token := t1.next_token + 1 } :
      SplitTable).split_to_status = none := habs
  have htokb : statusTokenBound (freshCandidate uri u t1.next_token la).status
      ({ t1 with next_token := t1.next_token + 1 } : SplitTable).next_token := by
    show t1.next_token < t1.next_token + 1
    omega
  have hbwb : bytesOf (freshCandidate uri u t1.next_token la).status < W := Wpos
  rcases insert_spec hIb habsb htokb hbwb hins with
    ⟨hI2, hlk2, hcap2, hlim2, hde2, hnx2, hfd2, hb2, hdl2, hOD, hDL, hCD, hPW⟩
  rcases hCD _ rfl with ⟨hodx, hdrop, hdlx, hcdx⟩
  refine ⟨⟨hI2, ?_⟩, hlk2, ?_, hfd2, hlim2, hde2, hnx2, ?_, hodx, hdrop, ?_, hdlx⟩
  · rcases hcap2 with h1 | h1
    · exact h1
    · rw [h1]
      exact hI.2
  · intro hlt j hj
    rcases hPW (fun c2 _ => hlt) j (by exact hj) with h1 | ⟨h1, hdead⟩
    · left
      exact h1
    · right
      exact ⟨h1, hdead⟩
  · rw [hb2]
    exact u64add_zero hb1
  · intro hlt
    exact hcdx hlt

theorem u64_roundtrip_one {b n : Nat} (hb : b < W) (hn : n < W) :
    u64add (u64sub b n) n = b := by
  unfold u64add u64sub
  unfold W at hb hn ⊢
  omega

/- ### touch -/

theorem touch_known_spec {t : SplitTable} {u : Nat} {uri : String} {now : Nat}
    {info : SplitInfo} {st : Status} {t2 : SplitTable}
    (hI : Inv t) (hlk : lookupId u t.split_to_status = some info)
    (hlive : ∀ tk, info.status = Status.downloading tk → tk ∉ t.dead_tokens)
    (heq : t.touch u uri now = some (st, t2)) :
    st = info.status ∧ Inv t2 ∧
    lookupId u t2.split_to_status = some (touchedInfo info now) ∧
    (∀ j, j ≠ u →
      lookupId j t2.split_to_status = lookupId j t.split_to_status ∨
      (lookupId j t2.split_to_status = none ∧ deadDL t j)) ∧
    t2.fd_cache = fdErase u t.fd_cache ∧
    t2.limits = t.limits ∧ t2.dead_tokens = t.dead_tokens ∧
    t2.next_token = t.next_token ∧ t2.on_disk_bytes = t.on_disk_bytes := by
  have hukey : (touchedInfo info now).split_key.split_ulid = u :=
    (hI.1.consistent u info hlk).1
  have htok : statusTokenBound (touchedInfo info now).status t.next_token :=
    hI.1.tok_lt u info hlk
  have hbw0 : bytesOf info.status < W := bytesOf_lt hI.1 hlk
  have hbw : bytesOf (touchedInfo info now).status < W := hbw0
  have hcd : ∀ c2, (touchedInfo info now).status = Status.candidate c2 →
      ∃ c, info.status = Status.candidate c := fun c2 hc2 => ⟨c2, hc2⟩
  rcases reinsert_spec hI hlk hlive hukey htok hbw hcd with
    ⟨hfst, t2x, hins, hInv2, hlkx, hpw, hfd, hlim, hde, hnx, hb, hq1, hq2, hq3, hq4⟩
  unfold SplitTable.touch at heq
  rw [remove_eta hfst] at heq
  dsimp only at heq
  rw [hins] at heq
  dsimp only at heq
  simp only [Option.some.injEq, Prod.mk.injEq] at heq
  rcases heq with ⟨hst, ht2⟩
  subst ht2
  have hbW : t.on_disk_bytes < W := by
    rw [hI.1.bytes_eq]
    exact Nat.mod_lt _ Wpos
  have hbb : t2x.on_disk_bytes = t.on_disk_bytes := by
    rw [hb]
    exact u64_roundtrip_one hbW hbw0
  exact ⟨hst.symm, hInv2, hlkx, hpw, hfd, hlim, hde, hnx, hbb⟩

/- ### report -/

theorem report_known_spec {t : SplitTable} {u : Nat} {uri : String} {now : Nat}
    {info : SplitInfo} {t2 : SplitTable}
    (hI : Inv t) (hlk : lookupId u t.split_to_status = some info)
    (hlive : ∀ tk, info.status = Status.downloading tk → tk ∉ t.dead_tokens)
    (heq : t.report u uri now = some t2) :
    Inv t2 ∧
    lookupId u t2.split_to_status = some info ∧
    (∀ j, j ≠ u →
      lookupId j t2.split_to_status = lookupId j t.split_to_status ∨
      (lookupId j t2.split_to_status = none ∧ deadDL t j)) ∧
    t2.fd_cache = fdErase u t.fd_cache ∧
    t2.limits = t.limits ∧ t2.dead_tokens = t.dead_tokens ∧
    t2.next_token = t.next_token ∧ t2.on_disk_bytes = t.on_disk_bytes ∧
    t2.on_disk_splits = t.on_disk_splits ∧
    t2.candidate_splits = t.candidate_splits ∧
    List.Sublist t2.downloading_splits t.downloading_splits := by
  have hukey : info.split_key.split_ulid = u := (hI.1.consistent u info hlk).1
  have htok : statusTokenBound info.status t.next_token := hI.1.tok_lt u info hlk
  have hbw0 : bytesOf info.status < W := bytesOf_lt hI.1 hlk
  have hcd : ∀ c2, info.status = Status.candidate c2 →
      ∃ c, info.status = Status.candidate c := fun c2 hc2 => ⟨c2, hc2⟩
  rcases reinsert_spec hI hlk hlive hukey htok hbw0 hcd with
    ⟨hfst, t2x, hins, hInv2, hlkx, hpw, hfd, hlim, hde, hnx, hb, hq1, hq2, hq3, hq4⟩
  unfold SplitTable.report at heq
  rw [remove_eta hfst] at heq
  dsimp only at heq
  rw [hins] at heq
  injection heq with heq
  subst heq
  have hbW : t.on_disk_bytes < W := by
    rw [hI.1.bytes_eq]
    exact Nat.mod_lt _ Wpos
  have hbb : t2x.on_disk_bytes = t.on_disk_bytes := by
    rw [hb]
    exact u64_roundtrip_one hbW hbw0
  have hkeyq := (hI.1.consistent u info hlk).2
  refine ⟨hInv2, hlkx, hpw, hfd, hlim, hde, hnx, hbb, ?_, ?_, ?_⟩
  · cases hs : info.status with
    | candidate c => exact (hq2 c c hs hs).1
    | downloading tk => exact (hq3 tk tk hs hs).1
    | onDisk n =>
      have hmem : info.split_key ∈ t.on_disk_splits := by
        rw [hs] at hkeyq
        exact hkeyq
      rw [(hq1 n n hs hs).1]
      exact btreeInsert_eraseKey hI.1.sorted_od hmem
  · cases hs : info.status with
    | candidate c =>
      have hmem : info.split_key ∈ t.candidate_splits := by
        rw [hs] at hkeyq
        exact hkeyq
      rw [(hq2 c c hs hs).2.1]
      exact btreeInsert_eraseKey hI.1.sorted_cd hmem
    | downloading tk => exact (hq3 tk tk hs hs).2.1
    | onDisk n => exact (hq1 n n hs hs).2.1
  · cases hs : info.status with
    | candidate c => exact (hq2 c c hs hs).2.2
    | downloading tk =>
      have hmem : info.split_key ∈ t.downloading_splits := by
        rw [hs] at hkeyq
        exact hkeyq
      have hsub := (hq3 tk tk hs hs).2.2
      rw [btreeInsert_eraseKey hI.1.sorted_dl hmem] at hsub
      exact hsub
    | onDisk n => exact (hq1 n n hs hs).2.2

/- ### start_download -/

theorem start_download_none {t : SplitTable} {u : Nat}
    (hfst : (t.remove u).1 = none) :
    t.start_download u = some (none, (t.remove u).2) := by
  unfold SplitTable.start_download
  rw [remove_eta hfst]

theorem start_download_candidate_spec {t : SplitTable} {u : Nat}
    {info : SplitInfo} {c : CandidateSplit} {r : Option CandidateSplit} {t2 : SplitTable}
    (hI : Inv t) (hlk : lookupId u t.split_to_status = some info)
    (hc : info.status = Status.candidate c)
    (heq : t.start_download u = some (r, t2)) :
    r = some c ∧ Inv t2 ∧
    lookupId u t2.split_to_status =
      some { split_key := info.split_key, status := Status.downloading c.living_token } ∧
    (∀ j, j ≠ u →
      lookupId j t2.split_to_status = lookupId j t.split_to_status ∨
      (lookupId j t2.split_to_status = none ∧ deadDL t j)) ∧
    t2.fd_cache = fdErase u t.fd_cache ∧
    t2.limits = t.limits ∧ t2.dead_tokens = t.dead_tokens ∧
    t2.next_token = t.next_token ∧ t2.on_disk_bytes = t.on_disk_bytes ∧
    t2.on_disk_splits = t.on_disk_splits ∧
    t2.candidate_splits = eraseKey info.split_key t.candidate_splits ∧
    List.Sublist t2.downloading_splits
      (btreeInsert info.split_key t.downloading_splits) := by
  have hukey : ({ split_key := info.split_key, status := Status.downloading c.living_token } : SplitInfo).split_key.split_ulid = u :=
    (hI.1.consistent u info hlk).1
  have htok : statusTokenBound ({ split_key := info.split_key, status := Status.downloading c.living_token } : SplitInfo).status t.next_token := by
    have h1 := hI.1.tok_lt u info hlk
    rw [hc] at h1
    exact h1
  have hbw : bytesOf ({ split_key := info.split_key, status := Status.downloading c.living_token } : SplitInfo).status < W := Wpos
  have hlive : ∀ tk, info.status = Status.downloading tk → tk ∉ t.dead_tokens := by
    intro tk htk
    rw [hc] at htk
    cases htk
  have hcd : ∀ c2, ({ split_key := info.split_key, status := Status.downloading c.living_token } : SplitInfo).status = Status.candidate c2 → ∃ c3, info.status = Status.candidate c3 :=
    fun c2 hc2 => nomatch hc2
  rcases reinsert_spec hI hlk hlive hukey htok hbw hcd with
    ⟨hfst, t2x, hins, hInv2, hlkx, hpw, hfd, hlim, hde, hnx, hb, hq1, hq2, hq3, hq4⟩
  unfold SplitTable.start_download at heq
  rw [remove_eta hfst] at heq
  dsimp only at heq
  rw [hc] at heq
  dsimp only at heq
  rw [hins] at heq
  dsimp only at heq
  simp only [Option.some.injEq, Prod.mk.injEq] at heq
  rcases heq with ⟨hr, ht2⟩
  subst ht2
  have hbW : t.on_disk_bytes < W := by
    rw [hI.1.bytes_eq]
    exact Nat.mod_lt _ Wpos
  have hbb : t2x.on_disk_bytes = t.on_disk_bytes := by
    rw [hb, hc]
    show u64add (u64sub t.on_disk_bytes 0) 0 = t.on_disk_bytes
    exact u64_roundtrip_one hbW Wpos
  rcases hq4 c c.living_token hc rfl with ⟨hodx, hcdx, hdlx⟩
  exact ⟨hr.symm, hInv2, hlkx, hpw, hfd, hlim, hde, hnx, hbb, hodx, hcdx, hdlx⟩

theorem start_download_other_spec {t : SplitTable} {u : Nat}
    {info : SplitInfo} {r : Option CandidateSplit} {t2 : SplitTable}
    (hI : Inv t) (hlk : lookupId u t.split_to_status = some info)
    (hlive : ∀ tk, info.status = Status.downloading tk → tk ∉ t.dead_tokens)
    (hnc : ∀ c, info.status ≠ Status.candidate c)
    (heq : t.start_download u = some (r, t2)) :
    r = none ∧ Inv t2 ∧
    lookupId u t2.split_to_status = some info ∧
    (∀ j, j ≠ u →
      lookupId j t2.split_to_status = lookupId j t.split_to_status ∨
      (lookupId j t2.split_to_status = none ∧ deadDL t j)) ∧
    t2.fd_cache = fdErase u t.fd_cache ∧
    t2.limits = t.limits ∧ t2.dead_tokens = t.dead_tokens ∧
    t2.next_token = t.next_token ∧ t2.on_disk_bytes = t.on_disk_bytes ∧
    t2.on_disk_splits = t.on_disk_splits ∧
    t2.candidate_splits = t.candidate_splits ∧
    List.Sublist t2.downloading_splits t.downloading_splits := by
  have hukey : info.split_key.split_ulid = u := (hI.1.consistent u info hlk).1
  have htok : statusTokenBound info.status t.next_token := hI.1.tok_lt u info hlk
  have hbw0 : bytesOf info.status < W := bytesOf_lt hI.1 hlk
  have hcd : ∀ c2, info.status = Status.candidate c2 →
      ∃ c, info.status = Status.candidate c := fun c2 hc2 => ⟨c2, hc2⟩
  rcases reinsert_spec hI hlk hlive hukey htok hbw0 hcd with
    ⟨hfst, t2x, hins, hInv2, hlkx, hpw, hfd, hlim, hde, hnx, hb, hq1, hq2, hq3, hq4⟩
  unfold SplitTable.start_download at heq
  rw [remove_eta hfst] at heq
  dsimp only at heq
  have hbW : t.on_disk_bytes < W := by
    rw [hI.1.bytes_eq]
    exact Nat.mod_lt _ Wpos
  have hbb : t2x.on_disk_bytes = t.on_disk_bytes := by
    rw [hb]
    exact u64_roundtrip_one hbW hbw0
  have hkeyq := (hI.1.consistent u info hlk).2
  cases hs : info.status with
  | candidate c => exact absurd hs (hnc c)
  | downloading tk =>
    rw [hs] at heq
    dsimp only at heq
    rw [hins] at heq
    dsimp only at heq
    simp only [Option.some.injEq, Prod.mk.injEq] at heq
    rcases heq with ⟨hr, ht2⟩
    subst ht2
    have hmem : info.split_key ∈ t.downloading_splits := by
      rw [hs] at hkeyq
      exact hkeyq
    have hsub := (hq3 tk tk hs hs).2.2
    rw [btreeInsert_eraseKey hI.1.sorted_dl hmem] at hsub
    exact ⟨hr.symm, hInv2, hlkx, hpw, hfd, hlim, hde, hnx, hbb,
      (hq3 tk tk hs hs).1, (hq3 tk tk hs hs).2.1, hsub⟩
  | onDisk n =>
    rw [hs] at heq
    dsimp only at heq
    rw [hins] at heq
    dsimp only at heq
    simp only [Option.some.injEq, Prod.mk.injEq] at heq
    rcases heq with ⟨hr, ht2⟩
    subst ht2
    have hmem : info.split_key ∈ t.on_disk_splits := by
      rw [hs] at hkeyq
      exact hkeyq
    have hod := (hq1 n n hs hs).1
    rw [btreeInsert_eraseKey hI.1.sorted_od hmem] at hod
    exact ⟨hr.symm, hInv2, hlkx, hpw, hfd, hlim, hde, hnx, hbb,
      hod, (hq1 n n hs hs).2.1, (hq1 n n hs hs).2.2⟩

/- ### The unknown-split branches of touch and report -/

theorem touch_none_spec {t : SplitTable} {u : Nat} {uri : String} {now : Nat}
    {st : Status} {t2 : SplitTable}
    (hI : Inv t) (hfst : (t.remove u).1 = none)
    (heq : t.touch u uri now = some (st, t2)) :
    st = (freshCandidate uri u t.next_token now).status ∧ Inv t2 ∧
    lookupId u t2.split_to_status = some (freshCandidate uri u t.next_token now) ∧
    ((t.remove u).2.candidate_splits.length < MAX_NUM_CANDIDATES →
      ∀ j, j ≠ u →
        lookupId j t2.split_to_status = lookupId j (t.remove u).2.split_to_status ∨
        (lookupId j t2.split_to_status = none ∧ deadDL (t.remove u).2 j)) ∧
    t2.fd_cache = (t.remove u).2.fd_cache ∧ t2.limits = t.limits ∧
    t2.dead_tokens = t.dead_tokens ∧ t2.next_token = t.next_token + 1 ∧
    t2.on_disk_bytes = (t.remove u).2.on_disk_bytes ∧
    t2.on_disk_splits = (t.remove u).2.on_disk_splits ∧
    ((t.remove u).2.candidate_splits.length < MAX_NUM_CANDIDATES →
      t2.candidate_splits = btreeInsert (freshCandidate uri u t.next_token now).split_key
        (t.remove u).2.candidate_splits) ∧
    List.Sublist t2.downloading_splits (t.remove u).2.downloading_splits := by
  have hI1 : Inv (t.remove u).2 := Inv_remove hI u
  have habs : lookupId u (t.remove u).2.split_to_status = none := remove_lookup_self t u
  have hmisc := remove_misc t u
  unfold SplitTable.touch at heq
  rw [remove_eta hfst] at heq
  dsimp only at heq
  cases hins : ({ (t.remove u).2 with next_token := (t.remove u).2.next_token + 1 } :
      SplitTable).insert (freshCandidate uri u (t.remove u).2.next_token now) with
  | none =>
    rw [hins] at heq
    cases heq
  | some t2x =>
    rw [hins] at heq
    dsimp only at heq
    simp only [Option.some.injEq, Prod.mk.injEq] at heq
    rcases heq with ⟨hst, ht2⟩
    subst ht2
    rcases fresh_insert_spec hI1 habs hins with
      ⟨hInv2, hlkx, hpw, hfd, hlim, hde, hnx, hb, hod, _, hcdx, hdl⟩
    rw [hmisc.2.2] at hlkx hnx
    rw [hmisc.1] at hlim
    rw [hmisc.2.1] at hde
    refine ⟨?_, hInv2, hlkx, hpw, hfd, hlim, hde, hnx, hb, hod, ?_, hdl⟩
    · rw [← hst, hmisc.2.2]
    · intro hlt
      rw [hmisc.2.2] at hcdx
      exact hcdx hlt

theorem report_none_spec {t : SplitTable} {u : Nat} {uri : String} {now : Nat}
    {t2 : SplitTable}
    (hI : Inv t) (hfst : (t.remove u).1 = none)
    (heq : t.report u uri now = some t2) :
    Inv t2 ∧
    lookupId u t2.split_to_status = some
      (freshCandidate uri u t.next_token (now - NEWLY_REPORTED_SPLIT_LAST_TIME)) ∧
    ((t.remove u).2.candidate_splits.length < MAX_NUM_CANDIDATES →
      ∀ j, j ≠ u →
        lookupId j t2.split_to_status = lookupId j (t.remove u).2.split_to_status ∨
        (lookupId j t2.split_to_status = none ∧ deadDL (t.remove u).2 j)) ∧
    t2.fd_cache = (t.remove u).2.fd_cache ∧ t2.limits = t.limits ∧
    t2.dead_tokens = t.dead_tokens ∧ t2.next_token = t.next_token + 1 ∧
    t2.on_disk_bytes = (t.remove u).2.on_disk_bytes ∧
    t2.on_disk_splits = (t.remove u).2.on_disk_splits ∧
    t2.candidate_splits =
      (btreeInsert (freshCandidate uri u t.next_token
          (now - NEWLY_REPORTED_SPLIT_LAST_TIME)).split_key
        (t.remove u).2.candidate_splits).drop
        ((btreeInsert (freshCandidate uri u t.next_token
            (now - NEWLY_REPORTED_SPLIT_LAST_TIME)).split_key
          (t.remove u).2.candidate_splits).length - MAX_NUM_CANDIDATES) ∧
    ((t.remove u).2.candidate_splits.length < MAX_NUM_CANDIDATES →
      t2.candidate_splits = btreeInsert
        (freshCandidate uri u t.next_token
          (now - NEWLY_REPORTED_SPLIT_LAST_TIME)).split_key
        (t.remove u).2.candidate_splits) ∧
    List.Sublist t2.downloading_splits (t.remove u).2.downloading_splits := by
  have hI1 : Inv (t.remove u).2 := Inv_remove hI u
  have habs : lookupId u (t.remove u).2.split_to_status = none := remove_lookup_self t u
  have hmisc := remove_misc t u
  unfold SplitTable.report at heq
  rw [remove_eta hfst] at heq
  dsimp only at heq
  cases hins : ({ (t.remove u).2 with next_token := (t.remove u).2.next_token + 1 } :
      SplitTable).insert (freshCandidate uri u (t.remove u).2.next_token
        (now - NEWLY_REPORTED_SPLIT_LAST_TIME)) with
  | none =>
    rw [hins] at heq
    cases heq
  | some t2x =>
    rw [hins] at heq
    injection heq with heq
    subst heq
    rcases fresh_insert_spec hI1 habs hins with
      ⟨hInv2, hlkx, hpw, hfd, hlim, hde, hnx, hb, hod, hdrop, hcdx, hdl⟩
    rw [hmisc.2.2] at hlkx hnx
    rw [hmisc.1] at hlim
    rw [hmisc.2.1] at hde
    refine ⟨hInv2, hlkx, hpw, hfd, hlim, hde, hnx, hb, hod, ?_, ?_, hdl⟩
    · rw [hmisc.2.2] at hdrop
      exact hdrop
    · intro hlt
      rw [hmisc.2.2] at hcdx
      exact hcdx hlt

/- ### Liveness of entries handed back by remove, and Inv preservation of the
public operations -/

theorem remove_fst_live {t : SplitTable} {u : Nat} {info : SplitInfo}
    (h : (t.remove u).1 = some info) :
    ∀ tk, info.status = Status.downloading tk → tk ∉ t.dead_tokens := by
  intro tk htk hd
  have hlk := remove_fst_some h
  rw [remove_of_downloading hlk htk] at h
  dsimp only at h
  rw [if_pos hd] at h
  cases h

theorem touch_Inv {t : SplitTable} {u : Nat} {uri : String} {now : Nat}
    {st : Status} {t2 : SplitTable} (hI : Inv t)
    (heq : t.touch u uri now = some (st, t2)) : Inv t2 := by
  cases hfst : (t.remove u).1 with
  | some info =>
    exact (touch_known_spec hI (remove_fst_some hfst) (remove_fst_live hfst) heq).2.1
  | none =>
    exact (touch_none_spec hI hfst heq).2.1

theorem report_Inv {t : SplitTable} {u : Nat} {uri : String} {now : Nat}
    {t2 : SplitTable} (hI : Inv t)
    (heq : t.report u uri now = some t2) : Inv t2 := by
  cases hfst : (t.remove u).1 with
  | some info =>
    exact (report_known_spec hI (remove_fst_some hfst) (remove_fst_live hfst) heq).1
  | none =>
    exact (report_none_spec hI hfst heq).1

theorem start_download_Inv {t : SplitTable} {u : Nat}
    {r : Option CandidateSplit} {t2 : SplitTable} (hI : Inv t)
    (heq : t.start_download u = some (r, t2)) : Inv t2 := by
  cases hfst : (t.remove u).1 with
  | some info =>
    have hlk := remove_fst_some hfst
    cases hs : info.status with
    | candidate c =>
      exact (start_download_candidate_spec hI hlk hs heq).2.1
    | downloading tk =>
      exact (start_download_other_spec hI hlk (remove_fst_live hfst)
        (fun c3 hc3 => by rw [hs] at hc3; cases hc3) heq).2.1
    | onDisk n =>
      exact (start_download_other_spec hI hlk (remove_fst_live hfst)
        (fun c3 hc3 => by rw [hs] at hc3; cases hc3) heq).2.1
  | none =>
    rw [start_download_none hfst] at heq
    simp only [Option.some.injEq, Prod.mk.injEq] at heq
    rcases heq with ⟨h1, h2⟩
    rw [← h2]
    exact Inv_remove hI u

theorem change_status_Inv {t : SplitTable} {u : Nat} {st : Status} {now : Nat}
    {t2 : SplitTable} (hI : Inv t)
    (htok : statusTokenBound st t.next_token) (hbw : bytesOf st < W)
    (heq : t.change_split_status u st now = some t2) : Inv t2 := by
  have hI1 : Inv (t.remove u).2 := Inv_remove hI u
  have habs : lookupId u (t.remove u).2.split_to_status = none := remove_lookup_self t u
  have hmisc := remove_misc t u
  have hcapr : (t.remove u).2.candidate_splits.length ≤ MAX_NUM_CANDIDATES :=
    le_trans (remove_cd_sublist t u).length_le hI.2
  unfold SplitTable.change_split_status SplitTable.mutate_split at heq
  cases hfst : (t.remove u).1 with
  | some info =>
    rw [remove_eta hfst] at heq
    dsimp only at heq
    cases hins : (t.remove u).2.insert { info with status := st } with
    | none =>
      rw [hins] at heq
      cases heq
    | some t2x =>
      rw [hins] at heq
      dsimp only at heq
      injection heq with heq
      subst heq
      have habsk : lookupId ({ info with status := st } : SplitInfo).split_key.split_ulid
          (t.remove u).2.split_to_status = none := by
        rw [(hI.1.consistent u info (remove_fst_some hfst)).1]
        exact habs
      have htok1 : statusTokenBound ({ info with status := st } : SplitInfo).status
          (t.remove u).2.next_token := by
        rw [hmisc.2.2]
        exact htok
      rcases insert_spec hI1.1 habsk htok1 hbw hins with
        ⟨hI2, _, hcap2, _⟩
      refine ⟨hI2, ?_⟩
      rcases hcap2 with h1 | h1
      · exact h1
      · rw [h1]
        exact hcapr
  | none =>
    rw [remove_eta hfst] at heq
    dsimp only at heq
    cases hins : (t.remove u).2.insert
        { split_key := { last_accessed := now, split_ulid := u }, status := st } with
    | none =>
      rw [hins] at heq
      cases heq
    | some t2x =>
      rw [hins] at heq
      dsimp only at heq
      injection heq with heq
      subst heq
      have habsk : lookupId ({ split_key := { last_accessed := now, split_ulid := u }, status := st } : SplitInfo).split_key.split_ulid (t.remove u).2.split_to_status = none := habs
      have htok1 : statusTokenBound ({ split_key := { last_accessed := now, split_ulid := u }, status := st } : SplitInfo).status (t.remove u).2.next_token := by
        rw [hmisc.2.2]
        exact htok
      rcases insert_spec hI1.1 habsk htok1 hbw hins with
        ⟨hI2, _, hcap2, _⟩
      refine ⟨hI2, ?_⟩
      rcases hcap2 with h1 | h1
      · exact h1
      · rw [h1]
        exact hcapr

/- ### try_get_or_open_fd -/

theorem tryget_hit_spec {t : SplitTable} {u : Nat} {uri : String} {now : Nat} {v : Nat}
    (hget : fdLookup u t.fd_cache = some v) :
    t.try_get_or_open_fd u uri now =
      some (some v, { t with fd_cache := (u, v) :: fdErase u t.fd_cache }) := by
  unfold SplitTable.try_get_or_open_fd fdGet
  rw [hget]

theorem Inv_tryget_hit {t : SplitTable} {u v : Nat} (hI : Inv t)
    (hget : fdLookup u t.fd_cache = some v) :
    Inv { t with fd_cache := (u, v) :: fdErase u t.fd_cache } := by
  apply Inv_fd_subset hI
  intro p hp
  rcases List.mem_cons.mp hp with rfl | hp2
  · exact lookupId_mem hget
  · exact (List.mem_filter.mp hp2).1

theorem Inv_fdPut {t : SplitTable} {u v : Nat} {info : SplitInfo} (hI : Inv t)
    (hlk : lookupId u t.split_to_status = some info)
    (hod : ∃ n, info.status = Status.onDisk n) :
    Inv { t with fd_cache := fdPut u v t.fd_cache } := by
  refine ⟨{ sorted_od := hI.1.sorted_od, sorted_dl := hI.1.sorted_dl,
            sorted_cd := hI.1.sorted_cd, nodup_index := hI.1.nodup_index,
            consistent := hI.1.consistent, complete_od := hI.1.complete_od,
            complete_dl := hI.1.complete_dl, complete_cd := hI.1.complete_cd,
            bytes_eq := hI.1.bytes_eq, bytes_lt := hI.1.bytes_lt,
            fd_ok := ?_, tok_lt := hI.1.tok_lt, dead_lt := hI.1.dead_lt }, hI.2⟩
  intro p hp
  have hp2 : p ∈ (u, v) :: fdErase u t.fd_cache := List.mem_of_mem_take hp
  rcases List.mem_cons.mp hp2 with rfl | hp3
  · exact ⟨info, hlk, hod⟩
  · exact hI.1.fd_ok p ((List.mem_filter.mp hp3).1)

theorem tryget_Inv {t : SplitTable} {u : Nat} {uri : String} {now : Nat}
    {r : Option Nat} {t2 : SplitTable} (hI : Inv t)
    (heq : t.try_get_or_open_fd u uri now = some (r, t2)) : Inv t2 := by
  cases hget : fdLookup u t.fd_cache with
  | some v =>
    rw [tryget_hit_spec hget] at heq
    simp only [Option.some.injEq, Prod.mk.injEq] at heq
    rcases heq with ⟨h1, h2⟩
    rw [← h2]
    exact Inv_tryget_hit hI hget
  | none =>
    unfold SplitTable.try_get_or_open_fd fdGet at heq
    rw [hget] at heq
    dsimp only at heq
    cases htch : t.touch u uri now with
    | none =>
      rw [htch] at heq
      cases heq
    | some p =>
      obtain ⟨st, t1⟩ := p
      rw [htch] at heq
      dsimp only at heq
      have hI1 : Inv t1 := touch_Inv hI htch
      cases hs : st with
      | onDisk nb =>
        rw [hs] at heq
        dsimp only at heq
        simp only [Option.some.injEq, Prod.mk.injEq] at heq
        rcases heq with ⟨h1, h2⟩
        rw [← h2]
        have hlk1 : ∃ info, lookupId u t1.split_to_status = some info ∧
            ∃ n, info.status = Status.onDisk n := by
          cases hfst : (t.remove u).1 with
          | some info =>
            rcases touch_known_spec hI (remove_fst_some hfst)
              (remove_fst_live hfst) htch with ⟨hst, _, hlkx, _⟩
            refine ⟨touchedInfo info now, hlkx, nb, ?_⟩
            show info.status = Status.onDisk nb
            rw [← hst, hs]
          | none =>
            rcases touch_none_spec hI hfst htch with ⟨hst, _, hlkx, _⟩
            rw [hs] at hst
            cases hst
        rcases hlk1 with ⟨info, hlkx, hodx⟩
        exact Inv_fdPut hI1 hlkx hodx
      | candidate c =>
        rw [hs] at heq
        dsimp only at heq
        simp only [Option.some.injEq, Prod.mk.injEq] at heq
        rcases heq with ⟨h1, h2⟩
        rw [← h2]
        exact hI1
      | downloading tk =>
        rw [hs] at heq
        dsimp only at heq
        simp only [Option.some.injEq, Prod.mk.injEq] at heq
        rcases heq with ⟨h1, h2⟩
        rw [← h2]
        exact hI1

/- ### make_room_for_split_if_necessary -/

theorem make_room_spec {t : SplitTable} {bound : Option Nat}
    {r : Option (List Nat) × SplitTable}
    (hI : Inv t) (heq : t.make_room_for_split_if_necessary bound = some r) :
    Inv r.2 ∧
    r.2.limits = t.limits ∧ r.2.dead_tokens = t.dead_tokens ∧
    r.2.next_token = t.next_token ∧
    List.Sublist r.2.fd_cache t.fd_cache ∧
    ((r.1 = none ∧
        r.2.on_disk_splits = t.on_disk_splits ∧
        r.2.candidate_splits = t.candidate_splits ∧
        List.Sublist r.2.downloading_splits t.downloading_splits ∧
        r.2.on_disk_bytes = t.on_disk_bytes ∧
        (∀ j, lookupId j r.2.split_to_status = lookupId j t.split_to_status ∨
          (lookupId j r.2.split_to_status = none ∧ deadDL t j))) ∨
      (∃ ids, r.1 = some ids ∧ ∃ L : List SplitInfo,
        ids = L.map (fun si => si.split_key.split_ulid) ∧
        t.on_disk_splits = L.map (fun si => si.split_key) ++ r.2.on_disk_splits ∧
        (∀ si ∈ L, lookupId si.split_key.split_ulid t.split_to_status = some si ∧
          (∃ n, si.status = Status.onDisk n) ∧
          (∀ b, bound = some b → si.split_key.last_accessed ≤ b)) ∧
        (∀ si ∈ L, lookupId si.split_key.split_ulid r.2.split_to_status = none) ∧
        (∀ j, lookupId j r.2.split_to_status = lookupId j t.split_to_status ∨
          (lookupId j r.2.split_to_status = none ∧
            ∃ si ∈ L, si.split_key.split_ulid = j)) ∧
        r.2.candidate_splits = t.candidate_splits ∧
        r.2.downloading_splits = t.downloading_splits ∧
        r.2.is_out_of_limits = false)) := by
  have hbW : t.on_disk_bytes < W := by
    rw [hI.1.bytes_eq]
    exact Nat.mod_lt _ Wpos
  unfold SplitTable.make_room_for_split_if_necessary at heq
  cases hmr : makeRoomFuel t.on_disk_splits.length t bound [] with
  | none =>
    rw [hmr] at heq
    cases heq
  | some res =>
    rw [hmr] at heq
    dsimp only at heq
    rcases makeRoomFuel_spec _ t bound [] res hI hmr with
      ⟨hI1, ⟨P, L, hod1, hacc1, hmap1, hmem1, hb1, hpw1, habs1, hnd1⟩,
        hcd1, hdl1, hfd1, hlim1, hde1, hnx1⟩
    simp only [List.nil_append] at hacc1
    by_cases ho : res.2.is_out_of_limits = true
    · rw [if_pos ho] at heq
      cases hfold : res.1.foldl insertFold (some res.2) with
      | none =>
        rw [hfold] at heq
        cases heq
      | some t2 =>
        rw [hfold] at heq
        injection heq with heq
        subst heq
        rw [hacc1] at hfold
        have hmemr : ∀ si ∈ L, lookupId si.split_key.split_ulid
            res.2.split_to_status = none ∧ ∃ n, si.status = Status.onDisk n ∧ n < W := by
          intro si hsi
          exact ⟨habs1 si hsi, (hmem1 si hsi).2.1⟩
        rcases rollback_fold_spec L res.2 t2 hI1 hmemr hnd1 hfold with
          ⟨hI2, hod2, hcd2, hdl2, hb2, hlk2, hpw2, hfd2, hlim2, hde2, hnx2⟩
        have hodt : t2.on_disk_splits = t.on_disk_splits := by
          rw [hod2, hmap1]
          rw [foldl_btreeInsert_ascending P res.2.on_disk_splits
            (by rw [← hod1]; exact hI.1.sorted_od)]
          exact hod1.symm
        have hbt : t2.on_disk_bytes = t.on_disk_bytes := by
          rw [hb2, hb1]
          exact u64_roundtrip (L.map (fun si => bytesOf si.status)) t.on_disk_bytes hbW
            (by
              intro n hn
              rcases List.mem_map.mp hn with ⟨si, hsi, hne⟩
              rcases (hmem1 si hsi).2.1 with ⟨m, hm, hmW⟩
              rw [← hne, hm]
              exact hmW)
        refine ⟨hI2, by rw [hlim2, hlim1], by rw [hde2, hde1], by rw [hnx2, hnx1],
          List.Sublist.trans (hfd2 ▸ List.Sublist.refl _) hfd1, Or.inl ⟨rfl, hodt,
          by rw [hcd2, hcd1], ?_, hbt, ?_⟩⟩
        · rw [hdl1] at hdl2
          exact hdl2
        · intro j
          by_cases hjL : j ∈ L.map (fun si => si.split_key.split_ulid)
          · rcases List.mem_map.mp hjL with ⟨si, hsi, hje⟩
            left
            rw [← hje]
            rw [hlk2 si hsi, (hmem1 si hsi).1]
          · rcases hpw2 j hjL with h1 | ⟨h1, hdead⟩
            · rcases hpw1 j with h2 | ⟨h2, si, hsi, hje⟩
              · left
                rw [h1, h2]
              · exact absurd (List.mem_map.mpr ⟨si, hsi, hje⟩) hjL
            · right
              refine ⟨h1, ?_⟩
              rcases hdead with ⟨info2, tok2, hl2, hs2, htk2⟩
              rcases hpw1 j with h2 | ⟨h2, _⟩
              · rw [h2] at hl2
                rw [hde1] at htk2
                exact ⟨info2, tok2, hl2, hs2, htk2⟩
              · rw [h2] at hl2
                cases hl2
    · rw [if_neg ho] at heq
      injection heq with heq
      subst heq
      rw [Bool.not_eq_true] at ho
      refine ⟨hI1, hlim1, hde1, hnx1, hfd1, Or.inr ⟨res.1.map
        (fun si => si.split_key.split_ulid), rfl, L, by rw [hacc1], ?_, ?_, habs1,
        hpw1, hcd1, hdl1, ho⟩⟩
      · rw [hmap1]
        exact hod1
      · intro si hsi
        refine ⟨(hmem1 si hsi).1, ?_, (hmem1 si hsi).2.2⟩
        rcases (hmem1 si hsi).2.1 with ⟨n, hn, _⟩
        exact ⟨n, hn⟩

/- ### find_download_opportunity -/

theorem start_download_some_char {t : SplitTable} {u : Nat} {c : CandidateSplit}
    {t2 : SplitTable} (hI : Inv t)
    (heq : t.start_download u = some (some c, t2)) :
    ∃ si, lookupId u t.split_to_status = some si ∧ si.status = Status.candidate c := by
  cases hfst : (t.remove u).1 with
  | none =>
    rw [start_download_none hfst] at heq
    simp only [Option.some.injEq, Prod.mk.injEq] at heq
    rcases heq with ⟨h1, _⟩
    cases h1
  | some info =>
    have hlk := remove_fst_some hfst
    cases hs : info.status with
    | candidate c0 =>
      rcases start_download_candidate_spec hI hlk hs heq with ⟨hr, _⟩
      injection hr with hr
      exact ⟨info, hlk, by rw [hs, hr]⟩
    | downloading tk =>
      rcases start_download_other_spec hI hlk (remove_fst_live hfst)
        (fun c3 hc3 => by rw [hs] at hc3; cases hc3) heq with ⟨hr, _⟩
      cases hr
    | onDisk n =>
      rcases start_download_other_spec hI hlk (remove_fst_live hfst)
        (fun c3 hc3 => by rw [hs] at hc3; cases hc3) heq with ⟨hr, _⟩
      cases hr

theorem fdo_spec {t : SplitTable} {r : Option DownloadOpportunity × SplitTable}
    (hI : Inv t) (heq : t.find_download_opportunity = some r) :
    Inv r.2 ∧
    (∀ dop, r.1 = some dop →
      ∃ best, t.best_candidate = some best ∧
        (∃ si c, lookupId best.split_ulid t.split_to_status = some si ∧
          si.status = Status.candidate c ∧ dop.split_to_download = c) ∧
        (∀ id ∈ dop.splits_to_delete, ∃ si,
          lookupId id t.split_to_status = some si ∧
          (∃ n, si.status = Status.onDisk n) ∧
          si.split_key.last_accessed ≤ best.last_accessed)) := by
  unfold SplitTable.find_download_opportunity at heq
  cases hbc : t.best_candidate with
  | none =>
    rw [hbc] at heq
    injection heq with heq
    subst heq
    refine ⟨hI, ?_⟩
    intro dop hdop
    cases hdop
  | some best =>
    rw [hbc] at heq
    dsimp only at heq
    cases hmr : t.make_room_for_split_if_necessary (some best.last_accessed) with
    | none =>
      rw [hmr] at heq
      cases heq
    | some mr =>
      rw [hmr] at heq
      obtain ⟨r1, t1⟩ := mr
      rcases make_room_spec hI hmr with ⟨hI1, hlim1, hde1, hnx1, hfd1, hbr⟩
      cases r1 with
      | none =>
        dsimp only at heq
        injection heq with heq
        subst heq
        refine ⟨hI1, ?_⟩
        intro dop hdop
        cases hdop
      | some ids =>
        dsimp only at heq
        cases hsd : t1.start_download best.split_ulid with
        | none =>
          rw [hsd] at heq
          cases heq
        | some sdp =>
          rw [hsd] at heq
          obtain ⟨sr, t2⟩ := sdp
          rcases hbr with ⟨hnone, _⟩ | ⟨ids2, hids2, L, hidsL, hodL, hmemL, habsL,
            hpwL, hcdL, hdlL, hoL⟩
          · cases hnone
          dsimp only at hids2
          injection hids2 with hids2
          subst hids2
          cases sr with
          | none =>
            dsimp only at heq
            injection heq with heq
            subst heq
            refine ⟨start_download_Inv hI1 hsd, ?_⟩
            intro dop hdop
            cases hdop
          | some c =>
            dsimp only at heq
            injection heq with heq
            subst heq
            refine ⟨start_download_Inv hI1 hsd, ?_⟩
            intro dop hdop
            dsimp only at hdop
            injection hdop with hdop
            subst hdop
            rcases start_download_some_char hI1 hsd with ⟨si, hlksi, hssi⟩
            have hlkt : lookupId best.split_ulid t.split_to_status = some si := by
              rcases hpwL best.split_ulid with h1 | ⟨h1, _⟩
              · rw [← h1]
                exact hlksi
              · rw [h1] at hlksi
                cases hlksi
            refine ⟨best, rfl, ⟨si, c, hlkt, hssi, rfl⟩, ?_⟩
            intro id hid
            dsimp only at hid
            rw [hidsL] at hid
            rcases List.mem_map.mp hid with ⟨sie, hsie, hide⟩
            refine ⟨sie, ?_, (hmemL sie hsie).2.1, ?_⟩
            · rw [← hide]
              exact (hmemL sie hsie).1
            · exact (hmemL sie hsie).2.2 best.last_accessed rfl

/- ### Construction, drop_token and the step invariant -/

theorem empty_Inv (limits : SplitCacheLimits) :
    Inv { on_disk_splits := [], downloading_splits := [], candidate_splits := [],
          split_to_status := [], limits := limits, on_disk_bytes := 0,
          fd_cache := [], dead_tokens := [], next_token := 0 } := by
  refine ⟨{ sorted_od := List.chain'_nil, sorted_dl := List.chain'_nil,
            sorted_cd := List.chain'_nil, nodup_index := List.nodup_nil,
            consistent := ?_, complete_od := ?_, complete_dl := ?_,
            complete_cd := ?_, bytes_eq := ?_, bytes_lt := ?_, fd_ok := ?_,
            tok_lt := ?_, dead_lt := ?_ }, ?_⟩
  · intro id info h
    cases h
  · intro k hk
    cases hk
  · intro k hk
    cases hk
  · intro k hk
    cases hk
  · rfl
  · intro id info n h
    cases h
  · intro p hp
    cases hp
  · intro id info h
    cases h
  · intro tok htok
    cases htok
  · show (0 : Nat) ≤ MAX_NUM_CANDIDATES
    unfold MAX_NUM_CANDIDATES
    omega

theorem with_limits_Inv {limits : SplitCacheLimits} {existing : List (Nat × Nat)}
    {t0 : SplitTable} (hok : initOk existing)
    (heq : with_limits_and_existing_splits limits existing = some t0) : Inv t0 := by
  unfold with_limits_and_existing_splits at heq
  set empty : SplitTable :=
    { on_disk_splits := [], downloading_splits := [], candidate_splits := [],
      split_to_status := [], limits := limits, on_disk_bytes := 0,
      fd_cache := [], dead_tokens := [], next_token := 0 } with hempty
  set L : List SplitInfo := existing.map (fun p =>
    ({ split_key := { last_accessed := 0, split_ulid := p.1 },
       status := .onDisk p.2 } : SplitInfo)) with hL
  have hmem : ∀ si ∈ L, lookupId si.split_key.split_ulid empty.split_to_status = none ∧
      ∃ n, si.status = Status.onDisk n ∧ n < W := by
    intro si hsi
    rw [hL] at hsi
    rcases List.mem_map.mp hsi with ⟨p, hp, hpe⟩
    refine ⟨rfl, p.2, ?_, hok.2 p hp⟩
    rw [← hpe]
  have hnd : (L.map (fun si => si.split_key.split_ulid)).Nodup := by
    rw [hL, List.map_map]
    have h1 : (fun si => SplitKey.split_ulid (SplitInfo.split_key si)) ∘
        (fun p : Nat × Nat =>
          ({ split_key := { last_accessed := 0, split_ulid := p.1 },
             status := .onDisk p.2 } : SplitInfo)) = fun p : Nat × Nat => p.1 := rfl
    rw [h1]
    have hch : List.Chain' (fun a b : Nat => a < b) (existing.map Prod.fst) :=
      List.chain'_map_of_chain' Prod.fst (fun a b h => h) hok.1
    have hpw := List.chain'_iff_pairwise.mp hch
    have hpw2 : List.Pairwise (fun a b : Nat => a ≠ b) (existing.map Prod.fst) :=
      hpw.imp (fun h => Nat.ne_of_lt h)
    have h2 : List.map (fun p : Nat × Nat => p.1) existing = existing.map Prod.fst := rfl
    rw [h2]
    exact hpw2
  exact (rollback_fold_spec L empty t0 (empty_Inv limits) hmem hnd heq).1

theorem drop_token_Inv {s : SplitTable} {tok : Nat} (hI : Inv s)
    (hok : tok ∉ s.dead_tokens ∧
      ∃ p ∈ s.split_to_status, p.2.status = Status.downloading tok) :
    Inv { s with dead_tokens := tok :: s.dead_tokens } := by
  refine ⟨{ sorted_od := hI.1.sorted_od, sorted_dl := hI.1.sorted_dl,
            sorted_cd := hI.1.sorted_cd, nodup_index := hI.1.nodup_index,
            consistent := hI.1.consistent, complete_od := hI.1.complete_od,
            complete_dl := hI.1.complete_dl, complete_cd := hI.1.complete_cd,
            bytes_eq := hI.1.bytes_eq, bytes_lt := hI.1.bytes_lt,
            fd_ok := hI.1.fd_ok, tok_lt := hI.1.tok_lt, dead_lt := ?_ }, hI.2⟩
  intro tk htk
  rcases List.mem_cons.mp htk with rfl | htk2
  · rcases hok.2 with ⟨p, hp, hps⟩
    have hlk := lookupId_of_nodup_mem hI.1.nodup_index hp
    have h1 := hI.1.tok_lt p.1 p.2 hlk
    rw [hps] at h1
    exact h1
  · exact hI.1.dead_lt tk htk2

theorem step_Inv {s : SplitTable} {e : Event} {now : Nat} {s2 : SplitTable}
    (hI : Inv s) (hok : eventOk s e) (heq : step s e now = some s2) : Inv s2 := by
  cases e with
  | report id uri =>
    exact report_Inv hI heq
  | touch id uri =>
    show Inv s2
    have heq2 : (s.touch id uri now).map (fun r => r.2) = some s2 := heq
    cases htch : s.touch id uri now with
    | none =>
      rw [htch] at heq2
      cases heq2
    | some p =>
      obtain ⟨st, t2⟩ := p
      rw [htch] at heq2
      injection heq2 with heq2
      rw [← heq2]
      exact touch_Inv hI htch
  | start_download id =>
    have heq2 : (s.start_download id).map (fun r => r.2) = some s2 := heq
    cases hsd : s.start_download id with
    | none =>
      rw [hsd] at heq2
      cases heq2
    | some p =>
      obtain ⟨r, t2⟩ := p
      rw [hsd] at heq2
      injection heq2 with heq2
      rw [← heq2]
      exact start_download_Inv hI hsd
  | register_as_downloaded id n =>
    have hbw : bytesOf (Status.onDisk n) < W := hok
    have htok : statusTokenBound (Status.onDisk n) s.next_token := trivial
    exact change_status_Inv hI htok hbw heq
  | find_download_opportunity =>
    have heq2 : (s.find_download_opportunity).map (fun r => r.2) = some s2 := heq
    cases hf : s.find_download_opportunity with
    | none =>
      rw [hf] at heq2
      cases heq2
    | some p =>
      rw [hf] at heq2
      injection heq2 with heq2
      rw [← heq2]
      exact (fdo_spec hI hf).1
  | try_get_or_open_fd id uri =>
    have heq2 : (s.try_get_or_open_fd id uri now).map (fun r => r.2) = some s2 := heq
    cases hg : s.try_get_or_open_fd id uri now with
    | none =>
      rw [hg] at heq2
      cases heq2
    | some p =>
      obtain ⟨r, t2⟩ := p
      rw [hg] at heq2
      injection heq2 with heq2
      rw [← heq2]
      exact tryget_Inv hI hg
  | drop_token tok =>
    injection heq with heq
    rw [← heq]
    exact drop_token_Inv hI hok

theorem inv_of_reachable {limits : SplitCacheLimits} {s : SplitTable} {now : Nat}
    (hr : Reachable limits s now) : Inv s := by
  induction hr with
  | init existing t0 hok heq => exact with_limits_Inv hok heq
  | next s now e now2 s2 _ hle hok heq ih => exact step_Inv ih hok heq

/- ### Reachability of the concrete states, and the exactly-one-queue form of
the invariant -/

theorem reachable_table0 (limits : SplitCacheLimits) :
    Reachable limits (table0 limits) T0 :=
  Reachable.init [] (table0 limits)
    ⟨List.chain'_nil, fun p hp => absurd hp (List.not_mem_nil p)⟩ rfl

theorem stepsOk_reachable {limits : SplitCacheLimits} :
    ∀ (evs : List (Event × Nat)) {s : SplitTable} {now : Nat} {s2 : SplitTable}
      {now2 : Nat}, Reachable limits s now → stepsOk s now evs = some (s2, now2) →
      Reachable limits s2 now2 := by
  intro evs
  induction evs with
  | nil =>
    intro s now s2 now2 hr heq
    rw [stepsOk] at heq
    injection heq with heq
    injection heq with h1 h2
    subst h1
    subst h2
    exact hr
  | cons p rest ih =>
    obtain ⟨e, n⟩ := p
    intro s now s2 now2 hr heq
    rw [stepsOk] at heq
    by_cases hc : now ≤ n ∧ eventOk s e
    · rw [if_pos hc] at heq
      cases hst : step s e n with
      | none =>
        rw [hst] at heq
        cases heq
      | some s3 =>
        rw [hst] at heq
        exact ih (Reachable.next s now e n s3 hr hc.1 hc.2 hst) heq
    · rw [if_neg hc] at heq
      cases heq

theorem filter_ulid_one {l : List SplitKey} {k : SplitKey} {id : Nat}
    (hnd : l.Nodup) (hk : k ∈ l) (hid : k.split_ulid = id)
    (huniq : ∀ x ∈ l, x.split_ulid = id → x = k) :
    (l.filter (fun x => x.split_ulid == id)).length = 1 := by
  induction l with
  | nil => cases hk
  | cons y ys ih =>
    rcases List.nodup_cons.mp hnd with ⟨hy, hnd2⟩
    by_cases hyk : y = k
    · subst hyk
      rw [List.filter_cons]
      rw [show (y.split_ulid == id) = true by simp [hid]]
      simp only [if_true, List.length_cons]
      have hzero : (ys.filter (fun x => x.split_ulid == id)).length = 0 := by
        rw [List.length_eq_zero, List.filter_eq_nil]
        intro x hx hxe
        have hxk := huniq x (List.mem_cons_of_mem _ hx) (by simpa using hxe)
        exact absurd (hxk ▸ hx) hy
      omega
    · rw [List.filter_cons]
      have hyid : (y.split_ulid == id) = false := by
        simp only [beq_eq_false_iff_ne, ne_eq]
        intro he
        exact hyk (huniq y (List.mem_cons_self y ys) he)
      rw [hyid]
      simp only [Bool.false_eq_true, if_false]
      have hkys : k ∈ ys := by
        rcases List.mem_cons.mp hk with rfl | h
        · exact absurd rfl hyk
        · exact h
      exact ih hnd2 hkys (fun x hx hxe => huniq x (List.mem_cons_of_mem _ hx) hxe)

theorem filter_ulid_zero {l : List SplitKey} {id : Nat}
    (h : ∀ x ∈ l, x.split_ulid ≠ id) :
    (l.filter (fun x => x.split_ulid == id)).length = 0 := by
  rw [List.length_eq_zero, List.filter_eq_nil]
  intro x hx
  simp [h x hx]

theorem InvNC_exactlyOne {t : SplitTable} (hI : InvNC t) : ExactlyOneQueue t := by
  constructor
  · intro id info hlk
    have hcons := hI.consistent id info hlk
    show ((t.on_disk_splits ++ t.downloading_splits ++ t.candidate_splits).filter
      (fun k => k.split_ulid == id)).length = 1
    rw [List.filter_append, List.filter_append, List.length_append, List.length_append]
    cases hst : info.status with
    | onDisk n =>
      have hq : info.split_key ∈ t.on_disk_splits := by
        have h2 := hcons.2
        rw [hst] at h2
        exact h2
      have h1 := filter_ulid_one (chain'_nodup hI.sorted_od) hq hcons.1 (by
        intro x hx hxe
        rcases hI.complete_od x hx with ⟨m, hm⟩
        rw [hxe, hlk] at hm
        injection hm with hm
        rw [hm])
      have h2 := @filter_ulid_zero t.downloading_splits id (by
        intro x hx hxe
        rcases hI.complete_dl x hx with ⟨tk, htk⟩
        rw [hxe, hlk] at htk
        injection htk with htk
        rw [htk] at hst
        exact absurd hst (by simp))
      have h3 := @filter_ulid_zero t.candidate_splits id (by
        intro x hx hxe
        rcases hI.complete_cd x hx with ⟨c, hc⟩
        rw [hxe, hlk] at hc
        injection hc with hc
        rw [hc] at hst
        exact absurd hst (by simp))
      omega
    | downloading tk0 =>
      have hq : info.split_key ∈ t.downloading_splits := by
        have h2 := hcons.2
        rw [hst] at h2
        exact h2
      have h1 := filter_ulid_one (chain'_nodup hI.sorted_dl) hq hcons.1 (by
        intro x hx hxe
        rcases hI.complete_dl x hx with ⟨m, hm⟩
        rw [hxe, hlk] at hm
        injection hm with hm
        rw [hm])
      have h2 := @filter_ulid_zero t.on_disk_splits id (by
        intro x hx hxe
        rcases hI.complete_od x hx with ⟨m, hm⟩
        rw [hxe, hlk] at hm
        injection hm with hm
        rw [hm] at hst
        exact absurd hst (by simp))
      have h3 := @filter_ulid_zero t.candidate_splits id (by
        intro x hx hxe
        rcases hI.complete_cd x hx with ⟨c, hc⟩
        rw [hxe, hlk] at hc
        injection hc with hc
        rw [hc] at hst
        exact absurd hst (by simp))
      omega
    | candidate c0 =>
      have hq : info.split_key ∈ t.candidate_splits := by
        have h2 := hcons.2
        rw [hst] at h2
        exact h2
      have h1 := filter_ulid_one (chain'_nodup hI.sorted_cd) hq hcons.1 (by
        intro x hx hxe
        rcases hI.complete_cd x hx with ⟨c, hc⟩
        rw [hxe, hlk] at hc
        injection hc with hc
        rw [hc])
      have h2 := @filter_ulid_zero t.on_disk_splits id (by
        intro x hx hxe
        rcases hI.complete_od x hx with ⟨m, hm⟩
        rw [hxe, hlk] at hm
        injection hm with hm
        rw [hm] at hst
        exact absurd hst (by simp))
      have h3 := @filter_ulid_zero t.downloading_splits id (by
        intro x hx hxe
        rcases hI.complete_dl x hx with ⟨m, hm⟩
        rw [hxe, hlk] at hm
        injection hm with hm
        rw [hm] at hst
        exact absurd hst (by simp))
      omega
  · intro k hk
    unfold allQueues at hk
    rcases List.mem_append.mp hk with hk1 | hk3
    · rcases List.mem_append.mp hk1 with hod | hdl
      · rcases hI.complete_od k hod with ⟨n, hn⟩
        rw [hn]
        rfl
      · rcases hI.complete_dl k hdl with ⟨tk, htk⟩
        rw [htk]
        rfl
    · rcases hI.complete_cd k hk3 with ⟨c, hc⟩
      rw [hc]
      rfl

/- ### Running `stepsOk` piecewise -/

theorem stepsOk_cons_some {s : SplitTable} {now : Nat} {e : Event} {n : Nat}
    {rest : List (Event × Nat)} {s2 : SplitTable}
    (h1 : now ≤ n) (h2 : eventOk s e) (h3 : step s e n = some s2) :
    stepsOk s now ((e, n) :: rest) = stepsOk s2 n rest := by
  conv_lhs => rw [stepsOk]
  rw [if_pos ⟨h1, h2⟩, h3]

theorem stepsOk_append {l1 : List (Event × Nat)} :
    ∀ {s : SplitTable} {now : Nat} {l2 : List (Event × Nat)} {s1 : SplitTable} {n1 : Nat},
    stepsOk s now l1 = some (s1, n1) →
    stepsOk s now (l1 ++ l2) = stepsOk s1 n1 l2 := by
  induction l1 with
  | nil =>
    intro s now l2 s1 n1 h
    rw [show stepsOk s now [] = some (s, now) from rfl] at h
    injection h with h2
    injection h2 with h3 h4
    rw [List.nil_append, h3, h4]
  | cons p l ih =>
    intro s now l2 s1 n1 h
    obtain ⟨e, n⟩ := p
    rw [List.cons_append]
    unfold stepsOk at h
    conv_lhs => rw [stepsOk]
    by_cases hc : now ≤ n ∧ eventOk s e
    · rw [if_pos hc] at h
      rw [if_pos hc]
      cases hs : step s e n with
      | none =>
        rw [hs] at h
        exact Option.noConfusion h
      | some s2 =>
        rw [hs] at h
        exact ih h
    · rw [if_neg hc] at h
      exact Option.noConfusion h

/- ### The `touch` of an unknown split, as an equation -/

theorem touch_unknown_eq {t : SplitTable} {u : Nat} {uri : String} {la : Nat} {t2 : SplitTable}
    (hfst : (t.remove u).1 = none)
    (hins : ({ (t.remove u).2 with next_token := (t.remove u).2.next_token + 1 } :
      SplitTable).insert (freshCandidate uri u (t.remove u).2.next_token la) = some t2) :
    t.touch u uri la =
      some ((freshCandidate uri u (t.remove u).2.next_token la).status, t2) := by
  unfold SplitTable.touch
  rw [remove_eta hfst]
  dsimp only
  rw [hins]

theorem touch_unknown_none {t : SplitTable} {u : Nat} {uri : String} {la : Nat}
    (hfst : (t.remove u).1 = none)
    (hins : ({ (t.remove u).2 with next_token := (t.remove u).2.next_token + 1 } :
      SplitTable).insert (freshCandidate uri u (t.remove u).2.next_token la) = none) :
    t.touch u uri la = none := by
  unfold SplitTable.touch
  rw [remove_eta hfst]
  dsimp only
  rw [hins]

theorem fresh_insert_none2 {t1 : SplitTable} {u : Nat} {uri : String} {la : Nat}
    {cd2 : List SplitKey}
    (hcd : btreeInsert (freshCandidate uri u t1.next_token la).split_key
      ({ t1 with next_token := t1.next_token + 1 } : SplitTable).candidate_splits = cd2)
    (htr : SplitTable.truncate_candidate_list
      { ({ t1 with next_token := t1.next_token + 1 } : SplitTable) with
        candidate_splits := cd2 } = none) :
    ({ t1 with next_token := t1.next_token + 1 } : SplitTable).insert
      (freshCandidate uri u t1.next_token la) = none := by
  subst hcd
  exact insert_candidate_none rfl htr

/- ### A candidate list truncation that can never settle -/

theorem truncate_none_of_head_unindexed {t : SplitTable} {w : SplitKey} {tail : List SplitKey}
    (hcd : t.candidate_splits = w :: tail)
    (hlen : MAX_NUM_CANDIDATES < t.candidate_splits.length)
    (habs : lookupId w.split_ulid t.split_to_status = none) :
    t.truncate_candidate_list = none := by
  unfold SplitTable.truncate_candidate_list
  cases hfe : t.candidate_splits.length with
  | zero => exact absurd hlen (by rw [hfe]; exact Nat.not_lt_zero _)
  | succ fuel =>
    rw [truncateFuel, if_pos hlen, hcd]
    rw [show (w :: tail).head? = some w from rfl]
    dsimp only
    rw [remove_of_none habs]
    dsimp only
    rw [hcd]
    rw [if_neg (Nat.lt_irrefl _)]

/- ### `btreeInsert` at the two ends of a sorted list -/

theorem btreeInsert_last : ∀ (l : List SplitKey) (key : SplitKey),
    (∀ x ∈ l, keyLt x key) → btreeInsert key l = l ++ [key]
  | [], _, _ => rfl
  | y :: ys, key, hk => by
    have hyk : keyLt y key := hk y (List.mem_cons_self y ys)
    have h1 : ¬ (keyLtb key y = true) :=
      fun hky => keyLt_irrefl key (keyLt_trans hky hyk)
    have h2 : ¬ key = y := fun he => keyLt_irrefl y (he ▸ hyk)
    rw [btreeInsert, if_neg h1, if_neg h2,
      btreeInsert_last ys key (fun x hx => hk x (List.mem_cons_of_mem y hx))]
    rfl

theorem btreeInsert_front : ∀ (l : List SplitKey) (key : SplitKey),
    (∀ x ∈ l, keyLt key x) → btreeInsert key l = key :: l
  | [], _, _ => rfl
  | y :: ys, key, hk => by
    rw [btreeInsert,
      if_pos (show keyLtb key y = true from hk y (List.mem_cons_self y ys))]

/- ### Shape of the capacity-filling candidate queue and index -/

theorem capCd_mem : ∀ (k : Nat) (x : SplitKey), x ∈ capCd k →
    x.last_accessed = T0 ∧ 2 ≤ x.split_ulid ∧ x.split_ulid < k + 2 := by
  intro k
  induction k with
  | zero =>
    intro x hx
    simp only [capCd] at hx
    exact absurd hx (List.not_mem_nil x)
  | succ k ih =>
    intro x hx
    rw [capCd] at hx
    rcases List.mem_append.mp hx with h1 | h2
    · rcases ih x h1 with ⟨ha, hb, hc⟩
      exact ⟨ha, hb, by omega⟩
    · rcases List.mem_singleton.mp h2 with rfl
      refine ⟨rfl, ?_, ?_⟩
      · show 2 ≤ k + 2
        omega
      · show k + 2 < k + 1 + 2
        omega

theorem capCd_length : ∀ k : Nat, (capCd k).length = k := by
  intro k
  induction k with
  | zero => rfl
  | succ k ih =>
    rw [capCd, List.length_append, ih]
    rfl

theorem capIdx_lookup_high : ∀ (k j : Nat), k + 2 ≤ j → lookupId j (capIdx k) = none := by
  intro k
  induction k with
  | zero =>
    intro j hj
    show (if 1 = j then some capDl else lookupId j []) = none
    rw [if_neg (show ¬ (1 = j) from by omega)]
    rfl
  | succ k ih =>
    intro j hj
    show (if k + 2 = j then some (freshCandidate "s3://u" (k + 2) (k + 1) T0)
      else lookupId j (capIdx k)) = none
    rw [if_neg (show ¬ (k + 2 = j) from by omega)]
    exact ih j (by omega)

theorem capIdx_lookup_one : ∀ k : Nat, lookupId 1 (capIdx k) = some capDl := by
  intro k
  induction k with
  | zero =>
    show (if 1 = 1 then some capDl else lookupId 1 []) = some capDl
    rw [if_pos rfl]
  | succ k ih =>
    show (if k + 2 = 1 then some (freshCandidate "s3://u" (k + 2) (k + 1) T0)
      else lookupId 1 (capIdx k)) = some capDl
    rw [if_neg (show ¬ (k + 2 = 1) from by omega)]
    exact ih

/- ### One capacity-filling `touch` step -/

theorem capStep (k : Nat) (hk : k < 1000) :
    step (capState k) (Event.touch (k + 2) "s3://u") T0 = some (capState (k + 1)) := by
  have habs : lookupId (k + 2) (capIdx k) = none :=
    capIdx_lookup_high k (k + 2) (Nat.le_refl _)
  have habs2 : lookupId (k + 2) (capState k).split_to_status = none := habs
  have hrem := remove_of_none habs2
  have hfst : ((capState k).remove (k + 2)).1 = none := by rw [hrem]
  have hall : ∀ x ∈ capCd k, keyLt x { last_accessed := T0, split_ulid := k + 2 } := by
    intro x hx
    rcases capCd_mem k x hx with ⟨ha, _, hc⟩
    rw [keyLt_iff]
    right
    refine ⟨ha, ?_⟩
    show x.split_ulid < k + 2
    exact hc
  have hins1 : btreeInsert (freshCandidate "s3://u" (k + 2) (k + 1) T0).split_key
      (capCd k) = capCd (k + 1) := by
    rw [show (freshCandidate "s3://u" (k + 2) (k + 1) T0).split_key =
      { last_accessed := T0, split_ulid := k + 2 } from rfl]
    rw [btreeInsert_last (capCd k) _ hall]
    rw [capCd]
  have htr : SplitTable.truncate_candidate_list
      { ({ capState k with next_token := k + 2 } : SplitTable) with
        candidate_splits := btreeInsert
          (freshCandidate "s3://u" (k + 2) (k + 1) T0).split_key
          ({ capState k with next_token := k + 2 } : SplitTable).candidate_splits } =
      some { ({ capState k with next_token := k + 2 } : SplitTable) with
        candidate_splits := capCd (k + 1) } := by
    rw [show btreeInsert (freshCandidate "s3://u" (k + 2) (k + 1) T0).split_key
      ({ capState k with next_token := k + 2 } : SplitTable).candidate_splits =
      capCd (k + 1) from hins1]
    exact truncate_of_le (by
      show (capCd (k + 1)).length ≤ MAX_NUM_CANDIDATES
      rw [capCd_length]
      show k + 1 ≤ 1000
      omega)
  have hst : (freshCandidate "s3://u" (k + 2) (k + 1) T0).status =
      Status.candidate ⟨"s3://u", k + 2, k + 1⟩ := rfl
  have hins0 : ({ capState k with next_token := k + 2 } : SplitTable).insert
      (freshCandidate "s3://u" (k + 2) (k + 1) T0) = some (capState (k + 1)) := by
    rw [insert_candidate_some hst htr]
    show some ({ capState (k + 1) with split_to_status := (k + 2, freshCandidate "s3://u" (k + 2) (k + 1) T0) :: eraseId (k + 2) (capIdx k) } : SplitTable) = some (capState (k + 1))
    rw [eraseId_eq_of_none habs]
    rfl
  have hins : ({ ((capState k).remove (k + 2)).2 with
      next_token := ((capState k).remove (k + 2)).2.next_token + 1 } : SplitTable).insert
      (freshCandidate "s3://u" (k + 2) ((capState k).remove (k + 2)).2.next_token T0) =
      some (capState (k + 1)) := by
    rw [hrem]
    exact hins0
  have htch := touch_unknown_eq hfst hins
  show ((capState k).touch (k + 2) "s3://u" T0).map (fun r => r.2) = some (capState (k + 1))
  rw [htch]
  rfl

/- ### The capacity-filling run -/

theorem capSteps : ∀ (m k : Nat), k + m ≤ 1000 →
    stepsOk (capState k) T0 ((List.range m).map
      (fun i => (Event.touch (k + i + 2) "s3://u", T0))) =
    some (capState (k + m), T0) := by
  intro m
  induction m with
  | zero =>
    intro k _
    rw [List.range_zero, List.map_nil]
    rfl
  | succ m ih =>
    intro k hk
    rw [List.range_succ, List.map_append]
    rw [stepsOk_append (ih k (by omega))]
    rw [List.map_cons, List.map_nil]
    rw [stepsOk_cons_some (Nat.le_refl T0)
      (show eventOk (capState (k + m)) (Event.touch (k + m + 2) "s3://u") from True.intro)
      (capStep (k + m) (by omega))]
    rfl

theorem capHead : stepsOk (table0 limitsRoomy) T0
    [(Event.touch 1 "s3://u", T0), (Event.start_download 1, T0),
      (Event.drop_token 0, T0)] = some (capState 0, T0) := by
  rw [stepsOk_cons_some (Nat.le_refl T0)
    (show eventOk (table0 limitsRoomy) (Event.touch 1 "s3://u") from True.intro)
    (show step (table0 limitsRoomy) (Event.touch 1 "s3://u") T0 = some capA from rfl)]
  rw [stepsOk_cons_some (Nat.le_refl T0)
    (show eventOk capA (Event.start_download 1) from True.intro)
    (show step capA (Event.start_download 1) T0 = some capB from rfl)]
  rw [stepsOk_cons_some (Nat.le_refl T0)
    (show eventOk capB (Event.drop_token 0) from by decide)
    (show step capB (Event.drop_token 0) T0 = some (capState 0) from rfl)]
  rfl

theorem capReach : stepsOk (table0 limitsRoomy) T0 trCapDead = some (sCapDead, T0) := by
  show stepsOk (table0 limitsRoomy) T0
    ([(Event.touch 1 "s3://u", T0), (Event.start_download 1, T0),
      (Event.drop_token 0, T0)] ++
      (List.range 1000).map (fun i => (Event.touch (i + 2) "s3://u", T0))) =
    some (sCapDead, T0)
  rw [stepsOk_append capHead]
  rw [List.map_congr_left (show ∀ i ∈ List.range 1000,
      (fun i => (Event.touch (i + 2) "s3://u", T0)) i =
      (fun i => (Event.touch (0 + i + 2) "s3://u", T0)) i from by
    intro i _
    show (Event.touch (i + 2) "s3://u", T0) = (Event.touch (0 + i + 2) "s3://u", T0)
    rw [Nat.zero_add])]
  exact capSteps 1000 0 (by omega)

/- ### A `touch` that the full table can never finish -/

theorem capTouchNone : sCapDead.touch 1 "s3://u" T0 = none := by
  have hlk1 : lookupId 1 sCapDead.split_to_status = some capDl := capIdx_lookup_one 1000
  have hrem2 := remove_of_downloading hlk1 rfl
  rw [if_pos (show (0 : Nat) ∈ sCapDead.dead_tokens from by decide)] at hrem2
  have hfst : (sCapDead.remove 1).1 = none := by rw [hrem2]
  have hfront : btreeInsert { last_accessed := T0, split_ulid := 1 } (capCd 1000) =
      { last_accessed := T0, split_ulid := 1 } :: capCd 1000 := by
    apply btreeInsert_front
    intro x hx
    rcases capCd_mem 1000 x hx with ⟨ha, hb, _⟩
    rw [keyLt_iff]
    right
    refine ⟨ha.symm, ?_⟩
    show 1 < x.split_ulid
    omega
  have hlenC : MAX_NUM_CANDIDATES <
      (({ last_accessed := T0, split_ulid := 1 } : SplitKey) :: capCd 1000).length := by
    rw [List.length_cons, capCd_length]
    show MAX_NUM_CANDIDATES < 1001
    decide
  have habsE : lookupId 1 (eraseId 1 (capIdx 1000)) = none := by
    rw [lookupId_eraseId, if_pos rfl]
  have hcdX : btreeInsert
      (freshCandidate "s3://u" 1 (sCapDead.remove 1).2.next_token T0).split_key
      ({ (sCapDead.remove 1).2 with
        next_token := (sCapDead.remove 1).2.next_token + 1 } :
        SplitTable).candidate_splits =
      ({ last_accessed := T0, split_ulid := 1 } : SplitKey) :: capCd 1000 := by
    rw [hrem2]
    exact hfront
  have htrN2 : SplitTable.truncate_candidate_list
      { ({ (sCapDead.remove 1).2 with
          next_token := (sCapDead.remove 1).2.next_token + 1 } : SplitTable) with
        candidate_splits :=
          ({ last_accessed := T0, split_ulid := 1 } : SplitKey) :: capCd 1000 } =
      none := by
    rw [hrem2]
    apply truncate_none_of_head_unindexed
    · exact rfl
    · exact hlenC
    · exact habsE
  exact touch_unknown_none hfst (fresh_insert_none2 hcdX htrN2)

/- ### The claims -/

/-- C1: for every sequence of public operations applied to a newly
constructed table, after each operation completes every split id present in
the status index appears in exactly one of the three queues, and no key is
present in any queue without a status-index entry. -/
theorem C1_exactly_one_queue {limits : SplitCacheLimits} {s : SplitTable} {now : Nat}
    (hr : Reachable limits s now) : ExactlyOneQueue s :=
  InvNC_exactlyOne (inv_of_reachable hr).1

theorem C1_witness : ExactlyOneQueue sDead :=
  C1_exactly_one_queue (stepsOk_reachable trDead (reachable_table0 limitsRoomy) (show stepsOk (table0 limitsRoomy) T0 trDead = some (sDead, T0) from rfl))

/-- C2: on every reachable state, when `find_download_opportunity` answers
with a download opportunity, the admitted split is the best candidate and
every split scheduled for deletion was on disk with `last_accessed` at most
the candidate's. -/
theorem C2_no_warmer_eviction {limits : SplitCacheLimits} {s : SplitTable} {now : Nat}
    {dop : DownloadOpportunity} {t2 : SplitTable}
    (hr : Reachable limits s now)
    (heq : s.find_download_opportunity = some (some dop, t2)) :
    ∃ best, s.best_candidate = some best ∧
      (∃ si c, lookupId best.split_ulid s.split_to_status = some si ∧
        si.status = Status.candidate c ∧ dop.split_to_download = c) ∧
      ∀ id ∈ dop.splits_to_delete, ∃ si,
        lookupId id s.split_to_status = some si ∧
        (∃ n, si.status = Status.onDisk n) ∧
        si.split_key.last_accessed ≤ best.last_accessed :=
  (fdo_spec (inv_of_reachable hr) heq).2 dop rfl

theorem C2_witness :
    ∃ best, sEvict.best_candidate = some best ∧
      (∃ si c, lookupId best.split_ulid sEvict.split_to_status = some si ∧
        si.status = Status.candidate c ∧ dopEvict.split_to_download = c) ∧
      ∀ id ∈ dopEvict.splits_to_delete, ∃ si,
        lookupId id sEvict.split_to_status = some si ∧
        (∃ n, si.status = Status.onDisk n) ∧
        si.split_key.last_accessed ≤ best.last_accessed :=
  C2_no_warmer_eviction
    (stepsOk_reachable trEvict (reachable_table0 limitsBytes7) (show stepsOk (table0 limitsBytes7) T0 trEvict = some (sEvict, 1300000000) from rfl)) rfl

/-- C3 (amended): on every reachable state, a completed `start_download(id)`
hands out a candidate exactly when `id` is currently a `Candidate` (which it
promotes to `Downloading` under the same living token).  In every other case
it answers `None`, but the table is not always left unchanged: an unknown
`id` only pops the fd-cache entry (necessarily absent, by the fd invariant);
a known `OnDisk` entry, or a `Downloading` entry whose token is still live,
keeps its record with the fd entry popped; and — the case refuting the
original claim — a `Downloading` entry whose token is dead is erased
outright by `remove`'s dead-token path (see the counterexample). -/
theorem C3_start_download_iff {limits : SplitCacheLimits} {s : SplitTable} {now : Nat}
    {u : Nat} {r : Option CandidateSplit} {t2 : SplitTable}
    (hr : Reachable limits s now)
    (heq : s.start_download u = some (r, t2)) :
    ((∃ c, r = some c) ↔
      (∃ si c, lookupId u s.split_to_status = some si ∧
        si.status = Status.candidate c)) ∧
    (∀ si c, lookupId u s.split_to_status = some si →
      si.status = Status.candidate c →
      r = some c ∧ lookupId u t2.split_to_status =
        some { split_key := si.split_key,
               status := Status.downloading c.living_token }) ∧
    (lookupId u s.split_to_status = none →
      r = none ∧ t2 = { s with fd_cache := fdErase u s.fd_cache }) ∧
    (∀ si, lookupId u s.split_to_status = some si →
      (∀ c, si.status ≠ Status.candidate c) →
      (∀ tk, si.status = Status.downloading tk → tk ∉ s.dead_tokens) →
      r = none ∧ lookupId u t2.split_to_status = some si) ∧
    (∀ si tk, lookupId u s.split_to_status = some si →
      si.status = Status.downloading tk → tk ∈ s.dead_tokens →
      r = none ∧
      t2 = { s with fd_cache := fdErase u s.fd_cache,
                    split_to_status := eraseId u s.split_to_status,
                    downloading_splits := eraseKey si.split_key s.downloading_splits }) := by
  have hI := inv_of_reachable hr
  refine ⟨⟨?_, ?_⟩, ?_, ?_, ?_, ?_⟩
  · rintro ⟨c, rfl⟩
    rcases start_download_some_char hI heq with ⟨si, h1, h2⟩
    exact ⟨si, c, h1, h2⟩
  · rintro ⟨si, c, hlk, hs⟩
    exact ⟨c, ((start_download_candidate_spec hI hlk hs heq).1)⟩
  · intro si c hlk hs
    rcases start_download_candidate_spec hI hlk hs heq with ⟨hr1, _, hlk2, _⟩
    exact ⟨hr1, hlk2⟩
  · intro habs
    have hfst : (s.remove u).1 = none := by
      rw [remove_of_none habs]
    rw [start_download_none hfst] at heq
    simp only [Option.some.injEq, Prod.mk.injEq] at heq
    rcases heq with ⟨h1, h2⟩
    refine ⟨h1.symm, ?_⟩
    rw [← h2]
    have h3 := congrArg Prod.snd (remove_of_none habs)
    exact h3
  · intro si hlk hnc hlive
    rcases start_download_other_spec hI hlk hlive hnc heq with ⟨hr1, _, hlk2, _⟩
    exact ⟨hr1, hlk2⟩
  · intro si tk hlk hdl hdead
    have hrem := remove_of_downloading hlk hdl
    rw [if_pos hdead] at hrem
    have hfst : (s.remove u).1 = none := by rw [hrem]
    rw [start_download_none hfst] at heq
    simp only [Option.some.injEq, Prod.mk.injEq] at heq
    rcases heq with ⟨h1, h2⟩
    refine ⟨h1.symm, ?_⟩
    rw [← h2]
    exact congrArg Prod.snd hrem

theorem C3_witness :
    ((∃ c, sdOneCand.1 = some c) ↔
      (∃ si c, lookupId 1 sOneCand.split_to_status = some si ∧
        si.status = Status.candidate c)) ∧
    lookupId 1 sdOneCand.2.split_to_status =
      some { split_key := { last_accessed := 0, split_ulid := 1 },
             status := Status.downloading 0 } := by
  have h := C3_start_download_iff
    (stepsOk_reachable trOneCand (reachable_table0 limitsRoomy) (show stepsOk (table0 limitsRoomy) T0 trOneCand = some (sOneCand, T0) from rfl))
    (show sOneCand.start_download 1 = some (sdOneCand.1, sdOneCand.2) from rfl)
  refine ⟨h.1, ?_⟩
  have h2 := (h.2.1 { split_key := { last_accessed := 0, split_ulid := 1 }, status := Status.candidate { storage_uri := "s3://u", split_ulid := 1, living_token := 0 } } { storage_uri := "s3://u", split_ulid := 1, living_token := 0 } rfl rfl).2
  exact h2

theorem C3_counterexample :
    Reachable limitsRoomy sDead T0 ∧
    lookupId 1 sDead.split_to_status =
      some { split_key := { last_accessed := 0, split_ulid := 1 },
             status := Status.downloading 0 } ∧
    sDead.start_download 1 = some (none, sdDead.2) ∧
    lookupId 1 sdDead.2.split_to_status = none ∧
    sdDead.2 ≠ sDead :=
  ⟨stepsOk_reachable trDead (reachable_table0 limitsRoomy) rfl,
    by decide, by decide, by decide, by decide⟩

/-- C4 (amended): on every reachable state, a refused
`make_room_for_split_if_necessary` (`None` answer) restores the on-disk and
candidate queues, the byte counter and — up to the abandoned-download GC —
the status index; but the downloading queue and the fd cache may have lost
entries, so the original "state exactly as before" is refuted (see the
counterexample, which loses an fd-cache entry). -/
theorem C4_refusal_rolls_back {limits : SplitCacheLimits} {s : SplitTable} {now : Nat}
    {bound : Option Nat} {t2 : SplitTable}
    (hr : Reachable limits s now)
    (heq : s.make_room_for_split_if_necessary bound = some (none, t2)) :
    t2.on_disk_splits = s.on_disk_splits ∧
    t2.candidate_splits = s.candidate_splits ∧
    t2.on_disk_bytes = s.on_disk_bytes ∧
    (∀ j, lookupId j t2.split_to_status = lookupId j s.split_to_status ∨
      (lookupId j t2.split_to_status = none ∧ deadDL s j)) ∧
    List.Sublist t2.downloading_splits s.downloading_splits ∧
    List.Sublist t2.fd_cache s.fd_cache ∧
    t2.limits = s.limits ∧ t2.dead_tokens = s.dead_tokens ∧
    t2.next_token = s.next_token := by
  rcases make_room_spec (inv_of_reachable hr) heq with ⟨_, hlim, hde, hnx, hfd, hbr⟩
  rcases hbr with ⟨_, hod, hcd, hdl, hb, hpw⟩ | ⟨ids, hids, _⟩
  · exact ⟨hod, hcd, hb, hpw, hdl, hfd, hlim, hde, hnx⟩
  · exact Option.noConfusion hids

theorem C4_witness :
    mrRollback.2.on_disk_splits = sRollback.on_disk_splits ∧
    mrRollback.2.candidate_splits = sRollback.candidate_splits ∧
    mrRollback.2.on_disk_bytes = sRollback.on_disk_bytes := by
  have h := C4_refusal_rolls_back
    (stepsOk_reachable trRollback (reachable_table0 limitsBytes15) (show stepsOk (table0 limitsBytes15) T0 trRollback = some (sRollback, 700000000) from rfl))
    (show sRollback.make_room_for_split_if_necessary (some T0) =
      some (none, mrRollback.2) from rfl)
  exact ⟨h.1, h.2.1, h.2.2.1⟩

theorem C4_counterexample :
    Reachable limitsBytes15 sRollback 700000000 ∧
    sRollback.make_room_for_split_if_necessary (some T0) =
      some (none, mrRollback.2) ∧
    sRollback.fd_cache = [(1, 10)] ∧ mrRollback.2.fd_cache = [] ∧
    mrRollback.2 ≠ sRollback :=
  ⟨stepsOk_reachable trRollback (reachable_table0 limitsBytes15) rfl,
    by decide, by decide, by decide, by decide⟩

/-- C5: on every reachable state, a completed `report` of an unknown split
inserts a `Candidate` dated `now - NEWLY_REPORTED_SPLIT_LAST_TIME` (ten
minutes before `now` in the table's microsecond timebase), whose key is
therefore smaller than the key of any split touched within the last ten
minutes. -/
theorem C5_report_backdates {limits : SplitCacheLimits} {s : SplitTable} {now0 : Nat}
    {u : Nat} {uri : String} {now : Nat} {t2 : SplitTable}
    (hr : Reachable limits s now0)
    (habs : lookupId u s.split_to_status = none)
    (heq : s.report u uri now = some t2) :
    lookupId u t2.split_to_status =
      some (freshCandidate uri u s.next_token
        (now - NEWLY_REPORTED_SPLIT_LAST_TIME)) ∧
    (freshCandidate uri u s.next_token
      (now - NEWLY_REPORTED_SPLIT_LAST_TIME)).split_key.last_accessed =
      now - NEWLY_REPORTED_SPLIT_LAST_TIME ∧
    ∀ k : SplitKey, now - NEWLY_REPORTED_SPLIT_LAST_TIME < k.last_accessed →
      keyLt (freshCandidate uri u s.next_token
        (now - NEWLY_REPORTED_SPLIT_LAST_TIME)).split_key k := by
  have hfst : (s.remove u).1 = none := by
    rw [remove_of_none habs]
  rcases report_none_spec (inv_of_reachable hr) hfst heq with ⟨_, hlk, _⟩
  refine ⟨hlk, rfl, ?_⟩
  intro k hk
  show keyLtb _ k = true
  unfold keyLtb
  simp only [Bool.or_eq_true, Bool.and_eq_true, decide_eq_true_eq]
  left
  exact hk

theorem C5_witness :
    lookupId 5 sReported.split_to_status =
      some (freshCandidate "s3://u" 5 (table0 limitsRoomy).next_token
        (1300000000 - NEWLY_REPORTED_SPLIT_LAST_TIME)) ∧
    keyLt (freshCandidate "s3://u" 5 (table0 limitsRoomy).next_token
      (1300000000 - NEWLY_REPORTED_SPLIT_LAST_TIME)).split_key
      { last_accessed := 800000000, split_ulid := 3 } := by
  have h := C5_report_backdates (reachable_table0 limitsRoomy)
    (show lookupId 5 (table0 limitsRoomy).split_to_status = none from rfl)
    (show (table0 limitsRoomy).report 5 "s3://u" 1300000000 = some sReported from rfl)
  exact ⟨h.1, h.2.2 { last_accessed := 800000000, split_ulid := 3 } (by decide)⟩

/-- C6 (amended): a completed `try_get_or_open_fd` that misses the fd cache
and returns a handle refreshes the split's `last_accessed` to `now` in the
status index and keeps its key in the on-disk queue.  The original claim is
refuted for fd-cache hits, which return at once without touching the split
(see the counterexample). -/
theorem C6_miss_refreshes {limits : SplitCacheLimits} {s : SplitTable} {now0 : Nat}
    {u : Nat} {uri : String} {now v : Nat} {t2 : SplitTable}
    (hr : Reachable limits s now0)
    (hmiss : fdLookup u s.fd_cache = none)
    (heq : s.try_get_or_open_fd u uri now = some (some v, t2)) :
    ∃ si, lookupId u t2.split_to_status = some si ∧
      si.split_key.last_accessed = now ∧ si.status = Status.onDisk v ∧
      si.split_key ∈ t2.on_disk_splits := by
  have hI := inv_of_reachable hr
  unfold SplitTable.try_get_or_open_fd fdGet at heq
  rw [hmiss] at heq
  dsimp only at heq
  cases htch : s.touch u uri now with
  | none =>
    rw [htch] at heq
    cases heq
  | some p =>
    obtain ⟨st, t1⟩ := p
    rw [htch] at heq
    dsimp only at heq
    have hI1 : Inv t1 := touch_Inv hI htch
    cases hs : st with
    | onDisk nb =>
      rw [hs] at heq
      dsimp only at heq
      simp only [Option.some.injEq, Prod.mk.injEq] at heq
      rcases heq with ⟨hv, ht2⟩
      cases hfst : (s.remove u).1 with
      | some info =>
        rcases touch_known_spec hI (remove_fst_some hfst)
          (remove_fst_live hfst) htch with ⟨hst, _, hlkx, _⟩
        have hsi : (touchedInfo info now).status = Status.onDisk v := by
          show info.status = Status.onDisk v
          rw [← hst, hs, hv]
        refine ⟨touchedInfo info now, ?_, rfl, hsi, ?_⟩
        · rw [← ht2]
          exact hlkx
        · have hcons := (hI1.1.consistent u (touchedInfo info now) hlkx).2
          rw [hsi] at hcons
          rw [← ht2]
          exact hcons
      | none =>
        rcases touch_none_spec hI hfst htch with ⟨hst, _⟩
        rw [hs] at hst
        cases hst
    | candidate c =>
      rw [hs] at heq
      dsimp only at heq
      simp only [Option.some.injEq, Prod.mk.injEq] at heq
      rcases heq with ⟨hv, _⟩
      cases hv
    | downloading tk =>
      rw [hs] at heq
      dsimp only at heq
      simp only [Option.some.injEq, Prod.mk.injEq] at heq
      rcases heq with ⟨hv, _⟩
      cases hv

theorem C6_witness :
    ∃ si, lookupId 1 tgOnDisk.2.split_to_status = some si ∧
      si.split_key.last_accessed = 700000000 ∧ si.status = Status.onDisk 10 ∧
      si.split_key ∈ tgOnDisk.2.on_disk_splits :=
  C6_miss_refreshes
    (stepsOk_reachable trOnDisk (reachable_table0 limitsRoomy) (show stepsOk (table0 limitsRoomy) T0 trOnDisk = some (sOnDisk, T0) from rfl))
    rfl
    (show sOnDisk.try_get_or_open_fd 1 "s3://u" 700000000 =
      some (some 10, tgOnDisk.2) from rfl)

theorem C6_counterexample :
    Reachable limitsRoomy sFd T0 ∧
    sFd.try_get_or_open_fd 1 "s3://u" 900000000 = some (some 10, tgFd.2) ∧
    lookupId 1 tgFd.2.split_to_status =
      some { split_key := { last_accessed := 600000000, split_ulid := 1 },
             status := Status.onDisk 10 } ∧
    (600000000 : Nat) ≠ 900000000 :=
  ⟨stepsOk_reachable trFd (reachable_table0 limitsRoomy) rfl,
    by decide, by decide, by decide⟩

/-- C7 (amended): on every reachable state, a completed `report` of a known
split whose entry is live reinserts the very same record — no refresh, no
status change — and preserves the queues, the byte counter and (up to the
abandoned-download GC) the status index; but it pops the split's fd-cache
entry, and a `report` of a `Downloading` split whose token is dead replaces
the entry by a fresh `Candidate`, so the original "completely unchanged" is
refuted (see the counterexample). -/
theorem C7_report_known_frame {limits : SplitCacheLimits} {s : SplitTable} {now0 : Nat}
    {u : Nat} {uri : String} {now : Nat} {info : SplitInfo} {t2 : SplitTable}
    (hr : Reachable limits s now0)
    (hlk : lookupId u s.split_to_status = some info)
    (hlive : ∀ tk, info.status = Status.downloading tk → tk ∉ s.dead_tokens)
    (heq : s.report u uri now = some t2) :
    lookupId u t2.split_to_status = some info ∧
    (∀ j, j ≠ u → lookupId j t2.split_to_status = lookupId j s.split_to_status ∨
      (lookupId j t2.split_to_status = none ∧ deadDL s j)) ∧
    t2.on_disk_splits = s.on_disk_splits ∧
    t2.candidate_splits = s.candidate_splits ∧
    List.Sublist t2.downloading_splits s.downloading_splits ∧
    t2.on_disk_bytes = s.on_disk_bytes ∧
    t2.next_token = s.next_token ∧ t2.dead_tokens = s.dead_tokens ∧
    t2.limits = s.limits ∧
    t2.fd_cache = fdErase u s.fd_cache := by
  rcases report_known_spec (inv_of_reachable hr) hlk hlive heq with
    ⟨_, hlk2, hpw, hfd, hlim, hde, hnx, hb, hod, hcd, hdl⟩
  exact ⟨hlk2, hpw, hod, hcd, hdl, hb, hnx, hde, hlim, hfd⟩

theorem C7_witness :
    lookupId 1 sFdReported.split_to_status =
      some { split_key := { last_accessed := 600000000, split_ulid := 1 },
             status := Status.onDisk 10 } ∧
    sFdReported.on_disk_splits = sFd.on_disk_splits ∧
    sFdReported.fd_cache = fdErase 1 sFd.fd_cache := by
  have h := C7_report_known_frame
    (stepsOk_reachable trFd (reachable_table0 limitsRoomy) (show stepsOk (table0 limitsRoomy) T0 trFd = some (sFd, T0) from rfl))
    (show lookupId 1 sFd.split_to_status =
      some { split_key := { last_accessed := 600000000, split_ulid := 1 },
             status := Status.onDisk 10 } from rfl)
    (fun tk htk => nomatch htk)
    (show sFd.report 1 "s3://u" 800000000 = some sFdReported from rfl)
  exact ⟨h.1, h.2.2.1, h.2.2.2.2.2.2.2.2.2⟩

theorem C7_counterexample :
    Reachable limitsRoomy sDead T0 ∧
    (lookupId 1 sDead.split_to_status).map (fun si => si.status) =
      some (Status.downloading 0) ∧
    0 ∈ sDead.dead_tokens ∧
    sDead.report 1 "s3://u" 800000000 = some sDeadReported ∧
    lookupId 1 sDeadReported.split_to_status =
      some (freshCandidate "s3://u" 1 1 200000000) ∧
    sDeadReported ≠ sDead :=
  ⟨stepsOk_reachable trDead (reachable_table0 limitsRoomy) rfl,
    by decide, by decide, by decide, by decide, by decide⟩

/-- C8 (amended): on every reachable state the `on_disk_bytes` counter
equals the sum of the `OnDisk` sizes reduced modulo 2^64 (`u64` wrapping
arithmetic).  The original exact-sum claim is refuted by registering two
splits of 2^63 bytes, which wraps the counter to zero (see the
counterexample). -/
theorem C8_bytes_modular {limits : SplitCacheLimits} {s : SplitTable} {now : Nat}
    (hr : Reachable limits s now) :
    s.on_disk_bytes = sumOnDisk s.split_to_status % W :=
  (inv_of_reachable hr).1.bytes_eq

theorem C8_witness :
    sOverflow.on_disk_bytes = sumOnDisk sOverflow.split_to_status % W :=
  C8_bytes_modular (stepsOk_reachable trOverflow (reachable_table0 limitsRoomy) (show stepsOk (table0 limitsRoomy) T0 trOverflow = some (sOverflow, T0) from rfl))

theorem C8_counterexample :
    Reachable limitsRoomy sOverflow T0 ∧
    sOverflow.on_disk_bytes = 0 ∧
    sumOnDisk sOverflow.split_to_status = 18446744073709551616 ∧
    sOverflow.on_disk_bytes ≠ sumOnDisk sOverflow.split_to_status :=
  ⟨stepsOk_reachable trOverflow (reachable_table0 limitsRoomy) rfl,
    by decide, by decide, by decide⟩

/-- C9: on every reachable state the candidate queue holds at most
`MAX_NUM_CANDIDATES` (1000) keys, and when a `report` of an unknown split
completes, the resulting candidate queue is the sorted insertion of the new
key with exactly the smallest keys dropped until the cap holds. -/
theorem C9_candidate_cap {limits : SplitCacheLimits} {s : SplitTable} {now : Nat}
    (hr : Reachable limits s now) :
    s.candidate_splits.length ≤ MAX_NUM_CANDIDATES ∧
    (∀ u uri now2 t2, lookupId u s.split_to_status = none →
      s.report u uri now2 = some t2 →
      t2.candidate_splits =
        (btreeInsert (freshCandidate uri u s.next_token
            (now2 - NEWLY_REPORTED_SPLIT_LAST_TIME)).split_key
          s.candidate_splits).drop
          ((btreeInsert (freshCandidate uri u s.next_token
              (now2 - NEWLY_REPORTED_SPLIT_LAST_TIME)).split_key
            s.candidate_splits).length - MAX_NUM_CANDIDATES)) := by
  refine ⟨(inv_of_reachable hr).2, ?_⟩
  intro u uri now2 t2 habs heq
  have hfst : (s.remove u).1 = none := by
    rw [remove_of_none habs]
  rcases report_none_spec (inv_of_reachable hr) hfst heq with
    ⟨_, _, _, _, _, _, _, _, _, hdrop, _⟩
  rw [remove_of_none habs] at hdrop
  dsimp only at hdrop
  exact hdrop

theorem C9_witness :
    sOneCand.candidate_splits.length ≤ MAX_NUM_CANDIDATES ∧
    sTwoCand.candidate_splits =
      (btreeInsert (freshCandidate "s3://u" 2 sOneCand.next_token
          (T0 - NEWLY_REPORTED_SPLIT_LAST_TIME)).split_key
        sOneCand.candidate_splits).drop
        ((btreeInsert (freshCandidate "s3://u" 2 sOneCand.next_token
            (T0 - NEWLY_REPORTED_SPLIT_LAST_TIME)).split_key
          sOneCand.candidate_splits).length - MAX_NUM_CANDIDATES) := by
  have h := C9_candidate_cap
    (stepsOk_reachable trOneCand (reachable_table0 limitsRoomy) (show stepsOk (table0 limitsRoomy) T0 trOneCand = some (sOneCand, T0) from rfl))
  exact ⟨h.1, h.2 2 "s3://u" T0 sTwoCand (by decide)
    (show sOneCand.report 2 "s3://u" T0 = some sTwoCand from rfl)⟩

/-- C10 (amended): on every reachable state, a COMPLETED `touch` of a split
whose status is `Downloading` under a dead token returns a brand-new
`Candidate` (fresh living token, `last_accessed = now`) and installs it in
the status index.  The original claim — that the read path always reclaims
such entries immediately — is refuted: when the candidate queue is at its
cap and the reinserted key is the smallest, the truncation loop inside
`insert` never terminates, so `touch` never returns (the fuelled model
answers `none`; see the counterexample). -/
theorem C10_touch_reclaims_abandoned {limits : SplitCacheLimits} {s : SplitTable}
    {now0 : Nat} {u : Nat} {uri : String} {now : Nat} {info : SplitInfo} {tk : Nat}
    {st : Status} {t2 : SplitTable}
    (hr : Reachable limits s now0)
    (hlk : lookupId u s.split_to_status = some info)
    (hdl : info.status = Status.downloading tk) (hdead : tk ∈ s.dead_tokens)
    (heq : s.touch u uri now = some (st, t2)) :
    st = (freshCandidate uri u s.next_token now).status ∧
    lookupId u t2.split_to_status = some (freshCandidate uri u s.next_token now) := by
  have hfst : (s.remove u).1 = none := by
    rw [remove_of_downloading hlk hdl]
    dsimp only
    rw [if_pos hdead]
  rcases touch_none_spec (inv_of_reachable hr) hfst heq with ⟨hst, _, hlk2, _⟩
  exact ⟨hst, hlk2⟩

theorem C10_witness :
    tchDead.1 = (freshCandidate "s3://u" 1 sDead.next_token 800000000).status ∧
    lookupId 1 tchDead.2.split_to_status =
      some (freshCandidate "s3://u" 1 sDead.next_token 800000000) :=
  C10_touch_reclaims_abandoned
    (stepsOk_reachable trDead (reachable_table0 limitsRoomy) (show stepsOk (table0 limitsRoomy) T0 trDead = some (sDead, T0) from rfl))
    (show lookupId 1 sDead.split_to_status =
      some { split_key := { last_accessed := 0, split_ulid := 1 },
             status := Status.downloading 0 } from rfl)
    rfl (by decide)
    (show sDead.touch 1 "s3://u" 800000000 = some (tchDead.1, tchDead.2) from rfl)

theorem C10_counterexample :
    Reachable limitsRoomy sCapDead T0 ∧
    (lookupId 1 sCapDead.split_to_status).map (fun si => si.status) =
      some (Status.downloading 0) ∧
    0 ∈ sCapDead.dead_tokens ∧
    sCapDead.candidate_splits.length = 1000 ∧
    sCapDead.touch 1 "s3://u" T0 = none :=
  ⟨stepsOk_reachable trCapDead (reachable_table0 limitsRoomy) capReach,
    by
      rw [show lookupId 1 sCapDead.split_to_status = some capDl from capIdx_lookup_one 1000]
      rfl,
    by decide,
    capCd_length 1000,
    capTouchNone⟩

end SplitCache
